import Mathlib

/-!
# Sudoku solver (backtracking and dancing links): embedding of `Sudoku.cpp`

The board is `int board[9][9]`; cells are machine integers read from the puzzle
file, so they are modelled as `Int`.  Loop counters and array indices, which the
code keeps non-negative, are `Nat`.
-/

namespace Sudoku

/-! ## Board and the backtracking solver -/

/-- The board `int board[9][9]`, addressed as `b row col`. -/
abbrev Board := Nat → Nat → Int

/-- The assignment `board[row][col] = v`. -/
def setCell (b : Board) (row col : Nat) (v : Int) : Board :=
  fun i j => if i = row ∧ j = col then v else b i j

/-- `find_empty`: first zero cell in reading order (rows top to bottom, columns left
to right); `none` is the C++ `false`, `some (row, col)` is `true` with the two
reference parameters set. -/
def find_empty (b : Board) : Option (Nat × Nat) :=
  (List.range 9).findSome? fun row =>
    ((List.range 9).find? fun col => b row col == 0).map fun col => (row, col)

/-- `in_row`: is `entry` in row `row`. -/
def in_row (b : Board) (row : Nat) (entry : Int) : Bool :=
  (List.range 9).any fun col => b row col == entry

/-- `in_col`: is `entry` in column `col`. -/
def in_col (b : Board) (col : Nat) (entry : Int) : Bool :=
  (List.range 9).any fun row => b row col == entry

/-- `in_box`: is `entry` in the 3x3 box whose top-left cell is `(start_row, start_col)`. -/
def in_box (b : Board) (start_row start_col : Nat) (entry : Int) : Bool :=
  (List.range 3).any fun i => (List.range 3).any fun j => b (start_row + i) (start_col + j) == entry

/-- `valid_move`. -/
def valid_move (b : Board) (row col : Nat) (entry : Int) : Bool :=
  !in_row b row entry && !in_col b col entry &&
    !in_box b (row - row % 3) (col - col % 3) entry && (b row col == 0)

/-- The digit loop of `backtracking`, `for (digit; digit < 10; digit++)`, with `n`
iterations left; `rec` is the recursive call.  The result is the returned flag and
the board as the call leaves it; `none` only when `rec` gives `none`. -/
def digit_loop (rec : Board → Option (Bool × Board)) (row col : Nat) :
    Nat → Int → Board → Option (Bool × Board)
  | 0, _, b => some (false, b)
  | n + 1, digit, b =>
    if valid_move b row col digit then
      match rec (setCell b row col digit) with
      | none => none
      | some (true, b') => some (true, b')
      | some (false, b') => digit_loop rec row col n (digit + 1) (setCell b' row col 0)
    else digit_loop rec row col n (digit + 1) b

/-- `backtracking` with a bound `fuel` on the recursion depth; `none` means the
bound was reached. -/
def backtrackingAux : Nat → Board → Option (Bool × Board)
  | 0, _ => none
  | fuel + 1, b =>
    match find_empty b with
    | none => some (true, b)
    | some (row, col) => digit_loop (backtrackingAux fuel) row col 9 1 b

/-- `backtracking()`: the recursion is at most 81 deep plus the final call that
finds no empty cell (`backtracking_returns` shows the bound is never reached). -/
def backtracking (b : Board) : Option (Bool × Board) := backtrackingAux 82 b

/-! ### Vocabulary for the claims about boards -/

/-- The digits 1..9. -/
def digits : List Int := [1, 2, 3, 4, 5, 6, 7, 8, 9]

/-- Position `t` (0..8) of row `k`. -/
def rowPos (k t : Nat) : Nat × Nat := (k, t)

/-- Position `t` (0..8) of column `k`. -/
def colPos (k t : Nat) : Nat × Nat := (t, k)

/-- Position `t` (0..8) of box `k`; boxes are numbered 0..8 in reading order. -/
def boxPos (k t : Nat) : Nat × Nat := (3 * (k / 3) + t / 3, 3 * (k % 3) + t % 3)

/-- Number of the nine cells `pos 0 .. pos 8` that hold `d`. -/
def cnt (b : Board) (pos : Nat → Nat × Nat) (d : Int) : Nat :=
  ((Finset.range 9).filter fun t => b (pos t).1 (pos t).2 = d).card

/-- Every cell is in 0..9. -/
def InRange (b : Board) : Prop := ∀ r < 9, ∀ c < 9, 0 ≤ b r c ∧ b r c ≤ 9

/-- No digit 1..9 occurs twice in a row, a column or a box. -/
def NoRepeat (b : Board) : Prop :=
  ∀ k < 9, ∀ d ∈ digits,
    cnt b (rowPos k) d ≤ 1 ∧ cnt b (colPos k) d ≤ 1 ∧ cnt b (boxPos k) d ≤ 1

/-- No cell is zero. -/
def NoZero (b : Board) : Prop := ∀ r < 9, ∀ c < 9, b r c ≠ 0

/-- Every row, column and box holds each digit 1..9 exactly once. -/
def Solved (b : Board) : Prop :=
  ∀ k < 9, ∀ d ∈ digits,
    cnt b (rowPos k) d = 1 ∧ cnt b (colPos k) d = 1 ∧ cnt b (boxPos k) d = 1

/-- The board `g` keeps every nonzero cell of `b`. -/
def Extends (b g : Board) : Prop := ∀ r < 9, ∀ c < 9, b r c ≠ 0 → g r c = b r c

/-- A valid completion of `b`: a solved grid that keeps the givens of `b`. -/
def Completion (b g : Board) : Prop := Solved g ∧ Extends b g

/-- Number of zero cells. -/
def zeros (b : Board) : Nat :=
  ((Finset.range 9 ×ˢ Finset.range 9).filter fun p => b p.1 p.2 = 0).card

instance (b : Board) : Decidable (InRange b) := by unfold InRange; infer_instance

instance (b : Board) : Decidable (NoRepeat b) := by unfold NoRepeat; infer_instance

instance (b : Board) : Decidable (NoZero b) := by unfold NoZero; infer_instance

instance (b : Board) : Decidable (Solved b) := by unfold Solved; infer_instance

instance (b g : Board) : Decidable (Extends b g) := by unfold Extends; infer_instance

/-- A board written as nine rows; cells outside the rows are 0. -/
def ofRows (rows : List (List Int)) : Board := fun r c => (rows.getD r []).getD c 0

/-- A solved grid used as a concrete input. -/
def grid1 : Board := ofRows
  [[1,2,3,4,5,6,7,8,9],
   [4,5,6,7,8,9,1,2,3],
   [7,8,9,1,2,3,4,5,6],
   [2,3,4,5,6,7,8,9,1],
   [5,6,7,8,9,1,2,3,4],
   [8,9,1,2,3,4,5,6,7],
   [3,4,5,6,7,8,9,1,2],
   [6,7,8,9,1,2,3,4,5],
   [9,1,2,3,4,5,6,7,8]]

/-- The grid `grid1` with the cells (0,0), (4,4) and (8,8) blanked. -/
def puzzle1 : Board := setCell (setCell (setCell grid1 0 0 0) 4 4 0) 8 8 0

/-! ## Dancing links: candidate index and the exact-cover matrix -/

/-- `get_index(row, col, digit)`: row of the candidate in the cover matrix. -/
def get_index (row col digit : Int) : Int := (row * 81) + (col * 9) + (digit - 1) + 1

/-- The row decoded by `set_DLX_sol` from a candidate index: `(ind - 1) / 81`
(C++ division, truncating). -/
def decode_row (ind : Int) : Int := (ind - 1).tdiv 81

/-- The column decoded by `set_DLX_sol`: `((ind - 1) / 9) % 9`. -/
def decode_col (ind : Int) : Int := ((ind - 1).tdiv 9).tmod 9

/-- The digit decoded by `set_DLX_sol`: `ind - row * 81 - col * 9`. -/
def decode_digit (ind : Int) : Int := ind - (decode_row ind * 81) - (decode_col ind * 9)

/-- The matrix `bool cover_mat[730][324]`, addressed as `m row col`. -/
abbrev Mat := Nat → Nat → Bool

/-- The assignment `cover_mat[i][j] = v`. -/
def setM (m : Mat) (i j : Nat) (v : Bool) : Mat :=
  fun i' j' => if i' = i ∧ j' = j then v else m i' j'

/-- `get_index` used as an array index, for loop counters. -/
def idx (row col digit : Nat) : Nat := (get_index row col digit).toNat

/-- Body of the `col` loop of `cell_constraint`: the `digit` loop, then `b++`.
The state is the matrix and the running column `b`. -/
def cell_col_body (row : Nat) (st : Mat × Nat) (col : Nat) : Mat × Nat :=
  ((List.range' 1 9).foldl (fun m digit => setM m (idx row col digit) st.2 true) st.1, st.2 + 1)

/-- Body of the `row` loop of `cell_constraint`. -/
def cell_row_body (st : Mat × Nat) (row : Nat) : Mat × Nat :=
  (List.range 9).foldl (cell_col_body row) st

/-- `cell_constraint(b)`. -/
def cell_constraint (st : Mat × Nat) : Mat × Nat := (List.range 9).foldl cell_row_body st

/-- Body of the `digit` loop of `row_constraint`: the `col` loop, then `b++`. -/
def row_digit_body (row : Nat) (st : Mat × Nat) (digit : Nat) : Mat × Nat :=
  ((List.range 9).foldl (fun m col => setM m (idx row col digit) st.2 true) st.1, st.2 + 1)

/-- Body of the `row` loop of `row_constraint`. -/
def row_row_body (st : Mat × Nat) (row : Nat) : Mat × Nat :=
  (List.range' 1 9).foldl (row_digit_body row) st

/-- `row_constraint(b)`. -/
def row_constraint (st : Mat × Nat) : Mat × Nat := (List.range 9).foldl row_row_body st

/-- Body of the `digit` loop of `col_constraint`: the `row` loop, then `b++`. -/
def col_digit_body (col : Nat) (st : Mat × Nat) (digit : Nat) : Mat × Nat :=
  ((List.range 9).foldl (fun m row => setM m (idx row col digit) st.2 true) st.1, st.2 + 1)

/-- Body of the `col` loop of `col_constraint`. -/
def col_col_body (st : Mat × Nat) (col : Nat) : Mat × Nat :=
  (List.range' 1 9).foldl (col_digit_body col) st

/-- `col_constraint(b)`. -/
def col_constraint (st : Mat × Nat) : Mat × Nat := (List.range 9).foldl col_col_body st

/-- Body of the `i` loop of `box_constraint`: the `j` loop. -/
def box_i_body (row col digit b : Nat) (m : Mat) (i : Nat) : Mat :=
  (List.range 3).foldl (fun m j => setM m (idx (row + i) (col + j) digit) b true) m

/-- Body of the `digit` loop of `box_constraint`: the `i` loop, then `b++`. -/
def box_digit_body (row col : Nat) (st : Mat × Nat) (digit : Nat) : Mat × Nat :=
  ((List.range 3).foldl (box_i_body row col digit st.2) st.1, st.2 + 1)

/-- Body of the `col` loop of `box_constraint`. -/
def box_col_body (row : Nat) (st : Mat × Nat) (col : Nat) : Mat × Nat :=
  (List.range' 1 9).foldl (box_digit_body row col) st

/-- Body of the `row` loop of `box_constraint`. -/
def box_row_body (st : Mat × Nat) (row : Nat) : Mat × Nat :=
  [0, 3, 6].foldl (box_col_body row) st

/-- `box_constraint(b)`: `row` and `col` step by 3. -/
def box_constraint (st : Mat × Nat) : Mat × Nat := [0, 3, 6].foldl box_row_body st

/-- The loop `for (i = 0; i < 324; i++) cover_mat[ind][i] = false`. -/
def clear_row (m : Mat) (ind : Nat) : Mat :=
  (List.range 324).foldl (fun m i => setM m ind i false) m

/-- Body of the `digit` loop over a given cell of `dancing_links`. -/
def elim_digit_body (b : Board) (row col : Nat) (m : Mat) (digit : Nat) : Mat :=
  if b row col ≠ (digit : Int) then clear_row m (idx row col digit) else m

/-- Body of the `col` loop over the givens. -/
def elim_col_body (b : Board) (row : Nat) (m : Mat) (col : Nat) : Mat :=
  if b row col ≠ 0 then (List.range' 1 9).foldl (elim_digit_body b row col) m else m

/-- Body of the `row` loop over the givens. -/
def elim_row_body (b : Board) (m : Mat) (row : Nat) : Mat :=
  (List.range 9).foldl (elim_col_body b row) m

/-- The pass of `dancing_links` over the givens: for a nonzero cell, every candidate
row of that cell with another digit is set to false in all 324 columns. -/
def eliminate_givens (b : Board) (m : Mat) : Mat := (List.range 9).foldl (elim_row_body b) m

/-- The matrix `cover_mat` as `dancing_links` builds it: row 0 true, the rest false,
then the four constraint passes sharing the counter `x`, then the givens. -/
def build_cover_mat (b : Board) : Mat :=
  let m0 : Mat := fun i _ => decide (i = 0)
  let st := box_constraint (col_constraint (row_constraint (cell_constraint (m0, 0))))
  eliminate_givens b st.1

/-- Number of true entries of row `i` of the matrix. -/
def rowCount (m : Mat) (i : Nat) : Nat := ((Finset.range 324).filter fun j => m i j = true).card

/-- The four constraint columns of candidate `(r, c, d)`: cell, row-has-digit,
column-has-digit, box-has-digit. -/
def candCols (r c d : Nat) : List Nat :=
  [r * 9 + c, 81 + r * 9 + (d - 1), 162 + c * 9 + (d - 1), 243 + (3 * (r / 3) + c / 3) * 9 + (d - 1)]

/-! ## Dancing links: the linked structure -/

/-- Addresses of `Node` objects: the null pointer, the master header `header`, and
the array cells `&link_mat[row][col]`. -/
inductive Ptr where
  | null : Ptr
  | header : Ptr
  | node (row col : Nat) : Ptr
  deriving DecidableEq

/-- The memory holding the `Node` objects, one map per field of `struct Node`. -/
structure Links where
  l : Ptr → Ptr
  r : Ptr → Ptr
  u : Ptr → Ptr
  d : Ptr → Ptr
  c : Ptr → Ptr
  rowID : Ptr → Int
  colID : Ptr → Int
  count : Ptr → Int

/-- The loops `do { y = (y + step) % n; } while (!cover_mat[..][y] && (y != stop));`
of `create_link_mat`, with `p y` the matrix entry looked at; `fuel` bounds the
iterations (`n` of them always suffice, see `scan_exit`). -/
def scan (p : Nat → Bool) (n step stop : Nat) : Nat → Nat → Nat
  | 0, y => y
  | fuel + 1, y =>
    let y' := (y + step) % n
    if !p y' && y' != stop then scan p n step stop fuel y' else y'

/-- The body of the double loop of `create_link_mat` at `(row, col)`. -/
def link_entry (m : Mat) (s : Links) (row col : Nat) : Links :=
  if m row col then
    let s1 : Links :=
      if row > 0 then
        { s with count := Function.update s.count (.node 0 col) (s.count (.node 0 col) + 1) }
      else s
    { s1 with
      c := Function.update s1.c (.node row col) (.node 0 col)
      rowID := Function.update s1.rowID (.node row col) row
      colID := Function.update s1.colID (.node row col) col
      l := Function.update s1.l (.node row col) (.node row (scan (m row) 324 323 col 324 col))
      r := Function.update s1.r (.node row col) (.node row (scan (m row) 324 1 col 324 col))
      u := Function.update s1.u (.node row col)
        (.node (scan (fun x => m x col) 730 729 row 730 row) col)
      d := Function.update s1.d (.node row col)
        (.node (scan (fun x => m x col) 730 1 row 730 row) col) }
  else s

/-- The last four assignments of `create_link_mat`, which put the master header
between columns 323 and 0. -/
def link_header (s : Links) : Links :=
  let s1 : Links := { s with r := Function.update s.r .header (.node 0 0) }
  let s2 : Links := { s1 with l := Function.update s1.l .header (.node 0 323) }
  let s3 : Links := { s2 with l := Function.update s2.l (.node 0 0) .header }
  { s3 with r := Function.update s3.r (.node 0 323) .header }

/-- `create_link_mat()` on the matrix `m`, starting from the memory `s`. -/
def create_link_mat (m : Mat) (s : Links) : Links :=
  link_header ((List.range 730).foldl (fun s row =>
    (List.range 324).foldl (fun s col => link_entry m s row col) s) s)

/-- `cnode->l->r = cnode->r; cnode->r->l = cnode->l;` -/
def unlink_lr (s : Links) (cnode : Ptr) : Links :=
  let s1 : Links := { s with r := Function.update s.r (s.l cnode) (s.r cnode) }
  { s1 with l := Function.update s1.l (s1.r cnode) (s1.l cnode) }

/-- `colnode->l->r = colnode; colnode->r->l = colnode;` -/
def relink_lr (s : Links) (colnode : Ptr) : Links :=
  let s1 : Links := { s with r := Function.update s.r (s.l colnode) colnode }
  { s1 with l := Function.update s1.l (s1.r colnode) colnode }

/-- `rnode->u->d = rnode->d; rnode->d->u = rnode->u; link_mat[0][rnode->colID].count--;` -/
def unlink_ud (s : Links) (rnode : Ptr) : Links :=
  let s1 : Links := { s with d := Function.update s.d (s.u rnode) (s.d rnode) }
  let s2 : Links := { s1 with u := Function.update s1.u (s1.d rnode) (s1.u rnode) }
  let hd : Ptr := .node 0 (s2.colID rnode).toNat
  { s2 with count := Function.update s2.count hd (s2.count hd - 1) }

/-- `lnode->u->d = lnode; lnode->d->u = lnode; link_mat[0][lnode->colID].count++;` -/
def relink_ud (s : Links) (lnode : Ptr) : Links :=
  let s1 : Links := { s with d := Function.update s.d (s.u lnode) lnode }
  let s2 : Links := { s1 with u := Function.update s1.u (s1.d lnode) lnode }
  let hd : Ptr := .node 0 (s2.colID lnode).toNat
  { s2 with count := Function.update s2.count hd (s2.count hd + 1) }

/-- The loop `for (p = start; p != stop; p = p->next) body(p);` over a ring of
nodes.  `fuel` bounds the number of tests of the loop condition; `none` means the
bound was reached or the body gave `none`. -/
def ring_loop (next : Links → Ptr → Ptr) (body : Links → Ptr → Option Links) (stop : Ptr) :
    Nat → Links → Ptr → Option Links
  | 0, _, _ => none
  | fuel + 1, s, p =>
    if p = stop then some s
    else
      match body s p with
      | none => none
      | some s' => ring_loop next body stop fuel s' (next s' p)

/-- The inner loop of `cover`: `for (rnode = row->r; rnode != row; rnode = rnode->r)`. -/
def cover_row (s : Links) (row : Ptr) : Option Links :=
  ring_loop (fun s p => s.r p) (fun s rnode => some (unlink_ud s rnode)) row 324 s (s.r row)

/-- `cover(targ)`. -/
def cover (s : Links) (targ : Ptr) : Option Links :=
  let cnode := s.c targ
  let s1 := unlink_lr s cnode
  ring_loop (fun s p => s.d p) cover_row cnode 730 s1 (s1.d cnode)

/-- The inner loop of `uncover`: `for (lnode = rownode->l; lnode != rownode; lnode = lnode->l)`. -/
def uncover_row (s : Links) (rownode : Ptr) : Option Links :=
  ring_loop (fun s p => s.l p) (fun s lnode => some (relink_ud s lnode)) rownode 324 s
    (s.l rownode)

/-- `uncover(targ)`. -/
def uncover (s : Links) (targ : Ptr) : Option Links :=
  let colnode := s.c targ
  match ring_loop (fun s p => s.u p) uncover_row colnode 730 s (s.u colnode) with
  | none => none
  | some s1 => some (relink_lr s1 colnode)

/-- The `do ... while (h != header)` loop of `get_min_col`. -/
def min_col_loop (s : Links) : Nat → Ptr → Ptr → Option Ptr
  | 0, _, _ => none
  | fuel + 1, h, min_col =>
    let min_col' := if s.count h < s.count min_col then h else min_col
    let h' := s.r h
    if h' ≠ .header then min_col_loop s fuel h' min_col' else some min_col'

/-- `get_min_col()`. -/
def get_min_col (s : Links) : Option Ptr :=
  min_col_loop s 325 (s.r (s.r .header)) (s.r .header)

/-- The object state that `search` works on. -/
structure DLX where
  links : Links
  solution : List Ptr
  set : Bool
  board : Board

/-- `set_DLX_sol()`: decode every node of the trace into the board. -/
def set_DLX_sol (s : Links) (solution : List Ptr) (b : Board) : Board :=
  solution.foldl (fun b i =>
    setCell b (decode_row (s.rowID i)).toNat (decode_col (s.rowID i)).toNat
      (decode_digit (s.rowID i))) b

/-- What a call of `search` hands back: a value, or nothing when control flows off
the end of the function without a `return`. -/
inductive Ret where
  | value (v : Bool) : Ret
  | noValue : Ret
  deriving DecidableEq

/-- The loop `for (row_n = col_n->d; row_n != col_n; row_n = row_n->d)` of `search`
followed by `uncover(col_n)`; `rec` is the recursive call, whose returned value the
code ignores. -/
def search_rows (rec : DLX → Option (Ret × DLX)) :
    Nat → DLX → Ptr → Ptr → Option (Ret × DLX)
  | 0, _, _, _ => none
  | n + 1, st, col_n, row_n =>
    if row_n = col_n then
      match uncover st.links col_n with
      | none => none
      | some lk => some (.noValue, { st with links := lk })
    else
      let st1 : DLX := { st with solution := st.solution ++ [row_n] }
      match ring_loop (fun s p => s.r p) cover row_n 324 st1.links (st1.links.r row_n) with
      | none => none
      | some lk =>
        match rec { st1 with links := lk } with
        | none => none
        | some (_, st2) =>
          if st2.set then some (.value true, st2)
          else
            let st3 : DLX := { st2 with solution := st2.solution.dropLast }
            let col_n' := st3.links.c row_n
            match ring_loop (fun s p => s.l p) uncover row_n 324 st3.links
                (st3.links.l row_n) with
            | none => none
            | some lk' => search_rows rec n { st3 with links := lk' } col_n' (lk'.d row_n)

/-- `search()` with a bound `fuel` on the recursion depth. -/
def search : Nat → DLX → Option (Ret × DLX)
  | 0, _ => none
  | fuel + 1, st =>
    if st.links.r .header = .header then
      if st.set then some (.value true, st)
      else
        let st1 : DLX := { st with board := set_DLX_sol st.links st.solution st.board }
        let st2 : DLX := if st1.solution.length = 81 then { st1 with set := true } else st1
        some (.value true, st2)
    else
      match get_min_col st.links with
      | none => none
      | some col_n =>
        match cover st.links col_n with
        | none => none
        | some lk => search_rows (search fuel) 730 { st with links := lk } col_n (lk.d col_n)

/-- The master header as `new Node()` makes it: every field zero. -/
def init_header (mem : Links) : Links :=
  { l := Function.update mem.l .header .null
    r := Function.update mem.r .header .null
    u := Function.update mem.u .header .null
    d := Function.update mem.d .header .null
    c := Function.update mem.c .header .null
    rowID := Function.update mem.rowID .header 0
    colID := Function.update mem.colID .header 0
    count := Function.update mem.count .header 0 }

/-- `dancing_links()` on a fresh object (`set` false, empty trace) with board `b`;
`mem` is the content of the freshly allocated `link_mat`, which the code does not
initialise.  The result is what `search` handed back and the final board. -/
def dancing_links (mem : Links) (b : Board) : Option (Ret × Board) :=
  let lk := create_link_mat (build_cover_mat b) (init_header mem)
  (search 82 { links := lk, solution := [], set := false, board := b }).map
    fun p => (p.1, p.2.board)

/-- A memory in which every pointer is null and every number zero. -/
def zero_mem : Links :=
  { l := fun _ => .null, r := fun _ => .null, u := fun _ => .null, d := fun _ => .null,
    c := fun _ => .null, rowID := fun _ => 0, colID := fun _ => 0, count := fun _ => 0 }

/-- A link state whose header ring holds the single column header `link_mat[0][0]`,
with one row node `link_mat[1][0]` under it. -/
def one_col : Links :=
  { zero_mem with
    r := fun p => if p = .header then .node 0 0 else if p = .node 0 0 then .header else p
    l := fun p => if p = .header then .node 0 0 else if p = .node 0 0 then .header else p
    d := fun p => if p = .node 0 0 then .node 1 0 else if p = .node 1 0 then .node 0 0 else p
    u := fun p => if p = .node 0 0 then .node 1 0 else if p = .node 1 0 then .node 0 0 else p
    c := fun p => if p = .node 1 0 then .node 0 0 else p
    rowID := fun p => if p = .node 1 0 then 1 else 0
    count := fun p => if p = .node 0 0 then 1 else 0 }

/-! ### Vocabulary for the claims about the linked structure -/

/-- The node `c` is a column header currently in the header ring: it is reached from
the master header by following `r`, and is not the master header itself. -/
def InHeaderRing (s : Links) (c : Ptr) : Prop := c ≠ .header ∧ ∃ k, (s.r)^[k] .header = c

/-- The link states reached from the state built by `create_link_mat` on the matrix
`m` and the memory `mem` by calls of `cover` and `uncover` under stack discipline: a
column header of the header ring may be covered, and the column covered last may be
uncovered.  The list is the stack of covered column headers. -/
inductive Reach (m : Mat) (mem : Links) : Links → List Ptr → Prop
  | init : Reach m mem (create_link_mat m mem) []
  | cover {s s' : Links} {stk : List Ptr} (targ : Ptr) :
      Reach m mem s stk → InHeaderRing s (s.c targ) → cover s targ = some s' →
      Reach m mem s' (s.c targ :: stk)
  | uncover {s s' : Links} {stk : List Ptr} {c : Ptr} (targ : Ptr) :
      Reach m mem s (c :: stk) → s.c targ = c → uncover s targ = some s' →
      Reach m mem s' stk

/-- Number of nodes met by following `nx` from `p` until `stop` is reached; `none`
when `stop` is not reached within `fuel` nodes. -/
def ring_len (nx : Ptr → Ptr) (stop : Ptr) : Nat → Ptr → Option Nat
  | 0, _ => none
  | fuel + 1, p => if p = stop then some 0 else (ring_len nx stop fuel (nx p)).map (· + 1)

/-- The three kinds of unit through a cell. -/
inductive IsUnit : (Nat → Nat × Nat) → Prop
  | row (k : Nat) (hk : k < 9) : IsUnit (rowPos k)
  | col (k : Nat) (hk : k < 9) : IsUnit (colPos k)
  | box (k : Nat) (hk : k < 9) : IsUnit (boxPos k)

/-- What a successful call guarantees about the board it leaves. -/
def GoodResult (b b' : Board) : Prop :=
  NoZero b' ∧ InRange b' ∧ NoRepeat b' ∧ ∀ r c, b r c ≠ 0 → b' r c = b r c

/-- Entries added by `cell_constraint` started at column `b0`. -/
def CellEntry (b0 i j : Nat) : Prop :=
  ∃ row < 9, ∃ col < 9, ∃ digit, 1 ≤ digit ∧ digit ≤ 9 ∧
    i = idx row col digit ∧ j = b0 + (9 * row + col)

/-- Entries added by `row_constraint` started at column `b0`. -/
def RowEntry (b0 i j : Nat) : Prop :=
  ∃ row < 9, ∃ col < 9, ∃ digit, 1 ≤ digit ∧ digit ≤ 9 ∧
    i = idx row col digit ∧ j = b0 + (9 * row + (digit - 1))

/-- Entries added by `col_constraint` started at column `b0`. -/
def ColEntry (b0 i j : Nat) : Prop :=
  ∃ row < 9, ∃ col < 9, ∃ digit, 1 ≤ digit ∧ digit ≤ 9 ∧
    i = idx row col digit ∧ j = b0 + (9 * col + (digit - 1))

/-- Entries added by `box_constraint` started at column `b0`. -/
def BoxEntry (b0 i j : Nat) : Prop :=
  ∃ row < 9, ∃ col < 9, ∃ digit, 1 ≤ digit ∧ digit ≤ 9 ∧
    i = idx row col digit ∧ j = b0 + (9 * (3 * (row / 3) + col / 3) + (digit - 1))

/-- Entries cleared by the pass over the givens. -/
def Elim (b : Board) (i j : Nat) : Prop :=
  j < 324 ∧ ∃ row < 9, ∃ col < 9, ∃ digit : Nat, 1 ≤ digit ∧ digit ≤ 9 ∧
    b row col ≠ 0 ∧ b row col ≠ (digit : Int) ∧ i = idx row col digit

/-- `b` follows `a`: `a->next == b` and `b->prev == a`. -/
def Link (nx pv : Ptr → Ptr) (a b : Ptr) : Prop := nx a = b ∧ pv b = a

/-- The nodes `h, L[0], L[1], ...` form a ring: following `nx` from `h` visits `L` in
order and returns to `h`, `pv` walks it backwards, and no node occurs twice. -/
def IsRing (nx pv : Ptr → Ptr) (h : Ptr) (L : List Ptr) : Prop :=
  List.Chain' (Link nx pv) (h :: (L ++ [h])) ∧ (h :: L).Nodup

/-- One step of the minimum search: `if (h->count < min_col->count) min_col = h`. -/
def pick (s : Links) (mc h : Ptr) : Ptr := if s.count h < s.count mc then h else mc

/-- The vertical part of a well-formed link state over the matrix `m`: `cols j` lists,
in ring order, the row nodes linked under the header of column `j`, and `cnt0 j` is the
count the header of column `j` started from. -/
structure VRep (m : Mat) (cnt0 : Nat → Int) (s : Links) (cols : Nat → List Ptr) : Prop where
  static : ∀ i j, i < 730 → j < 324 → m i j = true →
    s.c (.node i j) = .node 0 j ∧ s.colID (.node i j) = j ∧ s.rowID (.node i j) = i
  vring : ∀ j, j < 324 → IsRing s.d s.u (.node 0 j) (cols j)
  vrows : ∀ j, j < 324 → ∀ p ∈ cols j, ∃ i, 1 ≤ i ∧ i < 730 ∧ m i j = true ∧ p = .node i j
  counts : ∀ j, j < 324 → s.count (.node 0 j) = cnt0 j + (cols j).length

/-- The list `L` with every node of `ys` erased. -/
def eraseAll (ys : List Ptr) (L : List Ptr) : List Ptr := ys.foldl (fun L y => L.erase y) L

/-- The first node of `L`, or `stop` when `L` is empty. -/
def firstOr : List Ptr → Ptr → Ptr
  | [], stop => stop
  | y :: _, _ => y

/-- Column index of a node address. -/
def ptrCol : Ptr → Nat
  | .node _ c => c
  | _ => 0

/-- Row index of a node address. -/
def ptrRow : Ptr → Nat
  | .node r _ => r
  | _ => 0

/-- The setting of the double loop of `cover` on column `c`: `X` is the column ring,
`O x` the other nodes of the row of `x`, all of them still linked in their columns. -/
structure Sweep (m : Mat) (cnt0 : Nat → Int) (s1 : Links) (cols : Nat → List Ptr) (c : Nat)
    (X : List Ptr) (O : Ptr → List Ptr) : Prop where
  v : VRep m cnt0 s1 cols
  hc : c < 324
  hX : cols c = X
  rows : ∀ x ∈ X, IsRing s1.r s1.l x (O x) ∧ (O x).length < 324
  ys_nodup : (X.flatMap O).Nodup
  ys_mem : ∀ y ∈ X.flatMap O, ∃ j, j < 324 ∧ j ≠ c ∧ y ∈ cols j

/-- The memory after the rows `pre` of the column have been swept. -/
def sweepState (s1 : Links) (O : Ptr → List Ptr) (pre : List Ptr) : Links :=
  (pre.flatMap O).foldl unlink_ud s1

/-- A well-formed link state over the matrix `m`: `hs` lists the column headers in the
header ring, `cols j` the row nodes linked under column `j`; every allocated row is a
ring through its nodes; and a row node linked under a column of the header ring has
all the nodes of its row linked under columns of the header ring; and a row whose
columns are all in the header ring is linked under each of them. -/
structure Rep (m : Mat) (cnt0 : Nat → Int) (s : Links) (hs : List Ptr)
    (cols : Nat → List Ptr) : Prop where
  v : VRep m cnt0 s cols
  hzero : ∀ j, j < 324 → m 0 j = true
  rowRing : ∀ i j, 1 ≤ i → i < 730 → j < 324 → m i j = true →
    ∃ O, IsRing s.r s.l (.node i j) O ∧
      ∀ p, p ∈ O ↔ ∃ j', j' < 324 ∧ j' ≠ j ∧ m i j' = true ∧ p = .node i j'
  hring : IsRing s.r s.l .header hs
  hcols : ∀ p ∈ hs, ∃ j, j < 324 ∧ p = .node 0 j
  act : ∀ j, j < 324 → .node 0 j ∈ hs → ∀ i, .node i j ∈ cols j →
    ∀ j', j' < 324 → m i j' = true → .node 0 j' ∈ hs ∧ .node i j' ∈ cols j'
  full : ∀ j, j < 324 → .node 0 j ∈ hs → ∀ i, 1 ≤ i → i < 730 → m i j = true →
    (∀ j', j' < 324 → m i j' = true → .node 0 j' ∈ hs) → .node i j ∈ cols j

/-- The true positions below `n`, in increasing order. -/
def trues (p : Nat → Bool) (n : Nat) : List Nat := (List.range n).filter p

/-- The step of a ring through a circular array of length `n`: forward scan and
backward scan from a position. -/
def ScanLink (p : Nat → Bool) (n : Nat) (a b : Nat) : Prop :=
  scan p n 1 a n a = b ∧ scan p n (n - 1) b n b = a

/-- The double loop of `create_link_mat` over the rows `rows` and columns `cols`. -/
def link_fold (m : Mat) (rows cols : List Nat) (s : Links) : Links :=
  rows.foldl (fun s row => cols.foldl (fun s col => link_entry m s row col) s) s

/-- A field that `link_entry` sets at the node `(row, col)` to `val row col`. -/
def SetsField {α : Type} (m : Mat) (get : Links → Ptr → α) (val : Nat → Nat → α) : Prop :=
  ∀ s row col, get (link_entry m s row col) =
    if m row col = true then Function.update (get s) (.node row col) (val row col) else get s

/-- The row nodes of column `j` in the order `create_link_mat` links them. -/
def cols0 (m : Mat) (j : Nat) : List Ptr :=
  ((trues (fun x => m x j) 730).tail).map fun i => .node i j

/-- The 324 column headers in increasing order. -/
def hs0 : List Ptr := (List.range 324).map fun j => .node 0 j

/-- The states reached by `cover` calls alone. -/
inductive Covered (m : Mat) (mem : Links) : Links → List Ptr → Prop
  | init : Covered m mem (create_link_mat m mem) []
  | cover {s s' : Links} {stk : List Ptr} (targ : Ptr) :
      Covered m mem s stk → InHeaderRing s (s.c targ) → cover s targ = some s' →
      Covered m mem s' (s.c targ :: stk)

/-- The calls `cover(y)` for the nodes `y` of a list, one after the other, take the
memory `s` to `t`; each call can be undone by `uncover`, and no call changes the
column back-references or the links of the row rings. -/
inductive CoverSeq : Links → List Ptr → Links → Prop
  | nil (s : Links) : CoverSeq s [] s
  | snoc {s t t' : Links} {pre : List Ptr} {y : Ptr} : CoverSeq s pre t →
      cover t y = some t' →
      (∀ targ, t'.c targ = t.c y → uncover t' targ = some t) → t'.c = t.c →
      (∀ p, 1 ≤ ptrRow p → t'.r p = t.r p ∧ t'.l p = t.l p) → CoverSeq s (pre ++ [y]) t'

/-- The rows `T` cover every column of the matrix exactly once. -/
def ExactCover (m : Mat) (T : Nat → Prop) : Prop :=
  (∀ i, T i → 1 ≤ i ∧ i < 730) ∧ ∀ j, j < 324 → ∃ i, (T i ∧ m i j = true) ∧
    ∀ i', T i' ∧ m i' j = true → i' = i

/-- The rows of the trace can be completed to an exact cover. -/
def Extendable (m : Mat) (sol : List Ptr) : Prop :=
  ∃ T, ExactCover m T ∧ ∀ p ∈ sol, T (ptrRow p)

/-- The trace against the header ring: the trace holds row nodes, no two of them share
a column, the header ring holds exactly the columns they leave uncovered, and four
columns have left the ring for each row of the trace. -/
structure TraceOK (m : Mat) (hs : List Ptr) (sol : List Ptr) : Prop where
  rows : ∀ p ∈ sol, ∃ i j, 1 ≤ i ∧ i < 730 ∧ j < 324 ∧ m i j = true ∧ p = .node i j
  cov : ∀ j, j < 324 → (.node 0 j ∈ hs ↔ ∀ p ∈ sol, m (ptrRow p) j = false)
  disj : sol.Pairwise fun p q => ∀ j, j < 324 →
    ¬(m (ptrRow p) j = true ∧ m (ptrRow q) j = true)
  size : hs.length + 4 * sol.length = 324

/-- Some node of the trace is the candidate `(r, c, d)`. -/
def InSol (sol : List Ptr) (r c d : Nat) : Prop := ∃ p ∈ sol, ptrRow p = idx r c d

/-- The board decoded from the rows of the trace. -/
def decodeRows (sol : List Ptr) (bd : Board) : Board :=
  sol.foldl (fun b p => setCell b ((ptrRow p - 1) / 81) ((ptrRow p - 1) / 9 % 9)
    (((ptrRow p - 1) % 9 + 1 : Nat) : Int)) bd

/-- What the search knows about a full trace: its rows are candidate rows with an
entry, every column is covered, and no column twice. -/
structure FullTrace (m : Mat) (sol : List Ptr) : Prop where
  rows : ∀ p ∈ sol, 1 ≤ ptrRow p ∧ ptrRow p < 730 ∧ ∃ j, j < 324 ∧ m (ptrRow p) j = true
  every : ∀ j, j < 324 → ∃ p ∈ sol, m (ptrRow p) j = true
  uniq : ∀ p ∈ sol, ∀ q ∈ sol, ∀ j, j < 324 → m (ptrRow p) j = true →
    m (ptrRow q) j = true → p = q

/-- The candidate rows of the cells of the grid `g`. -/
def gridRows (g : Board) (i : Nat) : Prop :=
  ∃ r c d : Nat, r < 9 ∧ c < 9 ∧ 1 ≤ d ∧ d ≤ 9 ∧ g r c = (d : Int) ∧ i = idx r c d

/-- What holds at every entry of `search`: the links are well formed, no solution has
been recorded, and the trace matches the header ring. -/
def SInv (m : Mat) (cnt0 : Nat → Int) (st : DLX) : Prop :=
  ∃ hs cols, Rep m cnt0 st.links hs cols ∧ st.set = false ∧ TraceOK m hs st.solution

/-- What a call of `search` (or the row loop inside it) leaves: either a solution has
been recorded, the board is a valid completion of the input board `b0` and the call
returned true; or nothing was recorded, control flowed off the end of the function,
the links are `lk0` again, trace and board are as before, and every trace of `bad`
cannot be completed to an exact cover. -/
def SPost (b0 : Board) (lk0 : Links) (sol : List Ptr) (bd : Board)
    (bad : Prop) (ret : Ret) (st' : DLX) : Prop :=
  (st'.set = true ∧ ret = .value true ∧ Completion b0 st'.board) ∨
  (st'.set = false ∧ ret = .noValue ∧ st'.links = lk0 ∧ st'.solution = sol ∧
    st'.board = bd ∧ bad)

/-- The grid `grid1` with the cells (0,0) and (8,8) blanked and an 8 written over the
cell (7,7): the cell (0,0) can take the digit 1, after which no digit fits (8,8). -/
def stuck1 : Board := setCell (setCell (setCell grid1 0 0 0) 8 8 0) 7 7 8

/-- The grid `grid1` with a 5 written over the cell (0,0), so that row 0 holds the
digit 5 twice, and with the cell (4,4) blanked. -/
def dup5 : Board := setCell (setCell grid1 0 0 5) 4 4 0

/-- The board of all zeros. -/
def zero_board : Board := fun _ _ => 0

/-- What a successful call leaves, on any input: no zero cell, and the nonzero cells
of the input as they were. -/
def Filled (b b' : Board) : Prop := NoZero b' ∧ ∀ r c, b r c ≠ 0 → b' r c = b r c

/-- The grid `g` fills the empty cells of `b` the way the search does: `g` has no
zero cell and keeps the nonzero cells of `b`, and every cell that is empty in `b` holds
in `g` a digit 1..9 that no other cell of its row, column or box holds in `g`.  Nothing
is asked of two nonzero cells of `b` against each other. -/
def FillOK (b g : Board) : Prop :=
  NoZero g ∧ Extends b g ∧
    ∀ pos, IsUnit pos → ∀ s < 9, ∀ t < 9, s ≠ t → b (pos s).1 (pos s).2 = 0 →
      g (pos s).1 (pos s).2 ∈ digits ∧ g (pos t).1 (pos t).2 ≠ g (pos s).1 (pos s).2

/-- The loop `while (f_in >> num)` of the constructor over the integer tokens the
stream still yields (the tokens up to the first one that is not a well-formed `int`):
store the token at `(row, col)`; stop after the cell (8, 8), else step to the next
cell in reading order. -/
def ctor_loop : List Int → Board → Nat → Nat → Board
  | [], b, _, _ => b
  | num :: rest, b, row, col =>
    let b1 := setCell b row col num
    if row = 8 ∧ col = 8 then b1
    else if row < 8 ∧ col = 8 then ctor_loop rest b1 (row + 1) 0
    else ctor_loop rest b1 row (col + 1)

/-- The constructor `Sudoku(input_file)` on the token sequence of the file; `mem` is
the content of the member `board` before the constructor body runs, which nothing
initialises.  `none` stands for an input-format error: the constructor has no check
of the number or the range of the tokens and no failing path, so it never arises. -/
def Sudoku_ctor (mem : Board) (tokens : List Int) : Option Board :=
  some (ctor_loop tokens mem 0 0)

/-- The recursive calls that the row loop of `search` makes, read off the loop
`for (row_n = col_n->d; row_n != col_n; row_n = row_n->d)`: `RowsCall rec st col_n row_n t`
says that, started in the state `st` at the row node `row_n`, the loop calls `rec` in
the state `t`.  The call of the current iteration is made after the push of `row_n`
and the `cover` loop over its row; a later iteration is reached when the call of the
current one came back with `set` still false, after the pop and the `uncover` loop. -/
inductive RowsCall (rec : DLX → Option (Ret × DLX)) : DLX → Ptr → Ptr → DLX → Prop
  | here {st : DLX} {col_n row_n : Ptr} {lk : Links} : row_n ≠ col_n →
      ring_loop (fun s p => s.r p) cover row_n 324 st.links (st.links.r row_n) = some lk →
      RowsCall rec st col_n row_n
        { links := lk, solution := st.solution ++ [row_n], set := st.set, board := st.board }
  | later {st : DLX} {col_n row_n : Ptr} {lk lk' : Links} {ret : Ret} {st2 t : DLX} :
      row_n ≠ col_n →
      ring_loop (fun s p => s.r p) cover row_n 324 st.links (st.links.r row_n) = some lk →
      rec { links := lk, solution := st.solution ++ [row_n], set := st.set, board := st.board }
        = some (ret, st2) →
      st2.set = false →
      ring_loop (fun s p => s.l p) uncover row_n 324 st2.links (st2.links.l row_n) = some lk' →
      RowsCall rec
        { links := lk', solution := st2.solution.dropLast, set := st2.set, board := st2.board }
        (st2.links.c row_n) (lk'.d row_n) t →
      RowsCall rec st col_n row_n t

/-- The states in which `search` is entered during `dancing_links()` on the board `b`
with prior link memory `mem`, with the fuel of the call: the top call, and every call
that the row loop of an entered call makes after `get_min_col` and `cover` of the
chosen column.  The depth of an entry is 82 minus its fuel. -/
inductive Entry (mem : Links) (b : Board) : Nat → DLX → Prop
  | top : Entry mem b 82
      { links := create_link_mat (build_cover_mat b) (init_header mem), solution := [],
        set := false, board := b }
  | call {fuel : Nat} {st t : DLX} {col_n : Ptr} {lk : Links} : Entry mem b (fuel + 1) st →
      st.links.r .header ≠ .header → get_min_col st.links = some col_n →
      cover st.links col_n = some lk →
      RowsCall (search fuel)
        { links := lk, solution := st.solution, set := st.set, board := st.board }
        col_n (lk.d col_n) t →
      Entry mem b fuel t

set_option maxRecDepth 100000

/-! ## Backtracking: basic facts -/

theorem setCell_same (b : Board) (row col : Nat) (v : Int) : setCell b row col v row col = v := by
  simp [setCell]

theorem setCell_other (b : Board) (row col : Nat) (v : Int) (i j : Nat)
    (h : ¬(i = row ∧ j = col)) : setCell b row col v i j = b i j := by
  simp only [setCell, if_neg h]

theorem setCell_undo (b : Board) (row col : Nat) (v : Int) (h : b row col = 0) :
    setCell (setCell b row col v) row col 0 = b := by
  funext i j
  by_cases hij : i = row ∧ j = col
  · obtain ⟨rfl, rfl⟩ := hij
    simp [setCell, h]
  · simp [setCell, hij]

theorem find_empty_some {b : Board} {row col : Nat} (h : find_empty b = some (row, col)) :
    row < 9 ∧ col < 9 ∧ b row col = 0 := by
  unfold find_empty at h
  obtain ⟨r, hr, hf⟩ := List.exists_of_findSome?_eq_some h
  rw [Option.map_eq_some'] at hf
  obtain ⟨c, hc, hrc⟩ := hf
  have h1 := List.find?_some hc
  have h2 := List.mem_of_find?_eq_some hc
  simp only [Prod.mk.injEq] at hrc
  obtain ⟨rfl, rfl⟩ := hrc
  simp only [List.mem_range] at hr h2
  simp only [beq_iff_eq] at h1
  exact ⟨hr, h2, h1⟩

theorem find_empty_none {b : Board} (h : find_empty b = none) : NoZero b := by
  unfold find_empty at h
  rw [List.findSome?_eq_none_iff] at h
  intro r hr c hc h0
  have h1 := h r (List.mem_range.mpr hr)
  rw [Option.map_eq_none', List.find?_eq_none] at h1
  exact h1 c (List.mem_range.mpr hc) (by simp [h0])

theorem find_empty_of_noZero {b : Board} (h : NoZero b) : find_empty b = none := by
  unfold find_empty
  rw [List.findSome?_eq_none_iff]
  intro r hr
  rw [Option.map_eq_none', List.find?_eq_none]
  intro c hc
  simp only [List.mem_range] at hr hc
  simpa using h r hr c hc

/-! ### A failed call leaves the board as it found it -/

theorem digit_loop_false {rec : Board → Option (Bool × Board)} {row col : Nat}
    (hrec : ∀ b b', rec b = some (false, b') → b' = b) :
    ∀ (n : Nat) (digit : Int) (b b' : Board), b row col = 0 →
      digit_loop rec row col n digit b = some (false, b') → b' = b := by
  intro n
  induction n with
  | zero =>
    intro digit b b' _ h
    simp only [digit_loop, Option.some.injEq, Prod.mk.injEq, true_and] at h
    exact h.symm
  | succ n ih =>
    intro digit b b' h0 h
    rw [digit_loop] at h
    split at h
    · split at h
      · exact absurd h (by simp)
      · simp at h
      · next b1 hb1 =>
        have := hrec _ _ hb1
        subst this
        rw [setCell_undo b row col digit h0] at h
        exact ih _ _ _ h0 h
    · exact ih _ _ _ h0 h

theorem backtrackingAux_false :
    ∀ (fuel : Nat) (b b' : Board), backtrackingAux fuel b = some (false, b') → b' = b := by
  intro fuel
  induction fuel with
  | zero => intro b b' h; simp [backtrackingAux] at h
  | succ fuel ih =>
    intro b b' h
    rw [backtrackingAux] at h
    split at h
    · simp at h
    · next row col hfe =>
      exact digit_loop_false ih 9 1 b b' (find_empty_some hfe).2.2 h

/-! ### The recursion ends: every call fills one more cell -/

theorem zeros_le (b : Board) : zeros b ≤ 81 := by
  unfold zeros
  refine (Finset.card_filter_le _ _).trans ?_
  simp

theorem zeros_setCell (b : Board) (row col : Nat) (v : Int) (hr : row < 9) (hc : col < 9)
    (h0 : b row col = 0) (hv : v ≠ 0) : zeros (setCell b row col v) + 1 = zeros b := by
  unfold zeros
  have hmem : (row, col) ∈ (Finset.range 9 ×ˢ Finset.range 9).filter fun p => b p.1 p.2 = 0 := by
    simp [hr, hc, h0]
  have heq : ((Finset.range 9 ×ˢ Finset.range 9).filter fun p => setCell b row col v p.1 p.2 = 0)
      = ((Finset.range 9 ×ˢ Finset.range 9).filter fun p => b p.1 p.2 = 0).erase (row, col) := by
    ext ⟨i, j⟩
    simp only [Finset.mem_filter, Finset.mem_product, Finset.mem_range, Finset.mem_erase, ne_eq,
      Prod.mk.injEq]
    by_cases hij : i = row ∧ j = col
    · obtain ⟨rfl, rfl⟩ := hij
      simp [setCell, hv]
    · simp [setCell, hij]
  rw [heq, Finset.card_erase_of_mem hmem]
  have := Finset.card_pos.mpr ⟨_, hmem⟩
  omega

theorem digit_loop_some {rec : Board → Option (Bool × Board)} {row col : Nat} {b : Board}
    (h0 : b row col = 0)
    (hatom : ∀ b1 b', rec b1 = some (false, b') → b' = b1)
    (hrec : ∀ d : Int, d ≠ 0 → ∃ res, rec (setCell b row col d) = some res) :
    ∀ (n : Nat) (digit : Int), 0 < digit →
      ∃ res, digit_loop rec row col n digit b = some res := by
  intro n
  induction n with
  | zero => intro digit _; exact ⟨_, rfl⟩
  | succ n ih =>
    intro digit hd
    rw [digit_loop]
    split
    · obtain ⟨⟨res, b1⟩, hres⟩ := hrec digit (by omega)
      rw [hres]
      cases res with
      | true => exact ⟨_, rfl⟩
      | false =>
        have := hatom _ _ hres
        subst this
        simp only
        rw [setCell_undo b row col digit h0]
        exact ih (digit + 1) (by omega)
    · exact ih (digit + 1) (by omega)

theorem backtrackingAux_some :
    ∀ (fuel : Nat) (b : Board), zeros b < fuel → ∃ res, backtrackingAux fuel b = some res := by
  intro fuel
  induction fuel with
  | zero => intro b h; omega
  | succ fuel ih =>
    intro b hz
    rw [backtrackingAux]
    split
    · exact ⟨_, rfl⟩
    · next row col hfe =>
      obtain ⟨hr, hc, h0⟩ := find_empty_some hfe
      refine digit_loop_some h0 (backtrackingAux_false fuel) ?_ 9 1 (by decide)
      intro d hd
      apply ih
      have := zeros_setCell b row col d hr hc h0 hd
      omega

/-- The depth bound 82 of `backtracking` is never reached. -/
theorem backtracking_returns (b : Board) : ∃ res, backtracking b = some res :=
  backtrackingAux_some 82 b (by have := zeros_le b; omega)

/-! ## Backtracking: units, counting and `valid_move` -/

theorem mem_digits {d : Int} : d ∈ digits ↔ 1 ≤ d ∧ d ≤ 9 := by
  simp only [digits, List.mem_cons, List.mem_singleton, List.not_mem_nil, or_false]
  omega

theorem cnt_le_one_iff (b : Board) (pos : Nat → Nat × Nat) (d : Int) :
    cnt b pos d ≤ 1 ↔
      ∀ s < 9, ∀ t < 9, b (pos s).1 (pos s).2 = d → b (pos t).1 (pos t).2 = d → s = t := by
  unfold cnt
  rw [Finset.card_le_one]
  simp only [Finset.mem_filter, Finset.mem_range]
  constructor
  · intro h s hs t ht h1 h2
    exact h s ⟨hs, h1⟩ t ⟨ht, h2⟩
  · intro h s hs t ht
    exact h s hs.1 t ht.1 hs.2 ht.2

theorem cnt_pos_iff (b : Board) (pos : Nat → Nat × Nat) (d : Int) :
    0 < cnt b pos d ↔ ∃ t < 9, b (pos t).1 (pos t).2 = d := by
  unfold cnt
  rw [Finset.card_pos]
  constructor
  · rintro ⟨t, ht⟩
    simp only [Finset.mem_filter, Finset.mem_range] at ht
    exact ⟨t, ht.1, ht.2⟩
  · rintro ⟨t, ht, h⟩
    exact ⟨t, by simp [ht, h]⟩

theorem valid_move_iff (b : Board) (row col : Nat) (d : Int) (hc : col < 9) :
    valid_move b row col d = true ↔
      b row col = 0 ∧ (∀ t < 9, b (rowPos row t).1 (rowPos row t).2 ≠ d) ∧
        (∀ t < 9, b (colPos col t).1 (colPos col t).2 ≠ d) ∧
        (∀ t < 9, b (boxPos (3 * (row / 3) + col / 3) t).1
          (boxPos (3 * (row / 3) + col / 3) t).2 ≠ d) := by
  have hk3 : (3 * (row / 3) + col / 3) / 3 = row / 3 := by omega
  have hk3' : (3 * (row / 3) + col / 3) % 3 = col / 3 := by omega
  simp only [valid_move, in_row, in_col, in_box, Bool.and_eq_true, Bool.not_eq_true',
    List.any_eq_false, List.mem_range, beq_iff_eq, rowPos, colPos, boxPos, hk3, hk3',
    Bool.not_eq_true, List.any_eq_true, not_exists, not_and, ne_eq, beq_eq_false_iff_ne]
  constructor
  · rintro ⟨⟨⟨h1, h2⟩, h3⟩, h4⟩
    refine ⟨h4, h1, h2, ?_⟩
    intro t ht
    have := h3 (t / 3) (by omega) (t % 3) (by omega)
    have e1 : row - row % 3 + t / 3 = 3 * (row / 3) + t / 3 := by omega
    have e2 : col - col % 3 + t % 3 = 3 * (col / 3) + t % 3 := by omega
    rwa [e1, e2] at this
  · rintro ⟨h4, h1, h2, h3⟩
    refine ⟨⟨⟨h1, h2⟩, ?_⟩, h4⟩
    intro i hi j hj
    have := h3 (3 * i + j) (by omega)
    have e1 : 3 * (row / 3) + (3 * i + j) / 3 = row - row % 3 + i := by omega
    have e2 : 3 * (col / 3) + (3 * i + j) % 3 = col - col % 3 + j := by omega
    rwa [e1, e2] at this

theorem IsUnit.lt {pos : Nat → Nat × Nat} (h : IsUnit pos) {t : Nat} (ht : t < 9) :
    (pos t).1 < 9 ∧ (pos t).2 < 9 := by
  cases h <;> simp only [rowPos, colPos, boxPos] <;> omega

theorem IsUnit.inj {pos : Nat → Nat × Nat} (h : IsUnit pos) {s t : Nat}
    (e : pos s = pos t) : s = t := by
  cases h <;> simp only [rowPos, colPos, boxPos, Prod.mk.injEq] at e <;> omega

/-- A valid move differs from every cell of every unit through its cell. -/
theorem valid_move_unit {b : Board} {row col : Nat} {d : Int} (hc : col < 9)
    (hv : valid_move b row col d = true) {pos : Nat → Nat × Nat} (hu : IsUnit pos)
    {s : Nat} (hs : s < 9) (hp : pos s = (row, col)) :
    ∀ t < 9, b (pos t).1 (pos t).2 ≠ d := by
  obtain ⟨-, h1, h2, h3⟩ := (valid_move_iff b row col d hc).mp hv
  cases hu with
  | row k hk =>
    simp only [rowPos, Prod.mk.injEq] at hp
    obtain ⟨rfl, -⟩ := hp
    exact h1
  | col k hk =>
    simp only [colPos, Prod.mk.injEq] at hp
    obtain ⟨-, rfl⟩ := hp
    exact h2
  | box k hk =>
    simp only [boxPos, Prod.mk.injEq] at hp
    have : k = 3 * (row / 3) + col / 3 := by omega
    subst this
    exact h3

theorem solved_iff_units {b : Board} :
    Solved b ↔ ∀ pos, IsUnit pos → ∀ d ∈ digits, cnt b pos d = 1 := by
  constructor
  · intro h pos hu d hd
    cases hu with
    | row k hk => exact (h k hk d hd).1
    | col k hk => exact (h k hk d hd).2.1
    | box k hk => exact (h k hk d hd).2.2
  · intro h k hk d hd
    exact ⟨h _ (.row k hk) d hd, h _ (.col k hk) d hd, h _ (.box k hk) d hd⟩

theorem noRepeat_iff_units {b : Board} :
    NoRepeat b ↔ ∀ pos, IsUnit pos → ∀ d ∈ digits, cnt b pos d ≤ 1 := by
  constructor
  · intro h pos hu d hd
    cases hu with
    | row k hk => exact (h k hk d hd).1
    | col k hk => exact (h k hk d hd).2.1
    | box k hk => exact (h k hk d hd).2.2
  · intro h k hk d hd
    exact ⟨h _ (.row k hk) d hd, h _ (.col k hk) d hd, h _ (.box k hk) d hd⟩

/-- Nine cells holding digits, none twice, hold every digit once. -/
theorem cnt_eq_one_of_full (b : Board) (pos : Nat → Nat × Nat)
    (hfull : ∀ t < 9, b (pos t).1 (pos t).2 ∈ digits)
    (hle : ∀ d ∈ digits, cnt b pos d ≤ 1) :
    ∀ d ∈ digits, cnt b pos d = 1 := by
  intro d hd
  have hinj : Set.InjOn (fun t => b (pos t).1 (pos t).2) (Finset.range 9 : Set Nat) := by
    intro s hs t ht e
    simp only [Finset.coe_range, Set.mem_Iio] at hs ht
    exact (cnt_le_one_iff b pos _).mp (hle _ (hfull s hs)) s hs t ht rfl e.symm
  have hcard : ((Finset.range 9).image fun t => b (pos t).1 (pos t).2).card = 9 := by
    rw [Finset.card_image_of_injOn hinj]; simp
  have hsub : ((Finset.range 9).image fun t => b (pos t).1 (pos t).2) ⊆ digits.toFinset := by
    intro x hx
    simp only [Finset.mem_image, Finset.mem_range] at hx
    obtain ⟨t, ht, rfl⟩ := hx
    exact List.mem_toFinset.mpr (hfull t ht)
  have heq := Finset.eq_of_subset_of_card_le hsub (by rw [hcard]; decide)
  have hmem : d ∈ (Finset.range 9).image fun t => b (pos t).1 (pos t).2 := by
    rw [heq]; exact List.mem_toFinset.mpr hd
  simp only [Finset.mem_image, Finset.mem_range] at hmem
  have h1 := (cnt_pos_iff b pos d).mpr hmem
  have h2 := hle d hd
  omega

/-- In a unit that holds every digit once, every cell holds a digit. -/
theorem full_of_cnt_eq_one (b : Board) (pos : Nat → Nat × Nat)
    (h1 : ∀ d ∈ digits, cnt b pos d = 1) :
    ∀ t < 9, b (pos t).1 (pos t).2 ∈ digits := by
  have hcard : ((Finset.range 9).filter fun t => b (pos t).1 (pos t).2 ∈ digits).card = 9 := by
    rw [Finset.card_eq_sum_card_fiberwise (f := fun t => b (pos t).1 (pos t).2)
      (t := digits.toFinset)]
    · have : ∀ d ∈ digits.toFinset,
          (((Finset.range 9).filter fun t => b (pos t).1 (pos t).2 ∈ digits).filter
            fun t => b (pos t).1 (pos t).2 = d).card = 1 := by
        intro d hd
        have hd' := List.mem_toFinset.mp hd
        rw [← h1 d hd']
        unfold cnt
        congr 1
        ext t
        simp only [Finset.mem_filter, Finset.mem_range]
        constructor
        · rintro ⟨⟨h, -⟩, e⟩; exact ⟨h, e⟩
        · rintro ⟨h, e⟩; exact ⟨⟨h, e ▸ hd'⟩, e⟩
      rw [Finset.sum_congr rfl this]
      simp
      decide
    · intro t ht
      simp only [Finset.mem_filter] at ht
      exact List.mem_toFinset.mpr ht.2
  have heq := Finset.eq_of_subset_of_card_le
    (Finset.filter_subset (fun t => b (pos t).1 (pos t).2 ∈ digits) (Finset.range 9))
    (by rw [hcard]; simp)
  intro t ht
  have : t ∈ (Finset.range 9).filter fun t => b (pos t).1 (pos t).2 ∈ digits := by
    rw [heq]; simpa using ht
  exact (Finset.mem_filter.mp this).2

theorem solved_cell_mem_digits {g : Board} (h : Solved g) {r c : Nat} (hr : r < 9) (hc : c < 9) :
    g r c ∈ digits :=
  full_of_cnt_eq_one g (rowPos r) (fun d hd => (h r hr d hd).1) c hc

/-! ## Backtracking: soundness -/

theorem inRange_setCell {b : Board} (h : InRange b) (row col : Nat) {d : Int}
    (hd : d ∈ digits) : InRange (setCell b row col d) := by
  intro r hr c hc
  by_cases hij : r = row ∧ c = col
  · obtain ⟨rfl, rfl⟩ := hij
    rw [setCell_same]
    have := mem_digits.mp hd
    omega
  · rw [setCell_other _ _ _ _ _ _ hij]
    exact h r hr c hc

theorem noRepeat_setCell {b : Board} (h : NoRepeat b) {row col : Nat}
    (hc : col < 9) {d : Int} (hv : valid_move b row col d = true) :
    NoRepeat (setCell b row col d) := by
  rw [noRepeat_iff_units] at h ⊢
  intro pos hu d' hd'
  rw [cnt_le_one_iff]
  intro s hs t ht e1 e2
  have hd0 : d' ≠ 0 := by have := mem_digits.mp hd'; omega
  have h0 : b row col = 0 := ((valid_move_iff b row col d hc).mp hv).1
  by_cases hps : (pos s).1 = row ∧ (pos s).2 = col
  · by_cases hpt : (pos t).1 = row ∧ (pos t).2 = col
    · exact hu.inj (Prod.ext (hps.1.trans hpt.1.symm) (hps.2.trans hpt.2.symm))
    · rw [setCell_other _ _ _ _ _ _ hpt] at e2
      have e1' : d = d' := by
        rw [hps.1, hps.2, setCell_same] at e1
        exact e1
      exact absurd (e1' ▸ e2) (valid_move_unit hc hv hu hs (Prod.ext hps.1 hps.2) t ht)
  · rw [setCell_other _ _ _ _ _ _ hps] at e1
    by_cases hpt : (pos t).1 = row ∧ (pos t).2 = col
    · have e2' : d = d' := by
        rw [hpt.1, hpt.2, setCell_same] at e2
        exact e2
      exact absurd (e2' ▸ e1) (valid_move_unit hc hv hu ht (Prod.ext hpt.1 hpt.2) s hs)
    · rw [setCell_other _ _ _ _ _ _ hpt] at e2
      exact (cnt_le_one_iff b pos d').mp (h pos hu d' hd') s hs t ht e1 e2

theorem goodResult_of_setCell {b b' : Board} {row col : Nat} {d : Int} (h0 : b row col = 0)
    (h : GoodResult (setCell b row col d) b') : GoodResult b b' := by
  obtain ⟨h1, h2, h3, h4⟩ := h
  refine ⟨h1, h2, h3, ?_⟩
  intro r c hrc
  have hne : ¬(r = row ∧ c = col) := by
    rintro ⟨rfl, rfl⟩; exact hrc h0
  rw [h4 r c (by rwa [setCell_other _ _ _ _ _ _ hne]), setCell_other _ _ _ _ _ _ hne]

theorem digit_loop_sound {rec : Board → Option (Bool × Board)} {row col : Nat}
    (hc : col < 9)
    (hatom : ∀ b b', rec b = some (false, b') → b' = b)
    (hrec : ∀ b b', InRange b → NoRepeat b → rec b = some (true, b') → GoodResult b b') :
    ∀ (n : Nat) (digit : Int) (b b' : Board), 1 ≤ digit → digit + n = 10 →
      b row col = 0 → InRange b → NoRepeat b →
      digit_loop rec row col n digit b = some (true, b') → GoodResult b b' := by
  intro n
  induction n with
  | zero => intro digit b b' _ _ _ _ _ h; simp [digit_loop] at h
  | succ n ih =>
    intro digit b b' hd1 hd2 h0 hin hnr h
    rw [digit_loop] at h
    have hdig : digit ∈ digits := mem_digits.mpr ⟨hd1, by push_cast at hd2; omega⟩
    split at h
    · next hv =>
      split at h
      · simp at h
      · next b1 hb1 =>
        simp only [Option.some.injEq, Prod.mk.injEq, true_and] at h
        subst h
        exact goodResult_of_setCell h0
          (hrec _ _ (inRange_setCell hin row col hdig) (noRepeat_setCell hnr hc hv) hb1)
      · next b1 hb1 =>
        have := hatom _ _ hb1
        subst this
        rw [setCell_undo b row col digit h0] at h
        exact ih (digit + 1) b b' (by omega) (by push_cast at hd2 ⊢; omega) h0 hin hnr h
    · exact ih (digit + 1) b b' (by omega) (by push_cast at hd2 ⊢; omega) h0 hin hnr h

theorem backtrackingAux_sound :
    ∀ (fuel : Nat) (b b' : Board), InRange b → NoRepeat b →
      backtrackingAux fuel b = some (true, b') → GoodResult b b' := by
  intro fuel
  induction fuel with
  | zero => intro b b' _ _ h; simp [backtrackingAux] at h
  | succ fuel ih =>
    intro b b' hin hnr h
    rw [backtrackingAux] at h
    split at h
    · next hfe =>
      simp only [Option.some.injEq, Prod.mk.injEq, true_and] at h
      subst h
      exact ⟨find_empty_none hfe, hin, hnr, fun _ _ _ => rfl⟩
    · next row col hfe =>
      obtain ⟨-, hc, h0⟩ := find_empty_some hfe
      exact digit_loop_sound hc (backtrackingAux_false fuel) ih 9 1 b b' (by decide) (by decide)
        h0 hin hnr h

theorem solved_of_full {b : Board} (hz : NoZero b) (hin : InRange b) (hnr : NoRepeat b) :
    Solved b := by
  rw [solved_iff_units]
  rw [noRepeat_iff_units] at hnr
  intro pos hu
  apply cnt_eq_one_of_full b pos _ (hnr pos hu)
  intro t ht
  obtain ⟨h1, h2⟩ := hu.lt ht
  have := hin _ h1 _ h2
  have := hz _ h1 _ h2
  exact mem_digits.mpr ⟨by omega, by omega⟩

/-! ## Backtracking: completeness -/

theorem completion_setCell {b g : Board} {row col : Nat} (h : Completion b g) :
    Completion (setCell b row col (g row col)) g := by
  refine ⟨h.1, ?_⟩
  intro r hr c hc hne
  by_cases hij : r = row ∧ c = col
  · obtain ⟨rfl, rfl⟩ := hij
    rw [setCell_same]
  · rw [setCell_other _ _ _ _ _ _ hij] at hne ⊢
    exact h.2 r hr c hc hne

theorem valid_move_of_completion {b g : Board} {row col : Nat} (hr : row < 9) (hc : col < 9)
    (h0 : b row col = 0) (h : Completion b g) : valid_move b row col (g row col) = true := by
  have hdig : g row col ∈ digits := solved_cell_mem_digits h.1 hr hc
  have hd0 : g row col ≠ 0 := by have := mem_digits.mp hdig; omega
  have key : ∀ pos, IsUnit pos → ∀ s < 9, pos s = (row, col) →
      ∀ t < 9, b (pos t).1 (pos t).2 ≠ g row col := by
    intro pos hu s hs hp t ht e
    obtain ⟨h1, h2⟩ := hu.lt ht
    have hg : g (pos t).1 (pos t).2 = g row col := by
      rw [h.2 _ h1 _ h2 (by rw [e]; exact hd0), e]
    have hs' : g (pos s).1 (pos s).2 = g row col := by rw [hp]
    have hst := (cnt_le_one_iff g pos _).mp
      (le_of_eq (solved_iff_units.mp h.1 pos hu _ hdig)) s hs t ht hs' hg
    subst hst
    rw [hp] at e
    exact hd0 (e.symm.trans h0)
  rw [valid_move_iff b row col _ hc]
  refine ⟨h0, key _ (.row row hr) col hc rfl, key _ (.col col hc) row hr rfl, ?_⟩
  refine key _ (.box _ (by omega)) (3 * (row % 3) + col % 3) (by omega) ?_
  simp only [boxPos, Prod.mk.injEq]
  omega

theorem digit_loop_complete {rec : Board → Option (Bool × Board)} {row col : Nat} {b : Board}
    {dg : Int} (h0 : b row col = 0)
    (hatom : ∀ b1 b', rec b1 = some (false, b') → b' = b1)
    (hsome : ∀ d : Int, d ≠ 0 → ∃ res, rec (setCell b row col d) = some res)
    (hv : valid_move b row col dg = true)
    (hrec : ∃ b', rec (setCell b row col dg) = some (true, b')) :
    ∀ (n : Nat) (digit : Int), 0 < digit → digit ≤ dg → dg < digit + n →
      ∃ b', digit_loop rec row col n digit b = some (true, b') := by
  intro n
  induction n with
  | zero => intro digit _ h1 h2; simp at h2; omega
  | succ n ih =>
    intro digit hd h1 h2
    rw [digit_loop]
    by_cases hdd : digit = dg
    · subst hdd
      obtain ⟨b', hb'⟩ := hrec
      rw [if_pos hv, hb']
      exact ⟨_, rfl⟩
    · have hlt : digit + 1 ≤ dg := by omega
      have h2' : dg < digit + 1 + n := by push_cast at h2; omega
      split
      · obtain ⟨⟨res, b1⟩, hres⟩ := hsome digit (by omega)
        rw [hres]
        cases res with
        | true => exact ⟨_, rfl⟩
        | false =>
          have := hatom _ _ hres
          subst this
          simp only
          rw [setCell_undo b row col digit h0]
          exact ih (digit + 1) (by omega) hlt h2'
      · exact ih (digit + 1) (by omega) hlt h2'

theorem backtrackingAux_complete :
    ∀ (fuel : Nat) (b g : Board), zeros b < fuel → Completion b g →
      ∃ b', backtrackingAux fuel b = some (true, b') := by
  intro fuel
  induction fuel with
  | zero => intro b g h; omega
  | succ fuel ih =>
    intro b g hz hg
    rw [backtrackingAux]
    split
    · exact ⟨_, rfl⟩
    · next row col hfe =>
      obtain ⟨hr, hc, h0⟩ := find_empty_some hfe
      have hdig := mem_digits.mp (solved_cell_mem_digits hg.1 hr hc)
      have hlt : ∀ d : Int, d ≠ 0 → zeros (setCell b row col d) < fuel := by
        intro d hd
        have := zeros_setCell b row col d hr hc h0 hd
        omega
      refine digit_loop_complete h0 (backtrackingAux_false fuel)
        (fun d hd => backtrackingAux_some fuel _ (hlt d hd))
        (valid_move_of_completion hr hc h0 hg)
        (ih _ g (hlt _ (by omega)) (completion_setCell hg)) 9 1 (by decide) hdig.1 (by omega)

/-- C1 (soundness of `backtracking`): on a board with cells in 0..9 and no digit
repeated in a row, column or box, a call that returns true leaves a board with no
zero cell, in which every row, column and box holds each digit 1..9 exactly once and
every nonzero input cell keeps its value. -/
theorem backtracking_sound (b b' : Board) (hin : InRange b) (hnr : NoRepeat b)
    (h : backtracking b = some (true, b')) :
    NoZero b' ∧ Solved b' ∧ ∀ r < 9, ∀ c < 9, b r c ≠ 0 → b' r c = b r c := by
  obtain ⟨h1, h2, h3, h4⟩ := backtrackingAux_sound 82 b b' hin hnr h
  exact ⟨h1, solved_of_full h1 h2 h3, fun r _ c _ hne => h4 r c hne⟩

/-- Witness for C1: the grid `puzzle1` (three blanks) is solved by the call. -/
theorem backtracking_sound_witness :
    InRange puzzle1 ∧ NoRepeat puzzle1 ∧
      ∃ b', backtracking puzzle1 = some (true, b') ∧
        (NoZero b' ∧ Solved b' ∧ ∀ r < 9, ∀ c < 9, puzzle1 r c ≠ 0 → b' r c = puzzle1 r c) :=
  ⟨by decide, by decide, _, rfl, backtracking_sound puzzle1 _ (by decide) (by decide) rfl⟩

/-- C2 (completeness of `backtracking`): when the board has a valid completion the
call returns true, and so it never returns false on such a board.  (The bound on the
cells is not needed: a completion already forces every given into 1..9.) -/
theorem backtracking_complete (b g : Board) (hg : Completion b g) :
    (∃ b', backtracking b = some (true, b')) ∧ ∀ b', backtracking b ≠ some (false, b') := by
  have h := backtrackingAux_complete 82 b g (by have := zeros_le b; omega) hg
  refine ⟨h, ?_⟩
  obtain ⟨b1, hb1⟩ := h
  intro b' hb'
  rw [backtracking] at hb'
  rw [hb1] at hb'
  simp at hb'

/-- Witness for C2: `grid1` is a valid completion of `puzzle1`. -/
theorem backtracking_complete_witness :
    Completion puzzle1 grid1 ∧
      ((∃ b', backtracking puzzle1 = some (true, b')) ∧
        ∀ b', backtracking puzzle1 ≠ some (false, b')) :=
  ⟨⟨by decide, by decide⟩, backtracking_complete puzzle1 grid1 ⟨by decide, by decide⟩⟩

/-! ## Candidate index -/

theorem get_index_eq (r c d : Int) : get_index r c d = r * 81 + c * 9 + d := by
  unfold get_index; ring

theorem decode_get_index (r c d : Int) (hr0 : 0 ≤ r) (hc0 : 0 ≤ c) (hc8 : c ≤ 8)
    (hd1 : 1 ≤ d) (hd9 : d ≤ 9) :
    decode_row (get_index r c d) = r ∧ decode_col (get_index r c d) = c ∧
      decode_digit (get_index r c d) = d := by
  have h1 : decode_row (get_index r c d) = r := by
    unfold decode_row
    rw [get_index_eq, Int.tdiv_eq_ediv (by omega) (by omega)]
    omega
  have h2 : decode_col (get_index r c d) = c := by
    unfold decode_col
    rw [get_index_eq, Int.tdiv_eq_ediv (by omega) (by omega),
      Int.tmod_eq_emod (by omega) (by omega)]
    omega
  refine ⟨h1, h2, ?_⟩
  unfold decode_digit
  rw [h1, h2, get_index_eq]
  omega

/-- C8 (candidate index round trip): `get_index` maps the candidates
`{0..8} x {0..8} x {1..9}` one-to-one onto `1..729`, and the decoding of
`set_DLX_sol` returns the candidate it was computed from. -/
theorem get_index_roundtrip :
    (∀ r c d : Int, 0 ≤ r → r ≤ 8 → 0 ≤ c → c ≤ 8 → 1 ≤ d → d ≤ 9 →
      get_index r c d = r * 81 + c * 9 + (d - 1) + 1 ∧
      1 ≤ get_index r c d ∧ get_index r c d ≤ 729 ∧
      decode_row (get_index r c d) = r ∧ decode_col (get_index r c d) = c ∧
      decode_digit (get_index r c d) = d) ∧
    (∀ r c d r' c' d' : Int, 0 ≤ r → r ≤ 8 → 0 ≤ c → c ≤ 8 → 1 ≤ d → d ≤ 9 →
      0 ≤ r' → r' ≤ 8 → 0 ≤ c' → c' ≤ 8 → 1 ≤ d' → d' ≤ 9 →
      get_index r c d = get_index r' c' d' → r = r' ∧ c = c' ∧ d = d') ∧
    (∀ ind : Int, 1 ≤ ind → ind ≤ 729 →
      ∃ r c d : Int, 0 ≤ r ∧ r ≤ 8 ∧ 0 ≤ c ∧ c ≤ 8 ∧ 1 ≤ d ∧ d ≤ 9 ∧ get_index r c d = ind) := by
  refine ⟨?_, ?_, ?_⟩
  · intro r c d hr0 hr8 hc0 hc8 hd1 hd9
    refine ⟨rfl, ?_, ?_, decode_get_index r c d hr0 hc0 hc8 hd1 hd9⟩
    · rw [get_index_eq]; omega
    · rw [get_index_eq]; omega
  · intro r c d r' c' d' _ _ _ _ _ _ _ _ _ _ _ _ h
    rw [get_index_eq, get_index_eq] at h
    omega
  · intro ind h1 h2
    refine ⟨(ind - 1) / 81, ((ind - 1) / 9) % 9, ind - ((ind - 1) / 81) * 81 - (((ind - 1) / 9) % 9) * 9,
      ?_, ?_, ?_, ?_, ?_, ?_, ?_⟩
    all_goals first | (rw [get_index_eq]; omega) | omega

theorem idx_eq (r c d : Nat) : idx r c d = r * 81 + c * 9 + d := by
  unfold idx
  rw [get_index_eq]
  have : (r : Int) * 81 + c * 9 + d = ((r * 81 + c * 9 + d : Nat) : Int) := by push_cast; ring
  rw [this, Int.toNat_natCast]

/-! ## The exact-cover matrix in closed form -/

theorem setM_true_iff (m : Mat) (i j i' j' : Nat) :
    setM m i j true i' j' = true ↔ m i' j' = true ∨ (i' = i ∧ j' = j) := by
  unfold setM
  by_cases h : i' = i ∧ j' = j
  · simp [h]
  · simp [h]

/-- A loop over the matrix alone whose body adds entries adds the union. -/
theorem foldl_adds_mat {α : Type} (body : Mat → α → Mat) (S : α → Nat → Nat → Prop)
    (hbody : ∀ x m i j, body m x i j = true ↔ m i j = true ∨ S x i j) :
    ∀ (xs : List α) (m : Mat) (i j : Nat),
      (xs.foldl body m) i j = true ↔ m i j = true ∨ ∃ x ∈ xs, S x i j := by
  intro xs
  induction xs with
  | nil => intro m i j; simp
  | cons x xs ih =>
    intro m i j
    rw [List.foldl_cons, ih, hbody]
    simp only [List.mem_cons, exists_eq_or_imp]
    tauto

/-- A loop that threads the matrix and the column counter: when every iteration adds
the entries `S x b` and advances the counter by `n`, the loop adds their union. -/
theorem foldl_adds {α : Type} (body : Mat × Nat → α → Mat × Nat)
    (S : α → Nat → Nat → Nat → Prop) (n : Nat)
    (hbody : ∀ x m b, (body (m, b) x).2 = b + n ∧
      ∀ i j, ((body (m, b) x).1 i j = true ↔ m i j = true ∨ S x b i j)) :
    ∀ (xs : List α) (m : Mat) (b : Nat),
      (xs.foldl body (m, b)).2 = b + n * xs.length ∧
      ∀ i j, ((xs.foldl body (m, b)).1 i j = true ↔
        m i j = true ∨ ∃ k, ∃ h : k < xs.length, S (xs.get ⟨k, h⟩) (b + n * k) i j) := by
  intro xs
  induction xs with
  | nil => intro m b; simp
  | cons x xs ih =>
    intro m b
    rw [List.foldl_cons]
    obtain ⟨h2, h1⟩ := hbody x m b
    have hst : body (m, b) x = ((body (m, b) x).1, b + n) := Prod.ext rfl h2
    rw [hst]
    obtain ⟨ih2, ih1⟩ := ih (body (m, b) x).1 (b + n)
    refine ⟨by rw [ih2, List.length_cons]; ring, ?_⟩
    intro i j
    rw [ih1, h1]
    constructor
    · rintro ((h | h) | ⟨k, hk, h⟩)
      · exact Or.inl h
      · exact Or.inr ⟨0, by simp, by simpa using h⟩
      · refine Or.inr ⟨k + 1, by simpa using hk, ?_⟩
        have e : b + n * (k + 1) = b + n + n * k := by ring
        rw [e]; simpa using h
    · rintro (h | ⟨k, hk, h⟩)
      · exact Or.inl (Or.inl h)
      · cases k with
        | zero => exact Or.inl (Or.inr (by simpa using h))
        | succ k =>
          refine Or.inr ⟨k, by simpa using hk, ?_⟩
          have e : b + n * (k + 1) = b + n + n * k := by ring
          rw [e] at h; simpa using h

theorem foldl_adds_range {α : Type} (body : Mat × Nat → α → Mat × Nat)
    (S : α → Nat → Nat → Nat → Prop) (n : Nat)
    (hbody : ∀ x m b, (body (m, b) x).2 = b + n ∧
      ∀ i j, ((body (m, b) x).1 i j = true ↔ m i j = true ∨ S x b i j))
    (xs : List α) (e : Nat → α) (hx : ∀ k (h : k < xs.length), xs.get ⟨k, h⟩ = e k)
    (m : Mat) (b : Nat) :
    (xs.foldl body (m, b)).2 = b + n * xs.length ∧
      ∀ i j, ((xs.foldl body (m, b)).1 i j = true ↔
        m i j = true ∨ ∃ k < xs.length, S (e k) (b + n * k) i j) := by
  obtain ⟨h2, h1⟩ := foldl_adds body S n hbody xs m b
  refine ⟨h2, fun i j => ?_⟩
  rw [h1]
  constructor
  · rintro (h | ⟨k, hk, h⟩)
    · exact Or.inl h
    · exact Or.inr ⟨k, hk, hx k hk ▸ h⟩
  · rintro (h | ⟨k, hk, h⟩)
    · exact Or.inl h
    · exact Or.inr ⟨k, hk, (hx k hk).symm ▸ h⟩

theorem get_range (N k : Nat) (h : k < (List.range N).length) : (List.range N).get ⟨k, h⟩ = k := by
  simp

theorem get_range' (N k : Nat) (h : k < (List.range' 1 N).length) :
    (List.range' 1 N).get ⟨k, h⟩ = 1 + k := by
  simp

theorem get_036 (k : Nat) (h : k < [0, 3, 6].length) : [0, 3, 6].get ⟨k, h⟩ = 3 * k := by
  simp only [List.length_cons, List.length_nil] at h
  interval_cases k <;> rfl

theorem cell_col_body_spec (row col : Nat) (m : Mat) (b : Nat) :
    (cell_col_body row (m, b) col).2 = b + 1 ∧
      ∀ i j, ((cell_col_body row (m, b) col).1 i j = true ↔ m i j = true ∨
        ∃ digit, 1 ≤ digit ∧ digit ≤ 9 ∧ i = idx row col digit ∧ j = b) := by
  refine ⟨rfl, fun i j => ?_⟩
  simp only [cell_col_body]
  rw [foldl_adds_mat (fun m digit => setM m (idx row col digit) b true)
    (fun digit i j => i = idx row col digit ∧ j = b) (fun x m i j => setM_true_iff m _ _ i j)]
  simp only [List.mem_range'_1]
  constructor
  · rintro (h | ⟨d, ⟨h1, h2⟩, h3⟩)
    · exact Or.inl h
    · exact Or.inr ⟨d, h1, by omega, h3⟩
  · rintro (h | ⟨d, h1, h2, h3⟩)
    · exact Or.inl h
    · exact Or.inr ⟨d, ⟨h1, by omega⟩, h3⟩

theorem cell_row_body_spec (row : Nat) (m : Mat) (b : Nat) :
    (cell_row_body (m, b) row).2 = b + 9 ∧
      ∀ i j, ((cell_row_body (m, b) row).1 i j = true ↔ m i j = true ∨
        ∃ col < 9, ∃ digit, 1 ≤ digit ∧ digit ≤ 9 ∧ i = idx row col digit ∧ j = b + col) := by
  have := foldl_adds_range (cell_col_body row)
    (fun col b i j => ∃ digit, 1 ≤ digit ∧ digit ≤ 9 ∧ i = idx row col digit ∧ j = b) 1
    (fun col m b => cell_col_body_spec row col m b) (List.range 9) id (get_range 9) m b
  simpa [cell_row_body] using this

theorem cell_constraint_spec (m : Mat) (b : Nat) :
    (cell_constraint (m, b)).2 = b + 81 ∧
      ∀ i j, ((cell_constraint (m, b)).1 i j = true ↔ m i j = true ∨ CellEntry b i j) := by
  have := foldl_adds_range cell_row_body
    (fun row b i j => ∃ col < 9, ∃ digit, 1 ≤ digit ∧ digit ≤ 9 ∧ i = idx row col digit ∧
      j = b + col) 9
    (fun row m b => cell_row_body_spec row m b) (List.range 9) id (get_range 9) m b
  unfold cell_constraint CellEntry
  refine ⟨by simpa using this.1, fun i j => ?_⟩
  rw [this.2 i j]
  simp only [List.length_range, id, add_assoc]

theorem row_digit_body_spec (row digit : Nat) (m : Mat) (b : Nat) :
    (row_digit_body row (m, b) digit).2 = b + 1 ∧
      ∀ i j, ((row_digit_body row (m, b) digit).1 i j = true ↔ m i j = true ∨
        ∃ col < 9, i = idx row col digit ∧ j = b) := by
  refine ⟨rfl, fun i j => ?_⟩
  simp only [row_digit_body]
  rw [foldl_adds_mat (fun m col => setM m (idx row col digit) b true)
    (fun col i j => i = idx row col digit ∧ j = b) (fun x m i j => setM_true_iff m _ _ i j)]
  simp only [List.mem_range]

theorem row_row_body_spec (row : Nat) (m : Mat) (b : Nat) :
    (row_row_body (m, b) row).2 = b + 9 ∧
      ∀ i j, ((row_row_body (m, b) row).1 i j = true ↔ m i j = true ∨
        ∃ k < 9, ∃ col < 9, i = idx row col (1 + k) ∧ j = b + k) := by
  have := foldl_adds_range (row_digit_body row)
    (fun digit b i j => ∃ col < 9, i = idx row col digit ∧ j = b) 1
    (fun digit m b => row_digit_body_spec row digit m b) (List.range' 1 9) (fun k => 1 + k)
    (get_range' 9) m b
  simpa [row_row_body] using this

theorem row_constraint_spec (m : Mat) (b : Nat) :
    (row_constraint (m, b)).2 = b + 81 ∧
      ∀ i j, ((row_constraint (m, b)).1 i j = true ↔ m i j = true ∨ RowEntry b i j) := by
  have := foldl_adds_range row_row_body
    (fun row b i j => ∃ k < 9, ∃ col < 9, i = idx row col (1 + k) ∧ j = b + k) 9
    (fun row m b => row_row_body_spec row m b) (List.range 9) id (get_range 9) m b
  unfold row_constraint RowEntry
  refine ⟨by simpa using this.1, fun i j => ?_⟩
  rw [this.2 i j]
  simp only [List.length_range, id]
  apply or_congr_right
  constructor
  · rintro ⟨row, hrow, k, hk, col, hcol, h1, h2⟩
    exact ⟨row, hrow, col, hcol, 1 + k, by omega, by omega, h1, by omega⟩
  · rintro ⟨row, hrow, col, hcol, d, hd1, hd9, h1, h2⟩
    refine ⟨row, hrow, d - 1, by omega, col, hcol, ?_, by omega⟩
    have : 1 + (d - 1) = d := by omega
    rw [this]; exact h1

theorem col_digit_body_spec (col digit : Nat) (m : Mat) (b : Nat) :
    (col_digit_body col (m, b) digit).2 = b + 1 ∧
      ∀ i j, ((col_digit_body col (m, b) digit).1 i j = true ↔ m i j = true ∨
        ∃ row < 9, i = idx row col digit ∧ j = b) := by
  refine ⟨rfl, fun i j => ?_⟩
  simp only [col_digit_body]
  rw [foldl_adds_mat (fun m row => setM m (idx row col digit) b true)
    (fun row i j => i = idx row col digit ∧ j = b) (fun x m i j => setM_true_iff m _ _ i j)]
  simp only [List.mem_range]

theorem col_col_body_spec (col : Nat) (m : Mat) (b : Nat) :
    (col_col_body (m, b) col).2 = b + 9 ∧
      ∀ i j, ((col_col_body (m, b) col).1 i j = true ↔ m i j = true ∨
        ∃ k < 9, ∃ row < 9, i = idx row col (1 + k) ∧ j = b + k) := by
  have := foldl_adds_range (col_digit_body col)
    (fun digit b i j => ∃ row < 9, i = idx row col digit ∧ j = b) 1
    (fun digit m b => col_digit_body_spec col digit m b) (List.range' 1 9) (fun k => 1 + k)
    (get_range' 9) m b
  simpa [col_col_body] using this

theorem col_constraint_spec (m : Mat) (b : Nat) :
    (col_constraint (m, b)).2 = b + 81 ∧
      ∀ i j, ((col_constraint (m, b)).1 i j = true ↔ m i j = true ∨ ColEntry b i j) := by
  have := foldl_adds_range col_col_body
    (fun col b i j => ∃ k < 9, ∃ row < 9, i = idx row col (1 + k) ∧ j = b + k) 9
    (fun col m b => col_col_body_spec col m b) (List.range 9) id (get_range 9) m b
  unfold col_constraint ColEntry
  refine ⟨by simpa using this.1, fun i j => ?_⟩
  rw [this.2 i j]
  simp only [List.length_range, id]
  apply or_congr_right
  constructor
  · rintro ⟨col, hcol, k, hk, row, hrow, h1, h2⟩
    exact ⟨row, hrow, col, hcol, 1 + k, by omega, by omega, h1, by omega⟩
  · rintro ⟨row, hrow, col, hcol, d, hd1, hd9, h1, h2⟩
    refine ⟨col, hcol, d - 1, by omega, row, hrow, ?_, by omega⟩
    have : 1 + (d - 1) = d := by omega
    rw [this]; exact h1

theorem box_i_body_spec (row col digit b : Nat) (m : Mat) (i' : Nat) (i j : Nat) :
    box_i_body row col digit b m i' i j = true ↔ m i j = true ∨
      ∃ j' < 3, i = idx (row + i') (col + j') digit ∧ j = b := by
  simp only [box_i_body]
  rw [foldl_adds_mat (fun m j' => setM m (idx (row + i') (col + j') digit) b true)
    (fun j' i j => i = idx (row + i') (col + j') digit ∧ j = b)
    (fun x m i j => setM_true_iff m _ _ i j)]
  simp only [List.mem_range]

theorem box_digit_body_spec (row col digit : Nat) (m : Mat) (b : Nat) :
    (box_digit_body row col (m, b) digit).2 = b + 1 ∧
      ∀ i j, ((box_digit_body row col (m, b) digit).1 i j = true ↔ m i j = true ∨
        ∃ i' < 3, ∃ j' < 3, i = idx (row + i') (col + j') digit ∧ j = b) := by
  refine ⟨rfl, fun i j => ?_⟩
  simp only [box_digit_body]
  rw [foldl_adds_mat (box_i_body row col digit b)
    (fun i' i j => ∃ j' < 3, i = idx (row + i') (col + j') digit ∧ j = b)
    (fun x m i j => box_i_body_spec row col digit b m x i j)]
  simp only [List.mem_range]

theorem box_col_body_spec (row col : Nat) (m : Mat) (b : Nat) :
    (box_col_body row (m, b) col).2 = b + 9 ∧
      ∀ i j, ((box_col_body row (m, b) col).1 i j = true ↔ m i j = true ∨
        ∃ k < 9, ∃ i' < 3, ∃ j' < 3, i = idx (row + i') (col + j') (1 + k) ∧ j = b + k) := by
  have := foldl_adds_range (box_digit_body row col)
    (fun digit b i j => ∃ i' < 3, ∃ j' < 3, i = idx (row + i') (col + j') digit ∧ j = b) 1
    (fun digit m b => box_digit_body_spec row col digit m b) (List.range' 1 9) (fun k => 1 + k)
    (get_range' 9) m b
  simpa [box_col_body] using this

theorem box_row_body_spec (row : Nat) (m : Mat) (b : Nat) :
    (box_row_body (m, b) row).2 = b + 27 ∧
      ∀ i j, ((box_row_body (m, b) row).1 i j = true ↔ m i j = true ∨
        ∃ kc < 3, ∃ k < 9, ∃ i' < 3, ∃ j' < 3,
          i = idx (row + i') (3 * kc + j') (1 + k) ∧ j = b + 9 * kc + k) := by
  have := foldl_adds_range (box_col_body row)
    (fun col b i j => ∃ k < 9, ∃ i' < 3, ∃ j' < 3,
      i = idx (row + i') (col + j') (1 + k) ∧ j = b + k) 9
    (fun col m b => box_col_body_spec row col m b) [0, 3, 6] (fun k => 3 * k) get_036 m b
  simpa [box_row_body] using this

theorem box_constraint_spec (m : Mat) (b : Nat) :
    (box_constraint (m, b)).2 = b + 81 ∧
      ∀ i j, ((box_constraint (m, b)).1 i j = true ↔ m i j = true ∨ BoxEntry b i j) := by
  have := foldl_adds_range box_row_body
    (fun row b i j => ∃ kc < 3, ∃ k < 9, ∃ i' < 3, ∃ j' < 3,
          i = idx (row + i') (3 * kc + j') (1 + k) ∧ j = b + 9 * kc + k) 27
    (fun row m b => box_row_body_spec row m b) [0, 3, 6] (fun k => 3 * k) get_036 m b
  unfold box_constraint BoxEntry
  refine ⟨by simpa using this.1, fun i j => ?_⟩
  rw [this.2 i j]
  simp only [List.length_cons, List.length_nil]
  apply or_congr_right
  constructor
  · rintro ⟨kr, hkr, kc, hkc, k, hk, i', hi', j', hj', h1, h2⟩
    refine ⟨3 * kr + i', by omega, 3 * kc + j', by omega, 1 + k, by omega, by omega, h1, ?_⟩
    omega
  · rintro ⟨row, hrow, col, hcol, d, hd1, hd9, h1, h2⟩
    refine ⟨row / 3, by omega, col / 3, by omega, d - 1, by omega, row % 3, by omega,
      col % 3, by omega, ?_, by omega⟩
    have e1 : 3 * (row / 3) + row % 3 = row := by omega
    have e2 : 3 * (col / 3) + col % 3 = col := by omega
    have e3 : 1 + (d - 1) = d := by omega
    rw [e1, e2, e3]; exact h1

theorem setM_false_iff (m : Mat) (i j i' j' : Nat) :
    setM m i j false i' j' = true ↔ m i' j' = true ∧ ¬(i' = i ∧ j' = j) := by
  unfold setM
  by_cases h : i' = i ∧ j' = j
  · simp [h]
  · simp [h]

/-- A loop over the matrix alone whose body clears entries clears the union. -/
theorem foldl_removes_mat {α : Type} (body : Mat → α → Mat) (E : α → Nat → Nat → Prop)
    (hbody : ∀ x m i j, body m x i j = true ↔ m i j = true ∧ ¬E x i j) :
    ∀ (xs : List α) (m : Mat) (i j : Nat),
      (xs.foldl body m) i j = true ↔ m i j = true ∧ ∀ x ∈ xs, ¬E x i j := by
  intro xs
  induction xs with
  | nil => intro m i j; simp
  | cons x xs ih =>
    intro m i j
    rw [List.foldl_cons, ih, hbody]
    simp only [List.mem_cons, forall_eq_or_imp]
    tauto

theorem clear_row_spec (m : Mat) (ind i j : Nat) :
    clear_row m ind i j = true ↔ m i j = true ∧ ¬(i = ind ∧ j < 324) := by
  unfold clear_row
  rw [foldl_removes_mat (fun m i' => setM m ind i' false) (fun i' i j => i = ind ∧ j = i')
    (fun x m i j => setM_false_iff m _ _ i j)]
  simp only [List.mem_range]
  constructor
  · rintro ⟨h1, h2⟩
    exact ⟨h1, fun h => h2 j h.2 ⟨h.1, rfl⟩⟩
  · rintro ⟨h1, h2⟩
    exact ⟨h1, fun x hx h => h2 ⟨h.1, h.2 ▸ hx⟩⟩

theorem elim_digit_body_spec (b : Board) (row col : Nat) (m : Mat) (digit i j : Nat) :
    elim_digit_body b row col m digit i j = true ↔
      m i j = true ∧ ¬(b row col ≠ (digit : Int) ∧ i = idx row col digit ∧ j < 324) := by
  unfold elim_digit_body
  split
  · next h => rw [clear_row_spec]; tauto
  · next h => tauto

theorem elim_col_body_spec (b : Board) (row : Nat) (m : Mat) (col i j : Nat) :
    elim_col_body b row m col i j = true ↔
      m i j = true ∧ ¬(b row col ≠ 0 ∧ ∃ digit : Nat, 1 ≤ digit ∧ digit ≤ 9 ∧
        b row col ≠ (digit : Int) ∧ i = idx row col digit ∧ j < 324) := by
  unfold elim_col_body
  split
  · next h =>
    rw [foldl_removes_mat (elim_digit_body b row col)
      (fun (digit : Nat) i j => b row col ≠ (digit : Int) ∧ i = idx row col digit ∧ j < 324)
      (fun x m i j => elim_digit_body_spec b row col m x i j)]
    simp only [List.mem_range'_1]
    apply and_congr_right
    intro _
    constructor
    · rintro h1 ⟨-, d, hd1, hd9, h2⟩
      exact h1 d ⟨hd1, by omega⟩ h2
    · rintro h1 d ⟨hd1, hd9⟩ h2
      exact h1 ⟨h, d, hd1, by omega, h2⟩
  · next h => tauto

theorem eliminate_givens_spec (b : Board) (m : Mat) (i j : Nat) :
    eliminate_givens b m i j = true ↔ m i j = true ∧ ¬Elim b i j := by
  have hrow : ∀ (row : Nat) (m : Mat) (i j : Nat), elim_row_body b m row i j = true ↔
      m i j = true ∧ ¬(∃ col < 9, b row col ≠ 0 ∧ ∃ digit : Nat, 1 ≤ digit ∧ digit ≤ 9 ∧
        b row col ≠ (digit : Int) ∧ i = idx row col digit ∧ j < 324) := by
    intro row m i j
    unfold elim_row_body
    rw [foldl_removes_mat (elim_col_body b row)
      (fun col i j => b row col ≠ 0 ∧ ∃ digit : Nat, 1 ≤ digit ∧ digit ≤ 9 ∧
        b row col ≠ (digit : Int) ∧ i = idx row col digit ∧ j < 324)
      (fun x m i j => elim_col_body_spec b row m x i j)]
    simp only [List.mem_range]
    apply and_congr_right
    intro _
    constructor
    · rintro h1 ⟨col, hcol, h2⟩
      exact h1 col hcol h2
    · rintro h1 col hcol h2
      exact h1 ⟨col, hcol, h2⟩
  unfold eliminate_givens
  rw [foldl_removes_mat (elim_row_body b)
    (fun row i j => ∃ col < 9, b row col ≠ 0 ∧ ∃ digit : Nat, 1 ≤ digit ∧ digit ≤ 9 ∧
        b row col ≠ (digit : Int) ∧ i = idx row col digit ∧ j < 324)
    (fun x m i j => hrow x m i j)]
  simp only [List.mem_range, Elim]
  apply and_congr_right
  intro _
  constructor
  · rintro h1 ⟨hj, row, hrow, col, hcol, d, hd1, hd9, h2, h3, h4⟩
    exact h1 row hrow ⟨col, hcol, h2, d, hd1, hd9, h3, h4, hj⟩
  · rintro h1 row hrow ⟨col, hcol, h2, d, hd1, hd9, h3, h4, hj⟩
    exact h1 ⟨hj, row, hrow, col, hcol, d, hd1, hd9, h2, h3, h4⟩

/-- The cover matrix, entry by entry. -/
theorem build_cover_mat_spec (b : Board) (i j : Nat) :
    build_cover_mat b i j = true ↔
      (i = 0 ∨ CellEntry 0 i j ∨ RowEntry 81 i j ∨ ColEntry 162 i j ∨ BoxEntry 243 i j) ∧
        ¬Elim b i j := by
  unfold build_cover_mat
  rw [eliminate_givens_spec]
  apply and_congr_left
  intro _
  obtain ⟨c2, c1⟩ := cell_constraint_spec (fun i _ => decide (i = 0)) 0
  have e1 : cell_constraint (fun i _ => decide (i = 0), 0)
      = ((cell_constraint (fun i _ => decide (i = 0), 0)).1, 81) := Prod.ext rfl (by rw [c2])
  rw [e1]
  obtain ⟨r2, r1⟩ := row_constraint_spec (cell_constraint (fun i _ => decide (i = 0), 0)).1 81
  have e2 : row_constraint ((cell_constraint (fun i _ => decide (i = 0), 0)).1, 81)
      = ((row_constraint ((cell_constraint (fun i _ => decide (i = 0), 0)).1, 81)).1, 162) :=
    Prod.ext rfl (by rw [r2])
  rw [e2]
  obtain ⟨k2, k1⟩ := col_constraint_spec
    (row_constraint ((cell_constraint (fun i _ => decide (i = 0), 0)).1, 81)).1 162
  have e3 : col_constraint
      ((row_constraint ((cell_constraint (fun i _ => decide (i = 0), 0)).1, 81)).1, 162)
      = ((col_constraint
        ((row_constraint ((cell_constraint (fun i _ => decide (i = 0), 0)).1, 81)).1, 162)).1,
          243) := Prod.ext rfl (by rw [k2])
  rw [e3]
  rw [(box_constraint_spec _ 243).2, k1, r1, c1]
  simp only [decide_eq_true_eq]
  tauto

/-- The candidate rows of the cover matrix. -/
theorem build_cover_mat_cand (b : Board) (r c d : Nat) (hr : r < 9) (hc : c < 9)
    (hd1 : 1 ≤ d) (hd9 : d ≤ 9) (j : Nat) :
    build_cover_mat b (idx r c d) j = true ↔
      ¬(b r c ≠ 0 ∧ b r c ≠ (d : Int)) ∧ j ∈ candCols r c d := by
  rw [build_cover_mat_spec]
  have hc1 : CellEntry 0 (idx r c d) j ↔ j = r * 9 + c := by
    unfold CellEntry
    constructor
    · rintro ⟨row, hrow, col, hcol, dg, h1, h9, hi, hj⟩
      rw [idx_eq, idx_eq] at hi
      omega
    · intro h
      exact ⟨r, hr, c, hc, d, hd1, hd9, rfl, by omega⟩
  have hc2 : RowEntry 81 (idx r c d) j ↔ j = 81 + r * 9 + (d - 1) := by
    unfold RowEntry
    constructor
    · rintro ⟨row, hrow, col, hcol, dg, h1, h9, hi, hj⟩
      rw [idx_eq, idx_eq] at hi
      omega
    · intro h
      exact ⟨r, hr, c, hc, d, hd1, hd9, rfl, by omega⟩
  have hc3 : ColEntry 162 (idx r c d) j ↔ j = 162 + c * 9 + (d - 1) := by
    unfold ColEntry
    constructor
    · rintro ⟨row, hrow, col, hcol, dg, h1, h9, hi, hj⟩
      rw [idx_eq, idx_eq] at hi
      omega
    · intro h
      exact ⟨r, hr, c, hc, d, hd1, hd9, rfl, by omega⟩
  have hc4 : BoxEntry 243 (idx r c d) j ↔ j = 243 + (3 * (r / 3) + c / 3) * 9 + (d - 1) := by
    unfold BoxEntry
    constructor
    · rintro ⟨row, hrow, col, hcol, dg, h1, h9, hi, hj⟩
      rw [idx_eq, idx_eq] at hi
      have : row = r := by omega
      have : col = c := by omega
      subst_vars
      omega
    · intro h
      exact ⟨r, hr, c, hc, d, hd1, hd9, rfl, by omega⟩
  have he : Elim b (idx r c d) j ↔ j < 324 ∧ b r c ≠ 0 ∧ b r c ≠ (d : Int) := by
    unfold Elim
    apply and_congr_right
    intro _
    constructor
    · rintro ⟨row, hrow, col, hcol, dg, h1, h9, h2, h3, hi⟩
      rw [idx_eq, idx_eq] at hi
      have : row = r := by omega
      have : col = c := by omega
      have : dg = d := by omega
      subst_vars
      exact ⟨h2, h3⟩
    · rintro ⟨h2, h3⟩
      exact ⟨r, hr, c, hc, d, hd1, hd9, h2, h3, rfl⟩
  have h0 : idx r c d ≠ 0 := by rw [idx_eq]; omega
  rw [hc1, hc2, hc3, hc4, he]
  simp only [h0, false_or, candCols, List.mem_cons, List.mem_singleton, List.not_mem_nil,
    or_false]
  constructor
  · rintro ⟨hj, hne⟩
    refine ⟨fun h => hne ⟨?_, h⟩, hj⟩
    omega
  · rintro ⟨hne, hj⟩
    exact ⟨hj, fun h => hne h.2⟩

theorem build_cover_mat_zero (b : Board) (j : Nat) : build_cover_mat b 0 j = true := by
  rw [build_cover_mat_spec]
  refine ⟨Or.inl rfl, ?_⟩
  rintro ⟨-, row, -, col, -, d, hd1, -, -, -, hi⟩
  rw [idx_eq] at hi
  omega

theorem candCols_lt (r c d : Nat) (hr : r < 9) (hc : c < 9) (hd1 : 1 ≤ d) (hd9 : d ≤ 9) :
    ∀ j ∈ candCols r c d, j < 324 := by
  intro j hj
  simp only [candCols, List.mem_cons, List.mem_singleton, List.not_mem_nil, or_false] at hj
  omega

theorem candCols_nodup (r c d : Nat) (hr : r < 9) (hc : c < 9) :
    (candCols r c d).Nodup := by
  simp only [candCols, List.nodup_cons, List.mem_cons, List.mem_singleton, List.not_mem_nil,
    not_or, List.nodup_nil, and_true, not_false_eq_true]
  omega

theorem rowCount_cand (b : Board) (r c d : Nat) (hr : r < 9) (hc : c < 9)
    (hd1 : 1 ≤ d) (hd9 : d ≤ 9) :
    rowCount (build_cover_mat b) (idx r c d)
      = if b r c ≠ 0 ∧ b r c ≠ (d : Int) then 0 else 4 := by
  unfold rowCount
  split
  · next h =>
    rw [Finset.card_eq_zero, Finset.filter_eq_empty_iff]
    intro j _
    rw [build_cover_mat_cand b r c d hr hc hd1 hd9]
    tauto
  · next h =>
    have : ((Finset.range 324).filter fun j => build_cover_mat b (idx r c d) j = true)
        = (candCols r c d).toFinset := by
      ext j
      simp only [Finset.mem_filter, Finset.mem_range, List.mem_toFinset]
      rw [build_cover_mat_cand b r c d hr hc hd1 hd9]
      constructor
      · rintro ⟨-, -, h2⟩; exact h2
      · intro h2; exact ⟨candCols_lt r c d hr hc hd1 hd9 j h2, h, h2⟩
    rw [this, List.toFinset_card_of_nodup (candCols_nodup r c d hr hc)]
    rfl

/-- C6 (row sums of the exact-cover matrix): in the matrix built by `dancing_links`,
every candidate row 1..729 has exactly 4 or exactly 0 true entries, and the header
row 0 has all 324 entries true. -/
theorem cover_mat_row_counts (b : Board) :
    (∀ i, 1 ≤ i → i ≤ 729 →
      rowCount (build_cover_mat b) i = 4 ∨ rowCount (build_cover_mat b) i = 0) ∧
    (∀ j < 324, build_cover_mat b 0 j = true) := by
  refine ⟨?_, fun j _ => build_cover_mat_zero b j⟩
  intro i h1 h2
  have hi : i = idx ((i - 1) / 81) ((i - 1) / 9 % 9) ((i - 1) % 9 + 1) := by
    rw [idx_eq]; omega
  rw [hi, rowCount_cand b _ _ _ (by omega) (by omega) (by omega) (by omega)]
  split
  · exact Or.inr rfl
  · exact Or.inl rfl

/-- C7 (encoder content): the matrix row of candidate `(r, c, d)` is entirely false
exactly when `board[r][c]` is nonzero and differs from `d`; otherwise its true entries
are exactly the four columns `r*9+c`, `81+r*9+(d-1)`, `162+c*9+(d-1)` and
`243+(3*(r/3)+c/3)*9+(d-1)`, one in each constraint family. -/
theorem encoder_content (b : Board) (r c d : Nat) (hr : r < 9) (hc : c < 9)
    (hd1 : 1 ≤ d) (hd9 : d ≤ 9) :
    ((idx r c d : Int) = get_index r c d) ∧
    ((∀ j < 324, build_cover_mat b (idx r c d) j = false) ↔
      (b r c ≠ 0 ∧ b r c ≠ (d : Int))) ∧
    (¬(b r c ≠ 0 ∧ b r c ≠ (d : Int)) →
      ∀ j < 324, (build_cover_mat b (idx r c d) j = true ↔
        (j = r * 9 + c ∨ j = 81 + r * 9 + (d - 1) ∨ j = 162 + c * 9 + (d - 1) ∨
          j = 243 + (3 * (r / 3) + c / 3) * 9 + (d - 1)))) ∧
    (r * 9 + c < 81 ∧ 81 ≤ 81 + r * 9 + (d - 1) ∧ 81 + r * 9 + (d - 1) < 162 ∧
      162 ≤ 162 + c * 9 + (d - 1) ∧ 162 + c * 9 + (d - 1) < 243 ∧
      243 ≤ 243 + (3 * (r / 3) + c / 3) * 9 + (d - 1) ∧
      243 + (3 * (r / 3) + c / 3) * 9 + (d - 1) < 324) := by
  refine ⟨?_, ?_, ?_, by omega⟩
  · rw [idx_eq, get_index_eq]; push_cast; ring
  · constructor
    · intro h
      by_contra hne
      have := (build_cover_mat_cand b r c d hr hc hd1 hd9 (r * 9 + c)).mpr
        ⟨hne, by simp [candCols]⟩
      rw [h (r * 9 + c) (by omega)] at this
      exact absurd this (by simp)
    · intro h j _
      rw [← Bool.not_eq_true, build_cover_mat_cand b r c d hr hc hd1 hd9]
      tauto
  · intro h j _
    rw [build_cover_mat_cand b r c d hr hc hd1 hd9]
    simp only [candCols, List.mem_cons, List.mem_singleton, List.not_mem_nil, or_false]
    tauto

/-- Witness for C7: in `puzzle1` the cell (0,1) holds 2 and the cell (0,0) is blank. -/
theorem encoder_content_witness :
    (∀ j < 324, build_cover_mat puzzle1 (idx 0 1 5) j = false) ∧
      build_cover_mat puzzle1 (idx 0 0 5) 85 = true :=
  ⟨(encoder_content puzzle1 0 1 5 (by decide) (by decide) (by decide) (by decide)).2.1.mpr
      (by decide),
    ((encoder_content puzzle1 0 0 5 (by decide) (by decide) (by decide) (by decide)).2.2.1
      (by decide) 85 (by decide)).mpr (by decide)⟩

/-! ## Doubly linked rings -/

theorem IsRing.reverse {nx pv : Ptr → Ptr} {h : Ptr} {L : List Ptr} (hr : IsRing nx pv h L) :
    IsRing pv nx h L.reverse := by
  refine ⟨?_, ?_⟩
  · have h1 : (h :: (L.reverse ++ [h])) = (h :: (L ++ [h])).reverse := by simp
    rw [h1, List.chain'_reverse]
    refine hr.1.imp ?_
    intro a b hab
    exact ⟨hab.2, hab.1⟩
  · have := hr.2
    simp only [List.nodup_cons, List.mem_reverse, List.nodup_reverse] at this ⊢
    exact this

/-- Every member of a ring is linked to its two neighbours, which are members. -/
theorem IsRing.next_mem {nx pv : Ptr → Ptr} {h : Ptr} {L : List Ptr} (hr : IsRing nx pv h L)
    {a : Ptr} (ha : a ∈ h :: L) : nx a ∈ h :: L ∧ pv (nx a) = a := by
  have hc := hr.1
  rw [List.Chain'.iff_mem] at hc
  rcases List.mem_cons.mp ha with rfl | haL
  · have := hc.rel_head? (y := (L ++ [a]).head (by simp)) (by simp [List.head?_eq_head])
    obtain ⟨-, h2, h3, h4⟩ := this
    rw [h3]
    refine ⟨?_, h4⟩
    cases L with
    | nil => simp
    | cons x L => simp
  · obtain ⟨A, B, rfl⟩ := List.append_of_mem haL
    have e : h :: ((A ++ a :: B) ++ [h]) = (h :: A) ++ a :: (B ++ [h]) := by simp
    rw [e, List.chain'_split] at hc
    have := hc.2.rel_head? (y := (B ++ [h]).head (by simp)) (by simp [List.head?_eq_head])
    obtain ⟨-, -, h3, h4⟩ := this
    rw [h3]
    refine ⟨?_, h4⟩
    cases B with
    | nil => simp
    | cons x B => simp

theorem IsRing.prev_mem {nx pv : Ptr → Ptr} {h : Ptr} {L : List Ptr} (hr : IsRing nx pv h L)
    {a : Ptr} (ha : a ∈ h :: L) : pv a ∈ h :: L ∧ nx (pv a) = a := by
  have := hr.reverse.next_mem (a := a) (by simpa using ha)
  simpa using this

/-- The links between nodes other than `y` survive unlinking `y`. -/
theorem link_unlink {nx pv : Ptr → Ptr} {y p q : Ptr} (h1 : nx (pv y) = y) (h2 : pv (nx y) = y)
    (hl : Link nx pv p q) (hp : p ≠ y) (hq : q ≠ y) :
    Link (Function.update nx (pv y) (nx y)) (Function.update pv (nx y) (pv y)) p q := by
  obtain ⟨e1, e2⟩ := hl
  constructor
  · rw [Function.update_noteq, e1]
    intro h
    apply hq
    rw [← e1, h, h1]
  · rw [Function.update_noteq, e2]
    intro h
    apply hp
    rw [← e2, h, h2]

theorem chain'_unlink {nx pv : Ptr → Ptr} {y : Ptr} (h1 : nx (pv y) = y) (h2 : pv (nx y) = y)
    {l : List Ptr} (hc : List.Chain' (Link nx pv) l) (hy : y ∉ l) :
    List.Chain' (Link (Function.update nx (pv y) (nx y)) (Function.update pv (nx y) (pv y))) l := by
  rw [List.Chain'.iff_mem] at hc
  refine hc.imp ?_
  rintro a b ⟨ha, hb, hab⟩
  exact link_unlink h1 h2 hab (fun e => hy (e ▸ ha)) (fun e => hy (e ▸ hb))

/-- A ring that does not hold `y` survives unlinking `y`. -/
theorem IsRing.frame {nx pv : Ptr → Ptr} {h : Ptr} {L : List Ptr} (hr : IsRing nx pv h L)
    {y : Ptr} (h1 : nx (pv y) = y) (h2 : pv (nx y) = y) (hy : y ∉ h :: L) :
    IsRing (Function.update nx (pv y) (nx y)) (Function.update pv (nx y) (pv y)) h L := by
  refine ⟨chain'_unlink h1 h2 hr.1 ?_, hr.2⟩
  simp only [List.mem_cons, List.mem_append, List.mem_singleton, List.not_mem_nil, or_false,
    not_or] at hy ⊢
  exact ⟨hy.1, hy.2, hy.1⟩

/-- Unlinking a member `y` of a ring leaves the ring without `y`. -/
theorem IsRing.unlink {nx pv : Ptr → Ptr} {h : Ptr} {L : List Ptr} (hr : IsRing nx pv h L)
    {y : Ptr} (hy : y ∈ L) :
    IsRing (Function.update nx (pv y) (nx y)) (Function.update pv (nx y) (pv y)) h
      (L.erase y) := by
  have hy' : y ∈ h :: L := List.mem_cons_of_mem _ hy
  have h1 := (hr.prev_mem hy').2
  have h2 := (hr.next_mem hy').2
  obtain ⟨A, B, rfl⟩ := List.append_of_mem hy
  have hnd := hr.2
  have hyA : y ∉ A := by
    intro h3
    have := (List.nodup_cons.mp hnd).2
    rw [List.nodup_append] at this
    exact this.2.2 h3 (List.mem_cons_self _ _)
  have hyB : y ∉ B := by
    have := (List.nodup_cons.mp hnd).2
    rw [List.nodup_append] at this
    exact (List.nodup_cons.mp this.2.1).1
  have hyh : y ≠ h := by
    rintro rfl
    exact (List.nodup_cons.mp hnd).1 hy
  have he : (A ++ y :: B).erase y = A ++ B := by
    rw [List.erase_append_right _ hyA, List.erase_cons_head]
  rw [he]
  refine ⟨?_, ?_⟩
  · have hc := hr.1
    have e : h :: ((A ++ y :: B) ++ [h]) = (h :: A) ++ y :: (B ++ [h]) := by simp
    rw [e, List.chain'_split] at hc
    obtain ⟨hc1, hc2⟩ := hc
    have e2 : h :: ((A ++ B) ++ [h]) = (h :: A) ++ (B ++ [h]) := by simp
    rw [e2, List.chain'_append]
    refine ⟨?_, ?_, ?_⟩
    · refine chain'_unlink h1 h2 hc1.left_of_append ?_
      simp only [List.mem_cons, not_or]
      exact ⟨hyh, hyA⟩
    · refine chain'_unlink h1 h2 hc2.tail ?_
      simp only [List.tail_cons, List.mem_append, List.mem_singleton, not_or]
      exact ⟨hyB, hyh⟩
    · intro x hx b hb
      have hxy : Link nx pv x y := by
        rw [List.chain'_append] at hc1
        exact hc1.2.2 x hx y (by simp)
      have hyb : Link nx pv y b := hc2.rel_head? hb
      constructor
      · rw [← hxy.2, Function.update_same]
        exact hyb.1
      · rw [← hyb.1, Function.update_same]
        exact hxy.2
  · have : (h :: (A ++ B)).Sublist (h :: (A ++ y :: B)) := by
      refine List.Sublist.cons₂ _ ?_
      exact List.Sublist.append (List.Sublist.refl _) (List.sublist_cons_self _ _)
    exact hnd.sublist this

/-- A ring can be entered at any of its members. -/
theorem IsRing.rotate {nx pv : Ptr → Ptr} {h : Ptr} {L : List Ptr} (hr : IsRing nx pv h L)
    {y : Ptr} (hy : y ∈ L) :
    ∃ L', IsRing nx pv y L' ∧ ∀ p, p ∈ y :: L' ↔ p ∈ h :: L := by
  obtain ⟨A, B, rfl⟩ := List.append_of_mem hy
  refine ⟨B ++ h :: A, ⟨?_, ?_⟩, ?_⟩
  · have hc := hr.1
    have e : h :: ((A ++ y :: B) ++ [h]) = (h :: A) ++ y :: (B ++ [h]) := by simp
    rw [e, List.chain'_split] at hc
    obtain ⟨hc1, hc2⟩ := hc
    have e2 : y :: ((B ++ h :: A) ++ [y]) = (y :: B) ++ h :: (A ++ [y]) := by simp
    rw [e2, List.chain'_split]
    refine ⟨?_, ?_⟩
    · simpa using hc2
    · simpa using hc1
  · have hnd := hr.2
    have hp : (y :: (B ++ h :: A)).Perm (h :: (A ++ y :: B)) := by
      have p1 : (y :: (B ++ h :: A)).Perm ((B ++ h :: A) ++ [y]) := by
        simpa using (@List.perm_append_comm _ [y] (B ++ h :: A))
      have p2 : ((B ++ h :: A) ++ [y]).Perm ((h :: A) ++ (y :: B)) := by
        have : (B ++ h :: A) ++ [y] = B ++ ((h :: A) ++ [y]) := by simp
        rw [this]
        have q1 : (B ++ ((h :: A) ++ [y])).Perm (((h :: A) ++ [y]) ++ B) := List.perm_append_comm
        have : ((h :: A) ++ [y]) ++ B = (h :: A) ++ (y :: B) := by simp
        rw [this] at q1
        exact q1
      exact p1.trans (by simpa using p2)
    exact hp.nodup_iff.mpr hnd
  · intro p
    simp only [List.mem_cons, List.mem_append]
    tauto

/-! ## `get_min_col` -/

theorem foldl_pick (s : Links) : ∀ (L : List Ptr) (mc : Ptr),
    L.foldl (pick s) mc ∈ mc :: L ∧ ∀ x ∈ mc :: L, s.count (L.foldl (pick s) mc) ≤ s.count x := by
  intro L
  induction L with
  | nil => intro mc; simp
  | cons a L ih =>
    intro mc
    rw [List.foldl_cons]
    obtain ⟨h1, h2⟩ := ih (pick s mc a)
    have hp : pick s mc a = mc ∨ pick s mc a = a := by
      unfold pick; split <;> simp
    have hle : s.count (pick s mc a) ≤ s.count mc ∧ s.count (pick s mc a) ≤ s.count a := by
      unfold pick; split <;> constructor <;> omega
    refine ⟨?_, ?_⟩
    · rcases List.mem_cons.mp h1 with h | h
      · rw [h]; rcases hp with h' | h' <;> rw [h'] <;> simp
      · exact List.mem_cons_of_mem _ (List.mem_cons_of_mem _ h)
    · intro x hx
      have hmin := h2 (pick s mc a) (List.mem_cons_self _ _)
      rcases List.mem_cons.mp hx with rfl | hx
      · exact hmin.trans hle.1
      · rcases List.mem_cons.mp hx with rfl | hx
        · exact hmin.trans hle.2
        · exact h2 x (List.mem_cons_of_mem _ hx)

theorem min_col_loop_eq (s : Links) : ∀ (L : List Ptr) (h mc : Ptr) (fuel : Nat),
    List.Chain' (fun a b => s.r a = b) (h :: (L ++ [Ptr.header])) → Ptr.header ∉ L →
    L.length < fuel → min_col_loop s fuel h mc = some ((h :: L).foldl (pick s) mc) := by
  intro L
  induction L with
  | nil =>
    intro h mc fuel hc _ hf
    obtain ⟨f, rfl⟩ : ∃ f, fuel = f + 1 := ⟨fuel - 1, by omega⟩
    have e : s.r h = Ptr.header := by simpa using hc
    simp [min_col_loop, e, pick]
  | cons x L ih =>
    intro h mc fuel hc hh hf
    obtain ⟨f, rfl⟩ : ∃ f, fuel = f + 1 := ⟨fuel - 1, by omega⟩
    have e : s.r h = x := hc.rel_head
    have hx : x ≠ Ptr.header := fun e' => hh (e' ▸ List.mem_cons_self _ _)
    rw [min_col_loop]
    simp only [e, ne_eq, hx, not_false_eq_true, if_true]
    rw [ih x _ f hc.tail (fun h' => hh (List.mem_cons_of_mem _ h'))
      (by simp only [List.length_cons] at hf; omega)]
    rfl

/-- On a header ring with at least two column headers `get_min_col` returns a column
header of the ring whose count is minimal. -/
theorem get_min_col_of_two (s : Links) (c1 c2 : Ptr) (rest : List Ptr)
    (hr : IsRing s.r s.l .header (c1 :: c2 :: rest)) (hlen : rest.length + 2 ≤ 324) :
    ∃ c, get_min_col s = some c ∧ c ∈ c1 :: c2 :: rest ∧
      ∀ c' ∈ c1 :: c2 :: rest, s.count c ≤ s.count c' := by
  have hc : List.Chain' (fun a b => s.r a = b) (Ptr.header :: c1 :: c2 :: (rest ++ [Ptr.header])) :=
    hr.1.imp (fun a b h => h.1)
  have e1 : s.r Ptr.header = c1 := hc.rel_head
  have e2 : s.r c1 = c2 := hc.tail.rel_head
  have hh : Ptr.header ∉ rest := by
    have := (List.nodup_cons.mp hr.2).1
    simp only [List.mem_cons, not_or] at this
    exact this.2.2
  refine ⟨(c2 :: rest).foldl (pick s) c1, ?_, ?_, ?_⟩
  · unfold get_min_col
    rw [e1, e2]
    exact min_col_loop_eq s rest c2 c1 325 hc.tail.tail hh (by omega)
  · exact (foldl_pick s (c2 :: rest) c1).1
  · exact (foldl_pick s (c2 :: rest) c1).2

/-- Outside a solve: on the hand-built state `one_col`, whose header ring holds exactly
one column header with count 1 (equal to the one row node under it), `get_min_col`
returns the master header and not the column header: its `do ... while` loop starts at
`header->r->r`, which is the master header itself, and the master header's count 0 is
smaller.  No entry of `search` has such a ring: there the ring holds a multiple of
four column headers. -/
theorem get_min_col_one_col :
    IsRing one_col.r one_col.l .header [.node 0 0] ∧
    IsRing one_col.d one_col.u (.node 0 0) [.node 1 0] ∧
    one_col.count (.node 0 0) = 1 ∧
    get_min_col one_col = some .header := by
  refine ⟨⟨?_, by decide⟩, ⟨?_, by decide⟩, by decide, by decide⟩
  · simp only [List.singleton_append, List.chain'_cons, List.chain'_singleton, and_true, Link]
    decide
  · simp only [List.singleton_append, List.chain'_cons, List.chain'_singleton, and_true, Link]
    decide

/-! ## The primitive link operations -/

theorem update_self_apply {α : Type} (f : Ptr → α) (a b : Ptr) :
    Function.update f a (f b) b = f b := by
  by_cases h : b = a
  · subst h; simp
  · simp [Function.update_noteq h]

theorem update_eq_of {α : Type} (f : Ptr → α) (a : Ptr) (v : α) (h : f a = v) :
    Function.update f a v = f := by
  subst h; exact Function.update_eq_self a f

@[simp] theorem unlink_ud_l (s : Links) (y : Ptr) : (unlink_ud s y).l = s.l := rfl
@[simp] theorem unlink_ud_r (s : Links) (y : Ptr) : (unlink_ud s y).r = s.r := rfl
@[simp] theorem unlink_ud_c (s : Links) (y : Ptr) : (unlink_ud s y).c = s.c := rfl
@[simp] theorem unlink_ud_rowID (s : Links) (y : Ptr) : (unlink_ud s y).rowID = s.rowID := rfl
@[simp] theorem unlink_ud_colID (s : Links) (y : Ptr) : (unlink_ud s y).colID = s.colID := rfl

theorem unlink_ud_d (s : Links) (y : Ptr) :
    (unlink_ud s y).d = Function.update s.d (s.u y) (s.d y) := rfl

theorem unlink_ud_u (s : Links) (y : Ptr) :
    (unlink_ud s y).u = Function.update s.u (s.d y) (s.u y) := by
  show Function.update s.u (Function.update s.d (s.u y) (s.d y) y) (s.u y) = _
  rw [update_self_apply]

theorem unlink_ud_count (s : Links) (y : Ptr) :
    (unlink_ud s y).count = Function.update s.count (.node 0 (s.colID y).toNat)
      (s.count (.node 0 (s.colID y).toNat) - 1) := rfl

@[simp] theorem relink_ud_l (s : Links) (y : Ptr) : (relink_ud s y).l = s.l := rfl
@[simp] theorem relink_ud_r (s : Links) (y : Ptr) : (relink_ud s y).r = s.r := rfl
@[simp] theorem relink_ud_c (s : Links) (y : Ptr) : (relink_ud s y).c = s.c := rfl
@[simp] theorem relink_ud_rowID (s : Links) (y : Ptr) : (relink_ud s y).rowID = s.rowID := rfl
@[simp] theorem relink_ud_colID (s : Links) (y : Ptr) : (relink_ud s y).colID = s.colID := rfl

theorem Links.ext' {s t : Links} (hl : s.l = t.l) (hr : s.r = t.r) (hu : s.u = t.u)
    (hd : s.d = t.d) (hc : s.c = t.c) (hrow : s.rowID = t.rowID) (hcol : s.colID = t.colID)
    (hcnt : s.count = t.count) : s = t := by
  cases s; cases t; simp_all

/-- Relinking a node right after unlinking it restores the memory, when the node
was linked to its neighbours. -/
theorem relink_unlink_ud (s : Links) (y : Ptr) (h1 : s.d (s.u y) = y) (h2 : s.u (s.d y) = y) :
    relink_ud (unlink_ud s y) y = s := by
  have hu : (unlink_ud s y).u y = s.u y := by
    rw [unlink_ud_u, update_self_apply]
  have hd : (unlink_ud s y).d y = s.d y := by
    rw [unlink_ud_d, update_self_apply]
  apply Links.ext'
  · rfl
  · rfl
  · show Function.update (unlink_ud s y).u
      (Function.update (unlink_ud s y).d ((unlink_ud s y).u y) y y) y = s.u
    rw [hu]
    have : Function.update (unlink_ud s y).d (s.u y) y y = s.d y := by
      by_cases h : y = s.u y
      · rw [← h, Function.update_same]
        rw [← h] at h1; exact h1.symm
      · rw [Function.update_noteq h, hd]
    rw [this, unlink_ud_u, Function.update_idem]
    exact update_eq_of _ _ _ h2
  · show Function.update (unlink_ud s y).d ((unlink_ud s y).u y) y = s.d
    rw [hu, unlink_ud_d, Function.update_idem]
    exact update_eq_of _ _ _ h1
  · rfl
  · rfl
  · rfl
  · show Function.update (unlink_ud s y).count (.node 0 ((unlink_ud s y).colID y).toNat)
      ((unlink_ud s y).count (.node 0 ((unlink_ud s y).colID y).toNat) + 1) = s.count
    rw [unlink_ud_colID, unlink_ud_count, Function.update_same, Function.update_idem]
    have : s.count (Ptr.node 0 (s.colID y).toNat) - 1 + 1 = s.count (Ptr.node 0 (s.colID y).toNat) := by
      omega
    rw [this, Function.update_eq_self]

@[simp] theorem unlink_lr_u (s : Links) (y : Ptr) : (unlink_lr s y).u = s.u := rfl
@[simp] theorem unlink_lr_d (s : Links) (y : Ptr) : (unlink_lr s y).d = s.d := rfl
@[simp] theorem unlink_lr_c (s : Links) (y : Ptr) : (unlink_lr s y).c = s.c := rfl
@[simp] theorem unlink_lr_rowID (s : Links) (y : Ptr) : (unlink_lr s y).rowID = s.rowID := rfl
@[simp] theorem unlink_lr_colID (s : Links) (y : Ptr) : (unlink_lr s y).colID = s.colID := rfl
@[simp] theorem unlink_lr_count (s : Links) (y : Ptr) : (unlink_lr s y).count = s.count := rfl

theorem unlink_lr_r (s : Links) (y : Ptr) :
    (unlink_lr s y).r = Function.update s.r (s.l y) (s.r y) := rfl

theorem unlink_lr_l (s : Links) (y : Ptr) :
    (unlink_lr s y).l = Function.update s.l (s.r y) (s.l y) := by
  show Function.update s.l (Function.update s.r (s.l y) (s.r y) y) (s.l y) = _
  rw [update_self_apply]

/-- Relinking a column header right after unlinking it restores the memory, when
the header was linked to its neighbours. -/
theorem relink_unlink_lr (s : Links) (y : Ptr) (h1 : s.r (s.l y) = y) (h2 : s.l (s.r y) = y) :
    relink_lr (unlink_lr s y) y = s := by
  have hl : (unlink_lr s y).l y = s.l y := by
    rw [unlink_lr_l, update_self_apply]
  have hr : (unlink_lr s y).r y = s.r y := by
    rw [unlink_lr_r, update_self_apply]
  apply Links.ext'
  · show Function.update (unlink_lr s y).l
      (Function.update (unlink_lr s y).r ((unlink_lr s y).l y) y y) y = s.l
    rw [hl]
    have : Function.update (unlink_lr s y).r (s.l y) y y = s.r y := by
      by_cases h : y = s.l y
      · rw [← h, Function.update_same]
        rw [← h] at h1; exact h1.symm
      · rw [Function.update_noteq h, hr]
    rw [this, unlink_lr_l, Function.update_idem]
    exact update_eq_of _ _ _ h2
  · show Function.update (unlink_lr s y).r ((unlink_lr s y).l y) y = s.r
    rw [hl, unlink_lr_r, Function.update_idem]
    exact update_eq_of _ _ _ h1
  · rfl
  · rfl
  · rfl
  · rfl
  · rfl
  · rfl

/-! ## The column rings under unlinking -/

theorem mem_eraseAll : ∀ (ys L : List Ptr), L.Nodup → ∀ p, p ∈ eraseAll ys L ↔ p ∈ L ∧ p ∉ ys := by
  intro ys
  induction ys with
  | nil => intro L _ p; simp [eraseAll]
  | cons y ys ih =>
    intro L hL p
    have : eraseAll (y :: ys) L = eraseAll ys (L.erase y) := rfl
    rw [this, ih _ (hL.erase y), hL.mem_erase_iff]
    simp only [List.mem_cons, not_or]
    tauto

theorem eraseAll_nodup (ys L : List Ptr) (hL : L.Nodup) : (eraseAll ys L).Nodup := by
  induction ys generalizing L with
  | nil => exact hL
  | cons y ys ih => exact ih _ (hL.erase y)

theorem eraseAll_of_disjoint : ∀ (ys L : List Ptr), (∀ y ∈ ys, y ∉ L) → eraseAll ys L = L := by
  intro ys
  induction ys with
  | nil => intro L _; rfl
  | cons y ys ih =>
    intro L h
    have : eraseAll (y :: ys) L = eraseAll ys (L.erase y) := rfl
    rw [this, List.erase_of_not_mem (h y (List.mem_cons_self _ _))]
    exact ih L (fun y' hy' => h y' (List.mem_cons_of_mem _ hy'))

theorem eraseAll_append (ys zs L : List Ptr) :
    eraseAll (ys ++ zs) L = eraseAll zs (eraseAll ys L) := by
  simp [eraseAll, List.foldl_append]

theorem VRep.linked {m : Mat} {cnt0 : Nat → Int} {s : Links} {cols : Nat → List Ptr}
    (h : VRep m cnt0 s cols) {j : Nat} (hj : j < 324) {y : Ptr} (hy : y ∈ cols j) :
    s.d (s.u y) = y ∧ s.u (s.d y) = y :=
  ⟨((h.vring j hj).prev_mem (List.mem_cons_of_mem _ hy)).2,
    ((h.vring j hj).next_mem (List.mem_cons_of_mem _ hy)).2⟩

/-- Unlinking a linked row node removes it from its column ring and decrements that
column's count; everything else stays. -/
theorem VRep.unlink_node {m : Mat} {cnt0 : Nat → Int} {s : Links} {cols : Nat → List Ptr}
    (h : VRep m cnt0 s cols) {j : Nat} (hj : j < 324) {y : Ptr} (hy : y ∈ cols j) :
    VRep m cnt0 (unlink_ud s y) (fun j' => (cols j').erase y) := by
  obtain ⟨i, hi1, hi2, hm, rfl⟩ := h.vrows j hj y hy
  obtain ⟨h1, h2⟩ := h.linked hj hy
  have hother : ∀ j', j' < 324 → j' ≠ j → Ptr.node i j ∉ Ptr.node 0 j' :: cols j' := by
    intro j' hj' hne hmem
    rcases List.mem_cons.mp hmem with e | e
    · injection e with e1 e2; omega
    · obtain ⟨i', -, -, -, e'⟩ := h.vrows j' hj' _ e
      injection e' with e1 e2
      exact hne e2.symm
  refine ⟨?_, ?_, ?_, ?_⟩
  · intro i' j' hi' hj' hm'
    simpa using h.static i' j' hi' hj' hm'
  · intro j' hj'
    rw [unlink_ud_d, unlink_ud_u]
    by_cases hjj : j' = j
    · subst hjj
      exact (h.vring j' hj').unlink hy
    · have hn := hother j' hj' hjj
      rw [List.erase_of_not_mem (fun e => hn (List.mem_cons_of_mem _ e))]
      exact (h.vring j' hj').frame h1 h2 hn
  · intro j' hj' p hp
    exact h.vrows j' hj' p (List.mem_of_mem_erase hp)
  · intro j' hj'
    rw [unlink_ud_count, (h.static i j hi2 hj hm).2.1]
    simp only [Int.toNat_ofNat]
    by_cases hjj : j' = j
    · subst hjj
      rw [Function.update_same, h.counts j' hj', List.length_erase_of_mem hy]
      have := List.length_pos_of_mem hy
      omega
    · have hn := hother j' hj' hjj
      rw [List.erase_of_not_mem (fun e => hn (List.mem_cons_of_mem _ e)),
        Function.update_noteq (by intro e; injection e with e1 e2; exact hjj e2)]
      exact h.counts j' hj'

/-- Unlinking a list of distinct linked row nodes, and relinking them in reverse
order, which restores the memory exactly. -/
theorem VRep.unlink_list {m : Mat} {cnt0 : Nat → Int} :
    ∀ (ys : List Ptr) (s : Links) (cols : Nat → List Ptr), VRep m cnt0 s cols → ys.Nodup →
      (∀ y ∈ ys, ∃ j, j < 324 ∧ y ∈ cols j) →
      VRep m cnt0 (ys.foldl unlink_ud s) (fun j => eraseAll ys (cols j)) ∧
        ys.reverse.foldl relink_ud (ys.foldl unlink_ud s) = s := by
  intro ys
  induction ys with
  | nil => intro s cols h _ _; exact ⟨h, rfl⟩
  | cons y ys ih =>
    intro s cols h hnd hmem
    obtain ⟨j, hj, hy⟩ := hmem y (List.mem_cons_self _ _)
    obtain ⟨h1, h2⟩ := h.linked hj hy
    have hnd' := List.nodup_cons.mp hnd
    obtain ⟨ih1, ih2⟩ := ih (unlink_ud s y) (fun j' => (cols j').erase y) (h.unlink_node hj hy) hnd'.2
      (by
        intro y' hy'
        obtain ⟨j', hj', hy''⟩ := hmem y' (List.mem_cons_of_mem _ hy')
        refine ⟨j', hj', (List.mem_erase_of_ne ?_).mpr hy''⟩
        rintro rfl
        exact hnd'.1 hy')
    refine ⟨ih1, ?_⟩
    rw [List.reverse_cons, List.foldl_append]
    simp only [List.foldl_cons, List.foldl_nil]
    rw [ih2]
    exact relink_unlink_ud s y h1 h2

theorem foldl_unlink_ud_r (ys : List Ptr) (s : Links) : (ys.foldl unlink_ud s).r = s.r := by
  induction ys generalizing s with
  | nil => rfl
  | cons y ys ih => rw [List.foldl_cons, ih, unlink_ud_r]

theorem foldl_unlink_ud_l (ys : List Ptr) (s : Links) : (ys.foldl unlink_ud s).l = s.l := by
  induction ys generalizing s with
  | nil => rfl
  | cons y ys ih => rw [List.foldl_cons, ih, unlink_ud_l]

theorem foldl_unlink_ud_c (ys : List Ptr) (s : Links) : (ys.foldl unlink_ud s).c = s.c := by
  induction ys generalizing s with
  | nil => rfl
  | cons y ys ih => rw [List.foldl_cons, ih, unlink_ud_c]

theorem foldl_unlink_ud_rowID (ys : List Ptr) (s : Links) :
    (ys.foldl unlink_ud s).rowID = s.rowID := by
  induction ys generalizing s with
  | nil => rfl
  | cons y ys ih => rw [List.foldl_cons, ih, unlink_ud_rowID]

theorem foldl_relink_ud_r (ys : List Ptr) (s : Links) : (ys.foldl relink_ud s).r = s.r := by
  induction ys generalizing s with
  | nil => rfl
  | cons y ys ih => rw [List.foldl_cons, ih, relink_ud_r]

theorem foldl_relink_ud_l (ys : List Ptr) (s : Links) : (ys.foldl relink_ud s).l = s.l := by
  induction ys generalizing s with
  | nil => rfl
  | cons y ys ih => rw [List.foldl_cons, ih, relink_ud_l]

/-! ## Loops over rings -/

theorem IsRing.next_head {nx pv : Ptr → Ptr} {h : Ptr} {L : List Ptr} (hr : IsRing nx pv h L) :
    nx h = firstOr L h := by
  have hc := hr.1
  cases L with
  | nil => exact (List.chain'_cons.mp hc).1.1
  | cons x L => exact (List.chain'_cons.mp hc).1.1

theorem IsRing.next_split {nx pv : Ptr → Ptr} {h : Ptr} {pre post : List Ptr} {y : Ptr}
    (hr : IsRing nx pv h (pre ++ y :: post)) : nx y = firstOr post h := by
  have hc := hr.1
  have e : h :: ((pre ++ y :: post) ++ [h]) = (h :: pre) ++ y :: (post ++ [h]) := by simp
  rw [e, List.chain'_split] at hc
  have hc2 := hc.2
  cases post with
  | nil => exact (List.chain'_cons.mp hc2).1.1
  | cons x post => exact (List.chain'_cons.mp hc2).1.1

/-- Loop rule for `ring_loop`: when the loop walks the list `L` of nodes and every
iteration keeps the invariant `I` (indexed by the nodes already visited), the loop
ends within `L.length + 1` tests with the invariant for all of `L`. -/
theorem ring_loop_spec (next : Links → Ptr → Ptr) (body : Links → Ptr → Option Links)
    (stop : Ptr) (I : List Ptr → Links → Prop) (L : List Ptr) (hstop : stop ∉ L)
    (hstep : ∀ pre y post s, L = pre ++ y :: post → I pre s →
      ∃ s', body s y = some s' ∧ I (pre ++ [y]) s' ∧ next s' y = firstOr post stop) :
    ∀ (post pre : List Ptr) (s : Links) (fuel : Nat), L = pre ++ post → I pre s →
      post.length < fuel →
      ∃ s', ring_loop next body stop fuel s (firstOr post stop) = some s' ∧ I L s' := by
  intro post
  induction post with
  | nil =>
    intro pre s fuel hL hI hf
    obtain ⟨f, rfl⟩ : ∃ f, fuel = f + 1 := ⟨fuel - 1, by omega⟩
    refine ⟨s, ?_, ?_⟩
    · simp [ring_loop, firstOr]
    · rw [hL, List.append_nil]; exact hI
  | cons y post ih =>
    intro pre s fuel hL hI hf
    obtain ⟨f, rfl⟩ : ∃ f, fuel = f + 1 := ⟨fuel - 1, by omega⟩
    have hy : y ≠ stop := by
      rintro rfl
      apply hstop
      rw [hL]; simp
    obtain ⟨s', hb, hI', hn⟩ := hstep pre y post s hL hI
    obtain ⟨s'', h1, h2⟩ := ih (pre ++ [y]) s' f (by rw [hL]; simp) hI'
      (by simp only [List.length_cons] at hf; omega)
    refine ⟨s'', ?_, h2⟩
    simp only [firstOr, ring_loop, hy, if_false, hb, hn]
    exact h1

/-- The inner loop of `cover` unlinks the other nodes of the row, in ring order. -/
theorem cover_row_eq (s : Links) (x : Ptr) (O : List Ptr) (hr : IsRing s.r s.l x O)
    (hlen : O.length < 324) : cover_row s x = some (O.foldl unlink_ud s) := by
  have hx : x ∉ O := (List.nodup_cons.mp hr.2).1
  obtain ⟨s', h1, h2⟩ := ring_loop_spec (fun s p => s.r p) (fun s rnode => some (unlink_ud s rnode))
    x (fun pre s' => s' = pre.foldl unlink_ud s) O hx
    (by
      intro pre y post s' hL hI
      refine ⟨unlink_ud s' y, rfl, ?_, ?_⟩
      · show unlink_ud s' y = (pre ++ [y]).foldl unlink_ud s
        rw [hI, List.foldl_append]; rfl
      · simp only [unlink_ud_r]
        rw [hI, foldl_unlink_ud_r]
        rw [hL] at hr
        exact hr.next_split)
    O [] s 324 rfl rfl hlen
  unfold cover_row
  rw [hr.next_head, h1, h2]

/-- The inner loop of `uncover` relinks the other nodes of the row, in reverse ring
order. -/
theorem uncover_row_eq (s : Links) (x : Ptr) (O : List Ptr) (hr : IsRing s.r s.l x O)
    (hlen : O.length < 324) : uncover_row s x = some (O.reverse.foldl relink_ud s) := by
  have hx : x ∉ O.reverse := by
    rw [List.mem_reverse]; exact (List.nodup_cons.mp hr.2).1
  have hr' := hr.reverse
  obtain ⟨s', h1, h2⟩ := ring_loop_spec (fun s p => s.l p) (fun s lnode => some (relink_ud s lnode))
    x (fun pre s' => s' = pre.foldl relink_ud s) O.reverse hx
    (by
      intro pre y post s' hL hI
      refine ⟨relink_ud s' y, rfl, ?_, ?_⟩
      · show relink_ud s' y = (pre ++ [y]).foldl relink_ud s
        rw [hI, List.foldl_append]; rfl
      · simp only [relink_ud_l]
        rw [hI, foldl_relink_ud_l]
        rw [hL] at hr'
        exact hr'.next_split)
    O.reverse [] s 324 rfl rfl (by rw [List.length_reverse]; exact hlen)
  unfold uncover_row
  rw [hr'.next_head, h1, h2]

/-- Distinct nodes of one row in columns below `n` other than `j` are fewer than `n`. -/
theorem length_row_nodes (O : List Ptr) (i j n : Nat) (hj : j < n) (hnd : O.Nodup)
    (h : ∀ p ∈ O, ∃ j', j' < n ∧ j' ≠ j ∧ p = Ptr.node i j') : O.length < n := by
  have hinj : ∀ p ∈ O, ∀ q ∈ O, ptrCol p = ptrCol q → p = q := by
    intro p hp q hq e
    obtain ⟨a, -, -, rfl⟩ := h p hp
    obtain ⟨b, -, -, rfl⟩ := h q hq
    simp only [ptrCol] at e
    rw [e]
  have hnd' : (O.map ptrCol).Nodup := (List.nodup_map_iff_inj_on hnd).mpr hinj
  have hsub : (O.map ptrCol).toFinset ⊆ (Finset.range n).erase j := by
    intro c hc
    simp only [List.mem_toFinset, List.mem_map] at hc
    obtain ⟨p, hp, rfl⟩ := hc
    obtain ⟨a, ha, hne, rfl⟩ := h p hp
    simp [ptrCol, ha, hne]
  have := Finset.card_le_card hsub
  rw [List.toFinset_card_of_nodup hnd', List.length_map,
    Finset.card_erase_of_mem (by simpa using hj), Finset.card_range] at this
  omega

/-- Distinct nodes of one column in rows `1..n-1` are fewer than `n`. -/
theorem length_col_nodes (X : List Ptr) (j n : Nat) (hn : 0 < n) (hnd : X.Nodup)
    (h : ∀ p ∈ X, ∃ i, 1 ≤ i ∧ i < n ∧ p = Ptr.node i j) : X.length < n := by
  have hinj : ∀ p ∈ X, ∀ q ∈ X, ptrRow p = ptrRow q → p = q := by
    intro p hp q hq e
    obtain ⟨a, -, -, rfl⟩ := h p hp
    obtain ⟨b, -, -, rfl⟩ := h q hq
    simp only [ptrRow] at e
    rw [e]
  have hnd' : (X.map ptrRow).Nodup := (List.nodup_map_iff_inj_on hnd).mpr hinj
  have hsub : (X.map ptrRow).toFinset ⊆ (Finset.range n).erase 0 := by
    intro c hc
    simp only [List.mem_toFinset, List.mem_map] at hc
    obtain ⟨p, hp, rfl⟩ := hc
    obtain ⟨a, ha1, ha2, rfl⟩ := h p hp
    simp only [ptrRow, Finset.mem_erase, Finset.mem_range]
    omega
  have := Finset.card_le_card hsub
  rw [List.toFinset_card_of_nodup hnd', List.length_map,
    Finset.card_erase_of_mem (by simpa using hn), Finset.card_range] at this
  omega

/-! ## Sweeping a column: the loops of `cover` and `uncover` -/

theorem sweepState_snoc (s1 : Links) (O : Ptr → List Ptr) (pre : List Ptr) (y : Ptr) :
    sweepState s1 O (pre ++ [y]) = (O y).foldl unlink_ud (sweepState s1 O pre) := by
  simp [sweepState, List.flatMap_append, List.foldl_append]

theorem Sweep.not_mem_col {m : Mat} {cnt0 : Nat → Int} {s1 : Links} {cols : Nat → List Ptr}
    {c : Nat} {X : List Ptr} {O : Ptr → List Ptr} (h : Sweep m cnt0 s1 cols c X O)
    {y : Ptr} (hy : y ∈ X.flatMap O) : y ∉ cols c := by
  obtain ⟨j, hj, hne, hyj⟩ := h.ys_mem y hy
  intro hyc
  obtain ⟨i, -, -, -, e⟩ := h.v.vrows j hj y hyj
  obtain ⟨i', -, -, -, e'⟩ := h.v.vrows c h.hc y hyc
  rw [e] at e'
  injection e' with e1 e2
  exact hne e2

theorem Sweep.vrep {m : Mat} {cnt0 : Nat → Int} {s1 : Links} {cols : Nat → List Ptr}
    {c : Nat} {X : List Ptr} {O : Ptr → List Ptr} (h : Sweep m cnt0 s1 cols c X O)
    (pre post : List Ptr) (hX : X = pre ++ post) :
    VRep m cnt0 (sweepState s1 O pre) (fun j => eraseAll (pre.flatMap O) (cols j)) ∧
      eraseAll (pre.flatMap O) (cols c) = X := by
  have hsub : (pre.flatMap O).Sublist (X.flatMap O) := by
    rw [hX, List.flatMap_append]
    exact List.sublist_append_left _ _
  refine ⟨(VRep.unlink_list (pre.flatMap O) s1 cols h.v (h.ys_nodup.sublist hsub) ?_).1, ?_⟩
  · intro y hy
    obtain ⟨j, hj, -, hyj⟩ := h.ys_mem y (hsub.subset hy)
    exact ⟨j, hj, hyj⟩
  · rw [eraseAll_of_disjoint, h.hX]
    intro y hy
    exact h.not_mem_col (hsub.subset hy)

/-- Sweeping one more row, and undoing it. -/
theorem Sweep.step {m : Mat} {cnt0 : Nat → Int} {s1 : Links} {cols : Nat → List Ptr}
    {c : Nat} {X : List Ptr} {O : Ptr → List Ptr} (h : Sweep m cnt0 s1 cols c X O)
    {pre post : List Ptr} {y : Ptr} (hX : X = pre ++ y :: post) :
    cover_row (sweepState s1 O pre) y = some (sweepState s1 O (pre ++ [y])) ∧
      uncover_row (sweepState s1 O (pre ++ [y])) y = some (sweepState s1 O pre) := by
  have hy : y ∈ X := by rw [hX]; simp
  obtain ⟨hring, hlen⟩ := h.rows y hy
  have hr1 : IsRing (sweepState s1 O pre).r (sweepState s1 O pre).l y (O y) := by
    unfold sweepState
    rw [foldl_unlink_ud_r, foldl_unlink_ud_l]; exact hring
  have hr2 : IsRing (sweepState s1 O (pre ++ [y])).r (sweepState s1 O (pre ++ [y])).l y (O y) := by
    unfold sweepState
    rw [foldl_unlink_ud_r, foldl_unlink_ud_l]; exact hring
  refine ⟨?_, ?_⟩
  · rw [cover_row_eq _ y (O y) hr1 hlen, sweepState_snoc]
  · rw [uncover_row_eq _ y (O y) hr2 hlen, sweepState_snoc]
    have hv := (h.vrep pre (y :: post) hX).1
    have hnd : ((pre.flatMap O) ++ (O y ++ post.flatMap O)).Nodup := by
      have := h.ys_nodup
      rw [hX] at this
      simpa [List.flatMap_append] using this
    have hnd' := List.nodup_append.mp hnd
    refine congrArg some (VRep.unlink_list (O y) _ _ hv (List.nodup_append.mp hnd'.2.1).1 ?_).2
    intro p hp
    have hp' : p ∈ X.flatMap O := List.mem_flatMap.mpr ⟨y, hy, hp⟩
    obtain ⟨j, hj, -, hpj⟩ := h.ys_mem p hp'
    refine ⟨j, hj, ?_⟩
    rw [mem_eraseAll _ _ (List.nodup_cons.mp (h.v.vring j hj).2).2]
    refine ⟨hpj, fun hpp => ?_⟩
    exact hnd'.2.2 hpp (List.mem_append_left _ hp)

/-- The double loop of `cover` sweeps the whole column. -/
theorem Sweep.cover_loop {m : Mat} {cnt0 : Nat → Int} {s1 : Links} {cols : Nat → List Ptr}
    {c : Nat} {X : List Ptr} {O : Ptr → List Ptr} (h : Sweep m cnt0 s1 cols c X O) :
    ring_loop (fun s p => s.d p) cover_row (.node 0 c) 730 s1 (s1.d (.node 0 c))
      = some (sweepState s1 O X) := by
  have hring : IsRing s1.d s1.u (.node 0 c) X := h.hX ▸ h.v.vring c h.hc
  have hlen : X.length < 730 := by
    refine length_col_nodes X c 730 (by omega) (List.nodup_cons.mp hring.2).2 ?_
    intro p hp
    obtain ⟨i, h1, h2, -, e⟩ := h.v.vrows c h.hc p (h.hX ▸ hp)
    exact ⟨i, h1, h2, e⟩
  obtain ⟨s', h1, h2⟩ := ring_loop_spec (fun s p => s.d p) cover_row (.node 0 c)
    (fun pre s' => s' = sweepState s1 O pre) X (List.nodup_cons.mp hring.2).1
    (by
      intro pre y post s' hL hI
      refine ⟨sweepState s1 O (pre ++ [y]), ?_, rfl, ?_⟩
      · rw [hI]; exact (h.step hL).1
      · obtain ⟨hv, he⟩ := h.vrep (pre ++ [y]) post (by rw [hL]; simp)
        have hr := hv.vring c h.hc
        simp only [he] at hr
        rw [hL] at hr
        exact hr.next_split)
    X [] s1 730 rfl rfl hlen
  rw [hring.next_head, h1, h2]

/-- The double loop of `uncover` undoes the sweep of `cover`. -/
theorem Sweep.uncover_loop {m : Mat} {cnt0 : Nat → Int} {s1 : Links} {cols : Nat → List Ptr}
    {c : Nat} {X : List Ptr} {O : Ptr → List Ptr} (h : Sweep m cnt0 s1 cols c X O) :
    ring_loop (fun s p => s.u p) uncover_row (.node 0 c) 730 (sweepState s1 O X)
      ((sweepState s1 O X).u (.node 0 c)) = some s1 := by
  have hring : IsRing s1.d s1.u (.node 0 c) X := h.hX ▸ h.v.vring c h.hc
  have hlen : X.length < 730 := by
    refine length_col_nodes X c 730 (by omega) (List.nodup_cons.mp hring.2).2 ?_
    intro p hp
    obtain ⟨i, h1, h2, -, e⟩ := h.v.vrows c h.hc p (h.hX ▸ hp)
    exact ⟨i, h1, h2, e⟩
  have hrev : ∀ A B, X = A ++ B →
      IsRing (sweepState s1 O A).u (sweepState s1 O A).d (.node 0 c) X.reverse := by
    intro A B hAB
    obtain ⟨hv, he⟩ := h.vrep A B hAB
    have hr := hv.vring c h.hc
    simp only [he] at hr
    exact hr.reverse
  obtain ⟨s', h1, h2⟩ := ring_loop_spec (fun s p => s.u p) uncover_row (.node 0 c)
    (fun pre t => ∃ A, X = A ++ pre.reverse ∧ t = sweepState s1 O A) X.reverse
    (by rw [List.mem_reverse]; exact (List.nodup_cons.mp hring.2).1)
    (by
      rintro pre y post t hL ⟨A, hA, ht⟩
      have hX' : X = post.reverse ++ y :: pre.reverse := by
        have := congrArg List.reverse hL
        simpa using this
      have hAe : A = post.reverse ++ [y] := by
        have : A ++ pre.reverse = (post.reverse ++ [y]) ++ pre.reverse := by
          rw [← hA, hX']; simp
        exact List.append_cancel_right this
      refine ⟨sweepState s1 O post.reverse, ?_, ⟨post.reverse, by rw [hX']; simp, rfl⟩, ?_⟩
      · rw [ht, hAe]
        exact (h.step hX').2
      · have hr := hrev post.reverse (y :: pre.reverse) hX'
        rw [hL] at hr
        exact hr.next_split)
    X.reverse [] (sweepState s1 O X) 730 rfl ⟨X, by simp, rfl⟩
    (by rw [List.length_reverse]; exact hlen)
  rw [(hrev X [] (by simp)).next_head, h1]
  obtain ⟨A, hA, ht⟩ := h2
  have : A = [] := by
    have : A ++ X = [] ++ X := by simpa using hA.symm
    exact List.append_cancel_right this
  rw [ht, this]
  rfl

/-! ## Well-formed link states and `cover` -/

theorem Rep.header_linked {m : Mat} {cnt0 : Nat → Int} {s : Links} {hs : List Ptr}
    {cols : Nat → List Ptr} (h : Rep m cnt0 s hs cols) {p : Ptr} (hp : p ∈ hs) :
    s.r (s.l p) = p ∧ s.l (s.r p) = p :=
  ⟨(h.hring.prev_mem (List.mem_cons_of_mem _ hp)).2,
    (h.hring.next_mem (List.mem_cons_of_mem _ hp)).2⟩

/-- The row rings survive unlinking a column header from the header ring. -/
theorem Rep.rowRing_unlink_lr {m : Mat} {cnt0 : Nat → Int} {s : Links} {hs : List Ptr}
    {cols : Nat → List Ptr} (h : Rep m cnt0 s hs cols) {c : Nat}
    (hin : Ptr.node 0 c ∈ hs) {i j : Nat} (hi : 1 ≤ i) {O : List Ptr}
    (hr : IsRing s.r s.l (.node i j) O)
    (hO : ∀ p ∈ O, ∃ j', p = Ptr.node i j') :
    IsRing (unlink_lr s (.node 0 c)).r (unlink_lr s (.node 0 c)).l (.node i j) O := by
  obtain ⟨h1, h2⟩ := h.header_linked hin
  rw [unlink_lr_r, unlink_lr_l]
  refine hr.frame h1 h2 ?_
  intro hmem
  rcases List.mem_cons.mp hmem with e | e
  · injection e with e1 e2; omega
  · obtain ⟨j', e'⟩ := hO _ e
    injection e' with e1 e2; omega

theorem VRep.of_unlink_lr {m : Mat} {cnt0 : Nat → Int} {s : Links} {cols : Nat → List Ptr}
    (h : VRep m cnt0 s cols) (y : Ptr) : VRep m cnt0 (unlink_lr s y) cols :=
  ⟨h.static, h.vring, h.vrows, h.counts⟩

/-- A column of the header ring can be swept. -/
theorem Rep.sweep {m : Mat} {cnt0 : Nat → Int} {s : Links} {hs : List Ptr}
    {cols : Nat → List Ptr} (h : Rep m cnt0 s hs cols) {c : Nat} (hc : c < 324)
    (hin : Ptr.node 0 c ∈ hs) :
    ∃ O : Ptr → List Ptr, Sweep m cnt0 (unlink_lr s (.node 0 c)) cols c (cols c) O ∧
      ∀ x ∈ cols c, ∀ p, p ∈ O x ↔
        ∃ j', j' < 324 ∧ j' ≠ c ∧ m (ptrRow x) j' = true ∧ p = .node (ptrRow x) j' := by
  have key : ∀ x, ∃ L : List Ptr, x ∈ cols c → (IsRing s.r s.l x L ∧ ∀ p, p ∈ L ↔
      ∃ j', j' < 324 ∧ j' ≠ c ∧ m (ptrRow x) j' = true ∧ p = .node (ptrRow x) j') := by
    intro x
    by_cases hx : x ∈ cols c
    · obtain ⟨i, hi1, hi2, hm, rfl⟩ := h.v.vrows c hc x hx
      obtain ⟨L, hL1, hL2⟩ := h.rowRing i c hi1 hi2 hc hm
      exact ⟨L, fun _ => ⟨hL1, hL2⟩⟩
    · exact ⟨[], fun hx' => absurd hx' hx⟩
  choose O hO using key
  have hrow : ∀ x ∈ cols c, ∃ i, 1 ≤ i ∧ i < 730 ∧ m i c = true ∧ x = Ptr.node i c :=
    fun x hx => h.v.vrows c hc x hx
  refine ⟨O, ⟨h.v.of_unlink_lr _, hc, rfl, ?_, ?_, ?_⟩, fun x hx => (hO x hx).2⟩
  · intro x hx
    obtain ⟨i, hi1, hi2, hm, rfl⟩ := hrow x hx
    obtain ⟨hr, hmem⟩ := hO _ hx
    refine ⟨h.rowRing_unlink_lr hin hi1 hr ?_, ?_⟩
    · intro p hp
      obtain ⟨j', -, -, -, e⟩ := (hmem p).mp hp
      exact ⟨j', e⟩
    · refine length_row_nodes _ i c 324 hc (List.nodup_cons.mp hr.2).2 ?_
      intro p hp
      obtain ⟨j', h1, h2, -, e⟩ := (hmem p).mp hp
      exact ⟨j', h1, h2, e⟩
  · rw [List.nodup_flatMap]
    refine ⟨fun x hx => (List.nodup_cons.mp (hO x hx).1.2).2, ?_⟩
    have hnd : (cols c).Nodup := (List.nodup_cons.mp (h.v.vring c hc).2).2
    refine List.Pairwise.imp_of_mem ?_ hnd
    intro a b ha hb hab
    obtain ⟨i, -, -, -, rfl⟩ := hrow a ha
    obtain ⟨i', -, -, -, rfl⟩ := hrow b hb
    intro p hpa hpb
    obtain ⟨j1, -, -, -, e1⟩ := ((hO _ ha).2 p).mp hpa
    obtain ⟨j2, -, -, -, e2⟩ := ((hO _ hb).2 p).mp hpb
    rw [e1] at e2
    simp only [ptrRow] at e2
    injection e2 with e3 e4
    exact hab (by rw [e3])
  · intro y hy
    obtain ⟨x, hx, hyx⟩ := List.mem_flatMap.mp hy
    obtain ⟨i, hi1, hi2, hm, rfl⟩ := hrow x hx
    obtain ⟨j', hj', hne, hm', rfl⟩ := ((hO _ hx).2 y).mp hyx
    exact ⟨j', hj', hne, (h.act c hc hin i hx j' hj' hm').2⟩

/-- `cover` on a column of the header ring: it returns, the result is well formed with
the column out of the header ring and the rows of the column out of the other columns,
and `uncover` of the same column then restores the memory exactly. -/
theorem Rep.cover_spec {m : Mat} {cnt0 : Nat → Int} {s : Links} {hs : List Ptr}
    {cols : Nat → List Ptr} (h : Rep m cnt0 s hs cols) {c : Nat} (hc : c < 324)
    (hin : Ptr.node 0 c ∈ hs) (targ : Ptr) (ht : s.c targ = .node 0 c) :
    ∃ s' cols', cover s targ = some s' ∧ Rep m cnt0 s' (hs.erase (.node 0 c)) cols' ∧
      (∀ j, j < 324 → ∀ p, p ∈ cols' j ↔
        p ∈ cols j ∧ ¬(j ≠ c ∧ Ptr.node (ptrRow p) c ∈ cols c)) ∧
      cols' c = cols c ∧ s'.c = s.c ∧ s'.rowID = s.rowID ∧
      (∀ targ', s'.c targ' = .node 0 c → uncover s' targ' = some s) ∧
      (∀ p, 1 ≤ ptrRow p → s'.r p = s.r p ∧ s'.l p = s.l p) := by
  obtain ⟨O, hsw, hO⟩ := h.sweep hc hin
  have hcov := hsw.cover_loop
  have hunc := hsw.uncover_loop
  obtain ⟨hv, hXe⟩ := hsw.vrep (cols c) [] (by simp)
  have hr' : (sweepState (unlink_lr s (.node 0 c)) O (cols c)).r
      = (unlink_lr s (.node 0 c)).r := foldl_unlink_ud_r _ _
  have hl' : (sweepState (unlink_lr s (.node 0 c)) O (cols c)).l
      = (unlink_lr s (.node 0 c)).l := foldl_unlink_ud_l _ _
  have hc' : (sweepState (unlink_lr s (.node 0 c)) O (cols c)).c = s.c := foldl_unlink_ud_c _ _
  have hys : ∀ j, j < 324 → ∀ p, p ∈ cols j →
      (p ∈ (cols c).flatMap O ↔ (j ≠ c ∧ Ptr.node (ptrRow p) c ∈ cols c)) := by
    intro j hj p hp
    obtain ⟨i, hi1, hi2, hm, rfl⟩ := h.v.vrows j hj p hp
    simp only [ptrRow]
    constructor
    · intro hy
      obtain ⟨x, hx, hyx⟩ := List.mem_flatMap.mp hy
      obtain ⟨j', -, hne, -, e⟩ := (hO x hx _).mp hyx
      obtain ⟨i', -, -, -, rfl⟩ := h.v.vrows c hc x hx
      simp only [ptrRow] at e
      injection e with e1 e2
      subst e1 e2
      exact ⟨hne, hx⟩
    · rintro ⟨hne, hx⟩
      exact List.mem_flatMap.mpr ⟨_, hx, (hO _ hx _).mpr ⟨j, hj, hne, hm, rfl⟩⟩
  have hmem : ∀ j, j < 324 → ∀ p, p ∈ eraseAll ((cols c).flatMap O) (cols j) ↔
      p ∈ cols j ∧ ¬(j ≠ c ∧ Ptr.node (ptrRow p) c ∈ cols c) := by
    intro j hj p
    rw [mem_eraseAll _ _ (List.nodup_cons.mp (h.v.vring j hj).2).2]
    constructor
    · rintro ⟨h1, h2⟩
      exact ⟨h1, fun h3 => h2 ((hys j hj p h1).mpr h3)⟩
    · rintro ⟨h1, h2⟩
      exact ⟨h1, fun h3 => h2 ((hys j hj p h1).mp h3)⟩
  refine ⟨sweepState (unlink_lr s (.node 0 c)) O (cols c),
    fun j => eraseAll ((cols c).flatMap O) (cols j), ?_, ?_, hmem, hXe, hc', ?_, ?_, ?_⟩
  · unfold cover
    simp only [ht]
    exact hcov
  · refine ⟨hv, h.hzero, ?_, ?_, ?_, ?_, ?_⟩
    · intro i j hi1 hi2 hj hm
      obtain ⟨L, hL1, hL2⟩ := h.rowRing i j hi1 hi2 hj hm
      refine ⟨L, ?_, hL2⟩
      rw [hr', hl']
      refine h.rowRing_unlink_lr hin hi1 hL1 ?_
      intro p hp
      obtain ⟨j', -, -, -, e⟩ := (hL2 p).mp hp
      exact ⟨j', e⟩
    · rw [hr', hl', unlink_lr_r, unlink_lr_l]
      exact h.hring.unlink hin
    · intro p hp
      exact h.hcols p (List.mem_of_mem_erase hp)
    · intro j hj hjin i hij j' hj' hm'
      have hnd : hs.Nodup := (List.nodup_cons.mp h.hring.2).2
      obtain ⟨hjne, hjin'⟩ := (hnd.mem_erase_iff).mp hjin
      have hjc : j ≠ c := fun e => hjne (by rw [e])
      obtain ⟨hij1, hij2⟩ := (hmem j hj _).mp hij
      simp only [ptrRow] at hij2
      have hic : Ptr.node i c ∉ cols c := fun e => hij2 ⟨hjc, e⟩
      obtain ⟨a1, a2⟩ := h.act j hj hjin' i hij1 j' hj' hm'
      have hj'c : j' ≠ c := by
        rintro rfl
        exact hic a2
      refine ⟨(hnd.mem_erase_iff).mpr ⟨fun e => hj'c (by injection e), a1⟩, ?_⟩
      rw [hmem j' hj']
      exact ⟨a2, fun e => hic e.2⟩
    · intro j hj hjin i hi1 hi2 hm hall
      have hnd : hs.Nodup := (List.nodup_cons.mp h.hring.2).2
      obtain ⟨-, hjin'⟩ := (hnd.mem_erase_iff).mp hjin
      rw [hmem j hj]
      refine ⟨h.full j hj hjin' i hi1 hi2 hm
        (fun j' hj' hm' => List.mem_of_mem_erase (hall j' hj' hm')), ?_⟩
      rintro ⟨-, hic⟩
      simp only [ptrRow] at hic
      obtain ⟨i', -, -, hm', e⟩ := h.v.vrows c hc _ hic
      injection e with e1 e2
      subst e1
      exact ((hnd.mem_erase_iff).mp (hall c hc hm')).1 rfl
  · exact foldl_unlink_ud_rowID _ _
  · intro targ' ht'
    unfold uncover
    simp only [ht', hunc]
    obtain ⟨h1, h2⟩ := h.header_linked hin
    rw [relink_unlink_lr s _ h1 h2]
  · intro p hp
    rw [hr', hl', unlink_lr_r, unlink_lr_l]
    have hmem1 := (h.hring.prev_mem (List.mem_cons_of_mem _ hin)).1
    have hmem2 := (h.hring.next_mem (List.mem_cons_of_mem _ hin)).1
    have hrow0 : ∀ q, q ∈ Ptr.header :: hs → ptrRow q = 0 := by
      intro q hq
      rcases List.mem_cons.mp hq with e | e
      · rw [e]; rfl
      · obtain ⟨j, -, e'⟩ := h.hcols q e
        rw [e']; rfl
    constructor
    · rw [Function.update_noteq]
      rintro rfl
      have := hrow0 _ hmem1
      omega
    · rw [Function.update_noteq]
      rintro rfl
      have := hrow0 _ hmem2
      omega

/-! ## The neighbour scans of `create_link_mat` -/

/-- The scan follows the positions `y + step`, `y + 2 step`, ... (mod `n`) and stops at
the first one that is true or equal to `stop`. -/
theorem scan_iter (p : Nat → Bool) (n step stop : Nat) :
    ∀ (k fuel y : Nat), k < fuel →
      (∀ t, t < k → p ((fun z => (z + step) % n)^[t + 1] y) = false ∧
        (fun z => (z + step) % n)^[t + 1] y ≠ stop) →
      (p ((fun z => (z + step) % n)^[k + 1] y) = true ∨
        (fun z => (z + step) % n)^[k + 1] y = stop) →
      scan p n step stop fuel y = (fun z => (z + step) % n)^[k + 1] y := by
  intro k
  induction k with
  | zero =>
    intro fuel y hf _ hk
    obtain ⟨f, rfl⟩ : ∃ f, fuel = f + 1 := ⟨fuel - 1, by omega⟩
    simp only [Function.iterate_succ, Function.iterate_zero, Function.comp_apply, id_eq] at hk
    simp only [scan, zero_add, Function.iterate_succ, Function.iterate_zero, Function.comp_apply,
      id_eq]
    rcases hk with hk | hk
    · simp [hk]
    · simp [hk]
  | succ k ih =>
    intro fuel y hf hskip hk
    obtain ⟨f, rfl⟩ : ∃ f, fuel = f + 1 := ⟨fuel - 1, by omega⟩
    have h0 := hskip 0 (by omega)
    simp only [zero_add, Function.iterate_succ, Function.iterate_zero, Function.comp_apply,
      id_eq] at h0
    have hrec := ih f ((y + step) % n) (by omega)
      (by
        intro t ht
        have := hskip (t + 1) (by omega)
        simpa only [Function.iterate_succ, Function.comp_apply] using this)
      (by simpa only [Function.iterate_succ, Function.comp_apply] using hk)
    rw [scan]
    simp only [h0.1, Bool.not_false, Bool.true_and, bne_iff_ne, ne_eq, h0.2, not_false_eq_true,
      if_true]
    rw [hrec]
    simp only [Function.iterate_succ, Function.comp_apply]

theorem iter_fwd (n : Nat) : ∀ (t y : Nat), (fun z => (z + 1) % n)^[t] y = if t = 0 then y else (y + t) % n := by
  intro t
  induction t with
  | zero => intro y; simp
  | succ t ih =>
    intro y
    rw [Function.iterate_succ, Function.comp_apply, ih]
    simp only [Nat.add_one_ne_zero, if_false]
    split
    · next h => subst h; simp
    · rw [Nat.mod_add_mod]
      congr 1
      omega

theorem iter_bwd (n : Nat) : ∀ (t y : Nat),
    (fun z => (z + (n - 1)) % n)^[t] y = if t = 0 then y else (y + t * (n - 1)) % n := by
  intro t
  induction t with
  | zero => intro y; simp
  | succ t ih =>
    intro y
    rw [Function.iterate_succ, Function.comp_apply, ih]
    simp only [Nat.add_one_ne_zero, if_false]
    split
    · next h => subst h; simp
    · rw [Nat.mod_add_mod]
      congr 1
      rw [Nat.add_mul]
      omega

theorem add_mod_small {n z : Nat} (h : z < n) : z % n = z := Nat.mod_eq_of_lt h

theorem add_mod_wrap {n z : Nat} (h1 : n ≤ z) (h2 : z < 2 * n) : z % n = z - n := by
  rw [Nat.mod_eq_sub_mod h1, Nat.mod_eq_of_lt (by omega)]

/-- Backward positions: `t` steps of `n - 1` from `y` land on `y - t`, cyclically. -/
theorem bwd_pos {n y t : Nat} (hy : y < n) (ht : t ≤ n) (ht0 : 0 < t) :
    (y + t * (n - 1)) % n = if t ≤ y then y - t else y + n - t := by
  split
  · next h =>
    have : y + t * (n - 1) = (y - t) + t * n := by
      have : t * (n - 1) + t = t * n := by
        rw [← Nat.mul_succ]; congr 1; omega
      omega
    rw [this, Nat.add_mul_mod_self_right, Nat.mod_eq_of_lt (by omega)]
  · next h =>
    have : y + t * (n - 1) = (y + n - t) + (t - 1) * n := by
      have h1 : t * (n - 1) + t = t * n := by
        rw [← Nat.mul_succ]; congr 1; omega
      have h2 : (t - 1) * n + n = t * n := by
        rw [← Nat.succ_mul]; congr 1; omega
      omega
    rw [this, Nat.add_mul_mod_self_right, Nat.mod_eq_of_lt (by omega)]

/-- Forward scan inside the array: the next true entry after `a` is `b`. -/
theorem scan_fwd_gap (p : Nat → Bool) (n a b : Nat) (hab : a < b) (hb : b < n)
    (hgap : ∀ x, a < x → x < b → p x = false) (hpb : p b = true) :
    scan p n 1 a n a = b := by
  have key := scan_iter p n 1 a (b - a - 1) n a (by omega)
    (by
      intro t ht
      rw [iter_fwd]
      simp only [Nat.add_one_ne_zero, if_false]
      rw [add_mod_small (by omega)]
      exact ⟨hgap _ (by omega) (by omega), by omega⟩)
    (by
      rw [iter_fwd]
      simp only [Nat.add_one_ne_zero, if_false]
      rw [add_mod_small (by omega)]
      left
      have : a + (b - a - 1 + 1) = b := by omega
      rw [this]; exact hpb)
  rw [key, iter_fwd]
  simp only [Nat.add_one_ne_zero, if_false]
  rw [add_mod_small (by omega)]
  omega

/-- Forward scan around the end of the array: nothing true after `a`, and `b` is the
first true entry from 0 (or `a` itself). -/
theorem scan_fwd_wrap (p : Nat → Bool) (n a b : Nat) (hba : b ≤ a) (ha : a < n)
    (hgap1 : ∀ x, a < x → x < n → p x = false) (hgap2 : ∀ x, x < b → p x = false)
    (hpb : p b = true ∨ b = a) :
    scan p n 1 a n a = b := by
  have hpos : ∀ t, 0 < t → t ≤ n - a + b →
      (a + t) % n = if a + t < n then a + t else a + t - n := by
    intro t _ ht
    split
    · next h => exact add_mod_small h
    · next h => exact add_mod_wrap (by omega) (by omega)
  have key := scan_iter p n 1 a (n - a + b - 1) n a (by omega)
    (by
      intro t ht
      rw [iter_fwd]
      simp only [Nat.add_one_ne_zero, if_false]
      rw [hpos (t + 1) (by omega) (by omega)]
      split
      · next h => exact ⟨hgap1 _ (by omega) h, by omega⟩
      · next h => exact ⟨hgap2 _ (by omega), by omega⟩)
    (by
      rw [iter_fwd]
      simp only [Nat.add_one_ne_zero, if_false]
      rw [hpos _ (by omega) (by omega)]
      have e : a + (n - a + b - 1 + 1) - n = b := by omega
      rw [if_neg (by omega), e]
      exact hpb)
  rw [key, iter_fwd]
  simp only [Nat.add_one_ne_zero, if_false]
  rw [hpos _ (by omega) (by omega), if_neg (by omega)]
  omega

/-- Backward scan inside the array: the previous true entry before `b` is `a`. -/
theorem scan_bwd_gap (p : Nat → Bool) (n a b : Nat) (hab : a < b) (hb : b < n)
    (hgap : ∀ x, a < x → x < b → p x = false) (hpa : p a = true) :
    scan p n (n - 1) b n b = a := by
  have key := scan_iter p n (n - 1) b (b - a - 1) n b (by omega)
    (by
      intro t ht
      rw [iter_bwd n]
      simp only [Nat.add_one_ne_zero, if_false]
      rw [bwd_pos hb (by omega) (by omega), if_pos (by omega)]
      exact ⟨hgap _ (by omega) (by omega), by omega⟩)
    (by
      rw [iter_bwd n]
      simp only [Nat.add_one_ne_zero, if_false]
      rw [bwd_pos hb (by omega) (by omega), if_pos (by omega)]
      left
      have : b - (b - a - 1 + 1) = a := by omega
      rw [this]; exact hpa)
  rw [key, iter_bwd n]
  simp only [Nat.add_one_ne_zero, if_false]
  rw [bwd_pos hb (by omega) (by omega), if_pos (by omega)]
  omega

/-- Backward scan around the start of the array: nothing true before `b`, and `a` is
the last true entry (or `b` itself). -/
theorem scan_bwd_wrap (p : Nat → Bool) (n a b : Nat) (hba : b ≤ a) (ha : a < n)
    (hgap1 : ∀ x, a < x → x < n → p x = false) (hgap2 : ∀ x, x < b → p x = false)
    (hpa : p a = true ∨ a = b) :
    scan p n (n - 1) b n b = a := by
  have hbn : b < n := by omega
  have key := scan_iter p n (n - 1) b (b + n - a - 1) n b (by omega)
    (by
      intro t ht
      rw [iter_bwd n]
      simp only [Nat.add_one_ne_zero, if_false]
      rw [bwd_pos hbn (by omega) (by omega)]
      split
      · next h => exact ⟨hgap2 _ (by omega), by omega⟩
      · next h => exact ⟨hgap1 _ (by omega) (by omega), by omega⟩)
    (by
      rw [iter_bwd n]
      simp only [Nat.add_one_ne_zero, if_false]
      rw [bwd_pos hbn (by omega) (by omega)]
      split
      · next h =>
        have : a = b := by omega
        subst this
        right; omega
      · next h =>
        have e : b + n - (b + n - a - 1 + 1) = a := by omega
        rw [e]; exact hpa)
  rw [key, iter_bwd n]
  simp only [Nat.add_one_ne_zero, if_false]
  rw [bwd_pos hbn (by omega) (by omega)]
  split
  · next h => omega
  · next h => omega

/-! ## The ring through the true entries of a circular array -/

theorem mem_trues {p : Nat → Bool} {n x : Nat} : x ∈ trues p n ↔ x < n ∧ p x = true := by
  simp [trues]

theorem trues_sorted (p : Nat → Bool) (n : Nat) : (trues p n).Pairwise (· < ·) :=
  (List.pairwise_lt_range n).filter _

theorem trues_nodup (p : Nat → Bool) (n : Nat) : (trues p n).Nodup :=
  (List.nodup_range n).filter _

/-- Between two neighbours of the list of true positions nothing is true. -/
theorem trues_chain (p : Nat → Bool) (n : Nat) :
    List.Chain' (fun a b => a < b ∧ b < n ∧ p a = true ∧ p b = true ∧
      ∀ x, a < x → x < b → p x = false) (trues p n) := by
  have h1 := List.chain'_isInfix (trues p n)
  refine h1.imp ?_
  rintro a b ⟨A, B, hAB⟩
  have hs := trues_sorted p n
  rw [← hAB] at hs
  have ha : a ∈ trues p n := by rw [← hAB]; simp
  have hb : b ∈ trues p n := by rw [← hAB]; simp
  have hs' : (A ++ (a :: b :: B)).Pairwise (· < ·) := by simpa using hs
  rw [List.pairwise_append] at hs'
  obtain ⟨-, hs2, hs3⟩ := hs'
  rw [List.pairwise_cons] at hs2
  obtain ⟨hs4, hs5⟩ := hs2
  rw [List.pairwise_cons] at hs5
  refine ⟨hs4 b (List.mem_cons_self _ _), (mem_trues.mp hb).1, (mem_trues.mp ha).2,
    (mem_trues.mp hb).2, ?_⟩
  intro x hax hxb
  by_contra hpx
  have hx : x ∈ trues p n := mem_trues.mpr ⟨by have := (mem_trues.mp hb).1; omega, by simpa using hpx⟩
  rw [← hAB] at hx
  simp only [List.append_assoc, List.cons_append, List.nil_append, List.mem_append,
    List.mem_cons] at hx
  rcases hx with hx | rfl | rfl | hx
  · have := hs3 x hx a (List.mem_cons_self _ _); omega
  · omega
  · omega
  · have := hs5.1 x hx; omega

/-- Following the forward scans from the least true position visits all true
positions in increasing order and returns; the backward scans walk the same ring in
the other direction. -/
theorem trues_ring (p : Nat → Bool) (n : Nat) (t0 : Nat) (rest : List Nat)
    (hT : trues p n = t0 :: rest) :
    List.Chain' (ScanLink p n) (t0 :: (rest ++ [t0])) := by
  have hch := trues_chain p n
  have hs := trues_sorted p n
  rw [hT] at hch hs
  have e : t0 :: (rest ++ [t0]) = (t0 :: rest) ++ [t0] := by simp
  rw [e, List.chain'_append]
  refine ⟨?_, List.chain'_singleton _, ?_⟩
  · refine hch.imp ?_
    rintro a b ⟨hab, hb, hpa, hpb, hgap⟩
    exact ⟨scan_fwd_gap p n a b hab hb hgap hpb, scan_bwd_gap p n a b hab hb hgap hpa⟩
  · intro a ha b hb
    simp only [List.head?_cons, Option.mem_def, Option.some.injEq] at hb
    subst hb
    have ha' : a ∈ t0 :: rest := List.mem_of_mem_getLast? ha
    have hamem : a ∈ trues p n := hT ▸ ha'
    have ht0mem : t0 ∈ trues p n := by rw [hT]; simp
    have hle : t0 ≤ a := by
      rcases List.mem_cons.mp ha' with h | h
      · omega
      · have := (List.pairwise_cons.mp hs).1 a h; omega
    have hgap2 : ∀ x, x < t0 → p x = false := by
      intro x hx
      by_contra hpx
      have hxm : x ∈ trues p n :=
        mem_trues.mpr ⟨by have := (mem_trues.mp ht0mem).1; omega, by simpa using hpx⟩
      rw [hT] at hxm
      rcases List.mem_cons.mp hxm with h | h
      · omega
      · have := (List.pairwise_cons.mp hs).1 x h; omega
    have hgap1 : ∀ x, a < x → x < n → p x = false := by
      intro x hax hxn
      by_contra hpx
      have hxm : x ∈ trues p n := mem_trues.mpr ⟨hxn, by simpa using hpx⟩
      rw [hT] at hxm
      obtain ⟨init, hinit⟩ : ∃ init, t0 :: rest = init ++ [a] := by
        have hne : t0 :: rest ≠ [] := by simp
        refine ⟨(t0 :: rest).dropLast, ?_⟩
        have h1 := List.dropLast_append_getLast hne
        have h2 : (t0 :: rest).getLast hne = a := by
          have := List.getLast?_eq_getLast _ hne
          rw [this] at ha
          simpa using ha
        rw [h2] at h1
        exact h1.symm
      rw [hinit] at hs hxm
      rw [List.pairwise_append] at hs
      rcases List.mem_append.mp hxm with h | h
      · have := hs.2.2 x h a (by simp); omega
      · simp at h; omega
    exact ⟨scan_fwd_wrap p n a t0 hle (mem_trues.mp hamem).1 hgap1 hgap2
        (Or.inl (mem_trues.mp ht0mem).2),
      scan_bwd_wrap p n a t0 hle (mem_trues.mp hamem).1 hgap1 hgap2
        (Or.inl (mem_trues.mp hamem).2)⟩

/-! ## `create_link_mat` in closed form -/

theorem create_link_mat_eq (m : Mat) (s : Links) :
    create_link_mat m s = link_header (link_fold m (List.range 730) (List.range 324) s) := rfl

theorem setsField_l (m : Mat) :
    SetsField m (fun s => s.l) (fun row col => .node row (scan (m row) 324 323 col 324 col)) := by
  intro s row col; unfold link_entry; split <;> [(split <;> rfl); rfl]

theorem setsField_r (m : Mat) :
    SetsField m (fun s => s.r) (fun row col => .node row (scan (m row) 324 1 col 324 col)) := by
  intro s row col; unfold link_entry; split <;> [(split <;> rfl); rfl]

theorem setsField_u (m : Mat) :
    SetsField m (fun s => s.u)
      (fun row col => .node (scan (fun x => m x col) 730 729 row 730 row) col) := by
  intro s row col; unfold link_entry; split <;> [(split <;> rfl); rfl]

theorem setsField_d (m : Mat) :
    SetsField m (fun s => s.d)
      (fun row col => .node (scan (fun x => m x col) 730 1 row 730 row) col) := by
  intro s row col; unfold link_entry; split <;> [(split <;> rfl); rfl]

theorem setsField_c (m : Mat) : SetsField m (fun s => s.c) (fun _ col => .node 0 col) := by
  intro s row col; unfold link_entry; split <;> [(split <;> rfl); rfl]

theorem setsField_rowID (m : Mat) : SetsField m (fun s => s.rowID) (fun row _ => (row : Int)) := by
  intro s row col; unfold link_entry; split <;> [(split <;> rfl); rfl]

theorem setsField_colID (m : Mat) : SetsField m (fun s => s.colID) (fun _ col => (col : Int)) := by
  intro s row col; unfold link_entry; split <;> [(split <;> rfl); rfl]

theorem link_fold_inner {α : Type} {m : Mat} {get : Links → Ptr → α} {val : Nat → Nat → α}
    (h : SetsField m get val) (row : Nat) :
    ∀ (cols : List Nat) (s : Links) (p : Ptr),
      get (cols.foldl (fun s col => link_entry m s row col) s) p =
        if ptrCol p ∈ cols ∧ m row (ptrCol p) = true ∧ p = .node row (ptrCol p)
        then val row (ptrCol p) else get s p := by
  intro cols
  induction cols with
  | nil => intro s p; simp
  | cons col cols ih =>
    intro s p
    rw [List.foldl_cons, ih, h]
    by_cases h1 : ptrCol p ∈ cols ∧ m row (ptrCol p) = true ∧ p = .node row (ptrCol p)
    · rw [if_pos h1, if_pos ⟨List.mem_cons_of_mem _ h1.1, h1.2⟩]
    · rw [if_neg h1]
      by_cases hm : m row col = true
      · rw [if_pos hm]
        by_cases hp : p = .node row col
        · subst hp
          simp [ptrCol, hm]
        · rw [Function.update_noteq hp]
          rw [if_neg]
          rintro ⟨h2, h3, h4⟩
          rcases List.mem_cons.mp h2 with e | e
          · exact hp (e ▸ h4)
          · exact h1 ⟨e, h3, h4⟩
      · rw [if_neg hm, if_neg]
        rintro ⟨h2, h3, h4⟩
        rcases List.mem_cons.mp h2 with e | e
        · exact hm (e ▸ h3)
        · exact h1 ⟨e, h3, h4⟩

/-- After the double loop a field set by `link_entry` holds its value at every true
entry visited, and is untouched elsewhere. -/
theorem link_fold_field {α : Type} {m : Mat} {get : Links → Ptr → α} {val : Nat → Nat → α}
    (h : SetsField m get val) (cols : List Nat) :
    ∀ (rows : List Nat) (s : Links) (p : Ptr),
      get (link_fold m rows cols s) p =
        if ptrRow p ∈ rows ∧ ptrCol p ∈ cols ∧ m (ptrRow p) (ptrCol p) = true ∧
          p = .node (ptrRow p) (ptrCol p)
        then val (ptrRow p) (ptrCol p) else get s p := by
  intro rows
  induction rows with
  | nil => intro s p; simp [link_fold]
  | cons row rows ih =>
    intro s p
    have e : link_fold m (row :: rows) cols s
        = link_fold m rows cols (cols.foldl (fun s col => link_entry m s row col) s) := rfl
    rw [e, ih, link_fold_inner h]
    by_cases h1 : ptrRow p ∈ rows ∧ ptrCol p ∈ cols ∧ m (ptrRow p) (ptrCol p) = true ∧
        p = .node (ptrRow p) (ptrCol p)
    · rw [if_pos h1, if_pos ⟨List.mem_cons_of_mem _ h1.1, h1.2⟩]
    · rw [if_neg h1]
      by_cases h2 : ptrCol p ∈ cols ∧ m row (ptrCol p) = true ∧ p = .node row (ptrCol p)
      · have hr : ptrRow p = row := by rw [h2.2.2]; rfl
        rw [if_pos h2, if_pos, hr]
        rw [hr]
        exact ⟨List.mem_cons_self _ _, h2⟩
      · rw [if_neg h2, if_neg]
        rintro ⟨h3, h4, h5, h6⟩
        rcases List.mem_cons.mp h3 with e | e
        · exact h2 ⟨h4, e ▸ h5, e ▸ h6⟩
        · exact h1 ⟨e, h4, h5, h6⟩

theorem link_entry_count (m : Mat) (s : Links) (row col : Nat) :
    (link_entry m s row col).count =
      if m row col = true ∧ 0 < row
      then Function.update s.count (.node 0 col) (s.count (.node 0 col) + 1) else s.count := by
  unfold link_entry
  by_cases h1 : m row col = true
  · by_cases h2 : 0 < row
    · simp [h1, h2]
    · simp [h1, h2]
  · simp [h1]

theorem link_fold_inner_count (m : Mat) (row j : Nat) :
    ∀ (cols : List Nat) (s : Links), cols.Nodup →
      (cols.foldl (fun s col => link_entry m s row col) s).count (.node 0 j) =
        s.count (.node 0 j) + if j ∈ cols ∧ m row j = true ∧ 0 < row then 1 else 0 := by
  intro cols
  induction cols with
  | nil => intro s _; simp
  | cons col cols ih =>
    intro s hnd
    obtain ⟨hnd1, hnd2⟩ := List.nodup_cons.mp hnd
    rw [List.foldl_cons, ih _ hnd2, link_entry_count]
    by_cases hj : j = col
    · subst hj
      have : ¬(j ∈ cols ∧ m row j = true ∧ 0 < row) := fun h => hnd1 h.1
      rw [if_neg this]
      by_cases h1 : m row j = true ∧ 0 < row
      · rw [if_pos h1, if_pos ⟨List.mem_cons_self _ _, h1⟩, Function.update_same]; omega
      · rw [if_neg h1, if_neg (fun h => h1 h.2)]
    · have hne : Ptr.node 0 j ≠ Ptr.node 0 col := by
        intro e; injection e with e1 e2; exact hj e2
      have hcnt : (if m row col = true ∧ 0 < row
          then Function.update s.count (.node 0 col) (s.count (.node 0 col) + 1) else s.count)
          (.node 0 j) = s.count (.node 0 j) := by
        split
        · rw [Function.update_noteq hne]
        · rfl
      rw [hcnt]
      congr 1
      by_cases h1 : j ∈ cols ∧ m row j = true ∧ 0 < row
      · rw [if_pos h1, if_pos ⟨List.mem_cons_of_mem _ h1.1, h1.2⟩]
      · rw [if_neg h1, if_neg]
        rintro ⟨h2, h3⟩
        rcases List.mem_cons.mp h2 with e | e
        · exact hj e
        · exact h1 ⟨e, h3⟩

/-- After the double loop the count of a visited column has grown by the number of
true entries of the column in the visited rows other than row 0. -/
theorem link_fold_count (m : Mat) (cols : List Nat) (hnd : cols.Nodup) (j : Nat)
    (hj : j ∈ cols) :
    ∀ (rows : List Nat) (s : Links),
      (link_fold m rows cols s).count (.node 0 j) =
        s.count (.node 0 j) + ((rows.filter fun row => decide (0 < row) && m row j).length : Nat) := by
  intro rows
  induction rows with
  | nil => intro s; simp [link_fold]
  | cons row rows ih =>
    intro s
    have e : link_fold m (row :: rows) cols s
        = link_fold m rows cols (cols.foldl (fun s col => link_entry m s row col) s) := rfl
    rw [e, ih, link_fold_inner_count m row j cols s hnd]
    by_cases h1 : m row j = true ∧ 0 < row
    · rw [if_pos ⟨hj, h1⟩, List.filter_cons_of_pos (by simp [h1.1, h1.2])]
      simp only [List.length_cons]
      push_cast
      ring
    · rw [if_neg (fun h => h1 h.2), List.filter_cons_of_neg]
      · simp
      · intro h
        simp only [Bool.and_eq_true, decide_eq_true_eq] at h
        exact h1 ⟨h.2, h.1⟩

theorem link_header_r (s : Links) :
    (link_header s).r = Function.update (Function.update s.r .header (.node 0 0)) (.node 0 323)
      .header := rfl

theorem link_header_l (s : Links) :
    (link_header s).l = Function.update (Function.update s.l .header (.node 0 323)) (.node 0 0)
      .header := rfl

@[simp] theorem link_header_u (s : Links) : (link_header s).u = s.u := rfl
@[simp] theorem link_header_d (s : Links) : (link_header s).d = s.d := rfl
@[simp] theorem link_header_c (s : Links) : (link_header s).c = s.c := rfl
@[simp] theorem link_header_rowID (s : Links) : (link_header s).rowID = s.rowID := rfl
@[simp] theorem link_header_colID (s : Links) : (link_header s).colID = s.colID := rfl
@[simp] theorem link_header_count (s : Links) : (link_header s).count = s.count := rfl

/-! ## The state built by `create_link_mat` is well formed -/

theorem trues_head_zero (p : Nat → Bool) (n : Nat) (hn : 0 < n) (h0 : p 0 = true) :
    trues p n = 0 :: (trues p n).tail := by
  have hmem : 0 ∈ trues p n := mem_trues.mpr ⟨hn, h0⟩
  cases hT : trues p n with
  | nil => rw [hT] at hmem; simp at hmem
  | cons t rest =>
    have hs := trues_sorted p n
    rw [hT] at hs hmem
    rcases List.mem_cons.mp hmem with e | e
    · rw [← e]; rfl
    · have := (List.pairwise_cons.mp hs).1 0 e; omega

theorem mem_trues_tail (p : Nat → Bool) (n : Nat) (hn : 0 < n) (h0 : p 0 = true) (i : Nat) :
    i ∈ (trues p n).tail ↔ 1 ≤ i ∧ i < n ∧ p i = true := by
  have hT := trues_head_zero p n hn h0
  have hnd := trues_nodup p n
  rw [hT] at hnd
  have h1 : i ∈ trues p n ↔ i = 0 ∨ i ∈ (trues p n).tail := by
    conv_lhs => rw [hT]
    simp
  rw [mem_trues] at h1
  constructor
  · intro hi
    have := h1.mpr (Or.inr hi)
    refine ⟨?_, this.1, this.2⟩
    by_contra h
    have : i = 0 := by omega
    subst this
    exact (List.nodup_cons.mp hnd).1 hi
  · rintro ⟨hi1, hi2, hi3⟩
    rcases h1.mp ⟨hi2, hi3⟩ with e | e
    · omega
    · exact e

theorem trues_tail_length (p : Nat → Bool) (n : Nat) (hn : 0 < n) (h0 : p 0 = true) :
    (trues p n).tail.length = ((List.range n).filter fun i => decide (0 < i) && p i).length := by
  have hT := trues_head_zero p n hn h0
  have hnd := trues_nodup p n
  rw [hT] at hnd
  have e1 : ((List.range n).filter fun i => decide (0 < i) && p i)
      = (trues p n).filter fun i => decide (0 < i) := by
    unfold trues
    rw [List.filter_filter]
  rw [e1, hT, List.filter_cons_of_neg (by simp), List.tail_cons, List.filter_eq_self.mpr]
  intro i hi
  have : i ≠ 0 := by
    rintro rfl
    exact (List.nodup_cons.mp hnd).1 hi
  simp only [decide_eq_true_eq]
  omega

theorem mem_cols0 (m : Mat) (j : Nat) (h0 : m 0 j = true) (p : Ptr) :
    p ∈ cols0 m j ↔ ∃ i, 1 ≤ i ∧ i < 730 ∧ m i j = true ∧ p = .node i j := by
  unfold cols0
  rw [List.mem_map]
  constructor
  · rintro ⟨i, hi, rfl⟩
    have := (mem_trues_tail (fun x => m x j) 730 (by omega) h0 i).mp hi
    exact ⟨i, this.1, this.2.1, this.2.2, rfl⟩
  · rintro ⟨i, h1, h2, h3, rfl⟩
    exact ⟨i, (mem_trues_tail (fun x => m x j) 730 (by omega) h0 i).mpr ⟨h1, h2, h3⟩, rfl⟩

theorem created_field {α : Type} {m : Mat} {get : Links → Ptr → α} {val : Nat → Nat → α}
    (h : SetsField m get val) (s : Links) {i j : Nat} (hi : i < 730) (hj : j < 324)
    (hm : m i j = true) :
    get (link_fold m (List.range 730) (List.range 324) s) (.node i j) = val i j := by
  rw [link_fold_field h]
  simp [ptrRow, ptrCol, hi, hj, hm]

/-- The column rings after `create_link_mat`. -/
theorem created_vring (m : Mat) (mem : Links) (j : Nat) (hj : j < 324) (h0 : m 0 j = true) :
    IsRing (create_link_mat m mem).d (create_link_mat m mem).u (.node 0 j) (cols0 m j) := by
  have hT := trues_head_zero (fun x => m x j) 730 (by omega) h0
  have hring := trues_ring (fun x => m x j) 730 0 _ hT
  refine ⟨?_, ?_⟩
  · have e : Ptr.node 0 j :: (cols0 m j ++ [Ptr.node 0 j])
        = (0 :: ((trues (fun x => m x j) 730).tail ++ [0])).map fun i => Ptr.node i j := by
      simp [cols0]
    rw [e, List.chain'_map]
    rw [List.Chain'.iff_mem] at hring
    refine hring.imp ?_
    rintro a b ⟨ha, hb, hsl⟩
    have h1 := hsl.1
    have h2 := hsl.2
    have hmem : ∀ x, x ∈ 0 :: ((trues (fun x => m x j) 730).tail ++ [0]) →
        x < 730 ∧ m x j = true := by
      intro x hx
      have : x ∈ trues (fun x => m x j) 730 := by
        rw [hT]
        simp only [List.mem_cons, List.mem_append, List.mem_singleton, List.not_mem_nil,
          or_false] at hx ⊢
        rcases hx with h | h | h
        · exact Or.inl h
        · exact Or.inr h
        · exact Or.inl h
      exact mem_trues.mp this
    refine ⟨?_, ?_⟩
    · rw [create_link_mat_eq, link_header_d,
        created_field (setsField_d m) mem (hmem a ha).1 hj (hmem a ha).2, h1]
    · rw [create_link_mat_eq, link_header_u,
        created_field (setsField_u m) mem (hmem b hb).1 hj (hmem b hb).2, h2]
  · have hnd := trues_nodup (fun x => m x j) 730
    have e : Ptr.node 0 j :: cols0 m j
        = (trues (fun x => m x j) 730).map fun i => Ptr.node i j := by
      conv_rhs => rw [hT]
      simp [cols0]
    rw [e]
    refine hnd.map ?_
    intro a b hab
    injection hab

/-- The row rings after `create_link_mat`, entered at the first node of the row. -/
theorem created_rowRing_first (m : Mat) (mem : Links) (i : Nat) (hi1 : 1 ≤ i) (hi2 : i < 730)
    (t0 : Nat) (rest : List Nat) (hT : trues (m i) 324 = t0 :: rest) :
    IsRing (create_link_mat m mem).r (create_link_mat m mem).l (.node i t0)
      (rest.map fun j => .node i j) := by
  have hring := trues_ring (m i) 324 t0 rest hT
  have hr : ∀ a, a < 324 → m i a = true →
      (create_link_mat m mem).r (.node i a) = .node i (scan (m i) 324 1 a 324 a) := by
    intro a ha hm
    rw [create_link_mat_eq, link_header_r,
      Function.update_noteq (by intro e; injection e with e1 e2; omega),
      Function.update_noteq (by intro e; cases e)]
    exact created_field (setsField_r m) mem hi2 ha hm
  have hl : ∀ a, a < 324 → m i a = true →
      (create_link_mat m mem).l (.node i a) = .node i (scan (m i) 324 323 a 324 a) := by
    intro a ha hm
    rw [create_link_mat_eq, link_header_l,
      Function.update_noteq (by intro e; injection e with e1 e2; omega),
      Function.update_noteq (by intro e; cases e)]
    exact created_field (setsField_l m) mem hi2 ha hm
  refine ⟨?_, ?_⟩
  · have e : Ptr.node i t0 :: ((rest.map fun j => Ptr.node i j) ++ [Ptr.node i t0])
        = (t0 :: (rest ++ [t0])).map fun j => Ptr.node i j := by simp
    rw [e, List.chain'_map]
    rw [List.Chain'.iff_mem] at hring
    refine hring.imp ?_
    rintro a b ⟨ha, hb, hsl⟩
    have h1 := hsl.1
    have h2 := hsl.2
    have hmem : ∀ x, x ∈ t0 :: (rest ++ [t0]) → x < 324 ∧ m i x = true := by
      intro x hx
      have : x ∈ trues (m i) 324 := by
        rw [hT]
        simp only [List.mem_cons, List.mem_append, List.mem_singleton, List.not_mem_nil,
          or_false] at hx ⊢
        rcases hx with h | h | h
        · exact Or.inl h
        · exact Or.inr h
        · exact Or.inl h
      exact mem_trues.mp this
    refine ⟨?_, ?_⟩
    · rw [hr a (hmem a ha).1 (hmem a ha).2, h1]
    · rw [hl b (hmem b hb).1 (hmem b hb).2, h2]
  · have hnd := trues_nodup (m i) 324
    rw [hT] at hnd
    have e : Ptr.node i t0 :: (rest.map fun j => Ptr.node i j)
        = (t0 :: rest).map fun j => Ptr.node i j := by simp
    rw [e]
    refine hnd.map ?_
    intro a b hab
    injection hab

/-- The row rings after `create_link_mat`, entered at any node of the row. -/
theorem created_rowRing (m : Mat) (mem : Links) (i j : Nat) (hi1 : 1 ≤ i) (hi2 : i < 730)
    (hj : j < 324) (hm : m i j = true) :
    ∃ O, IsRing (create_link_mat m mem).r (create_link_mat m mem).l (.node i j) O ∧
      ∀ p, p ∈ O ↔ ∃ j', j' < 324 ∧ j' ≠ j ∧ m i j' = true ∧ p = .node i j' := by
  have hjm : j ∈ trues (m i) 324 := mem_trues.mpr ⟨hj, hm⟩
  cases hT : trues (m i) 324 with
  | nil => rw [hT] at hjm; simp at hjm
  | cons t0 rest =>
    have hfirst := created_rowRing_first m mem i hi1 hi2 t0 rest hT
    have hall : ∀ p, p ∈ Ptr.node i t0 :: (rest.map fun j => Ptr.node i j) ↔
        ∃ j', j' < 324 ∧ m i j' = true ∧ p = .node i j' := by
      intro p
      have e : Ptr.node i t0 :: (rest.map fun j => Ptr.node i j)
          = (trues (m i) 324).map fun j => Ptr.node i j := by rw [hT]; simp
      rw [e, List.mem_map]
      constructor
      · rintro ⟨a, ha, rfl⟩
        exact ⟨a, (mem_trues.mp ha).1, (mem_trues.mp ha).2, rfl⟩
      · rintro ⟨a, h1, h2, rfl⟩
        exact ⟨a, mem_trues.mpr ⟨h1, h2⟩, rfl⟩
    have hfin : ∀ (O : List Ptr), IsRing (create_link_mat m mem).r (create_link_mat m mem).l
        (.node i j) O →
        (∀ p, p ∈ Ptr.node i j :: O ↔ p ∈ Ptr.node i t0 :: (rest.map fun j => Ptr.node i j)) →
        ∀ p, p ∈ O ↔ ∃ j', j' < 324 ∧ j' ≠ j ∧ m i j' = true ∧ p = .node i j' := by
      intro O hO hiff p
      have hnd := List.nodup_cons.mp hO.2
      constructor
      · intro hp
        obtain ⟨j', h1, h2, h3⟩ := (hall p).mp ((hiff p).mp (List.mem_cons_of_mem _ hp))
        refine ⟨j', h1, ?_, h2, h3⟩
        rintro rfl
        exact hnd.1 (h3 ▸ hp)
      · rintro ⟨j', h1, h2, h3, h4⟩
        have := (hiff p).mpr ((hall p).mpr ⟨j', h1, h3, h4⟩)
        rcases List.mem_cons.mp this with e | e
        · rw [h4] at e
          injection e with e1 e2
          exact absurd e2 h2
        · exact e
    rw [hT] at hjm
    rcases List.mem_cons.mp hjm with e | e
    · subst e
      exact ⟨_, hfirst, hfin _ hfirst (fun p => Iff.rfl)⟩
    · obtain ⟨L', hL1, hL2⟩ := hfirst.rotate (y := .node i j) (List.mem_map.mpr ⟨j, e, rfl⟩)
      exact ⟨L', hL1, hfin _ hL1 hL2⟩

/-- The header ring after `create_link_mat`: the master header, then the 324 column
headers in increasing order. -/
theorem created_hring (m : Mat) (mem : Links) (hzero : ∀ j, j < 324 → m 0 j = true) :
    IsRing (create_link_mat m mem).r (create_link_mat m mem).l .header hs0 := by
  have hr : ∀ k, k < 323 → (create_link_mat m mem).r (.node 0 k) = .node 0 (k + 1) := by
    intro k hk
    rw [create_link_mat_eq, link_header_r,
      Function.update_noteq (by intro e; injection e with e1 e2; omega),
      Function.update_noteq (by intro e; cases e),
      created_field (setsField_r m) mem (by omega) (by omega) (hzero k (by omega))]
    rw [scan_fwd_gap (m 0) 324 k (k + 1) (by omega) (by omega) (by intro x h1 h2; omega)
      (hzero _ (by omega))]
  have hl : ∀ k, k < 323 → (create_link_mat m mem).l (.node 0 (k + 1)) = .node 0 k := by
    intro k hk
    rw [create_link_mat_eq, link_header_l,
      Function.update_noteq (by intro e; injection e with e1 e2; omega),
      Function.update_noteq (by intro e; cases e),
      created_field (setsField_l m) mem (by omega) (by omega) (hzero (k + 1) (by omega))]
    rw [scan_bwd_gap (m 0) 324 k (k + 1) (by omega) (by omega) (by intro x h1 h2; omega)
      (hzero _ (by omega))]
  have hmid : List.Chain' (Link (create_link_mat m mem).r (create_link_mat m mem).l) hs0 := by
    unfold hs0
    rw [List.chain'_map]
    have : (324 : Nat) = Nat.succ 323 := rfl
    rw [this, List.chain'_range_succ]
    intro k hk
    exact ⟨hr k hk, hl k hk⟩
  have hfirst : hs0.head? = some (Ptr.node 0 0) := rfl
  have hlast : hs0.getLast? = some (Ptr.node 0 323) := by
    unfold hs0
    have : (324 : Nat) = 323 + 1 := rfl
    rw [this, List.range_succ, List.map_append]
    simp
  refine ⟨?_, ?_⟩
  · rw [List.chain'_cons']
    refine ⟨?_, ?_⟩
    · intro y hy
      have hne : hs0 ≠ [] := by intro e; rw [e] at hfirst; simp at hfirst
      have : (hs0 ++ [Ptr.header]).head? = hs0.head? := by
        cases h : hs0 with
        | nil => exact absurd h hne
        | cons a l => rfl
      rw [this, hfirst] at hy
      simp only [Option.mem_def, Option.some.injEq] at hy
      subst hy
      constructor
      · rw [create_link_mat_eq, link_header_r,
          Function.update_noteq (by intro e; cases e), Function.update_same]
      · rw [create_link_mat_eq, link_header_l, Function.update_same]
    · rw [List.chain'_append]
      refine ⟨hmid, List.chain'_singleton _, ?_⟩
      intro x hx y hy
      rw [hlast] at hx
      simp only [Option.mem_def, Option.some.injEq, List.head?_cons] at hx hy
      subst hx hy
      constructor
      · rw [create_link_mat_eq, link_header_r, Function.update_same]
      · rw [create_link_mat_eq, link_header_l,
          Function.update_noteq (by intro e; cases e), Function.update_same]
  · rw [List.nodup_cons]
    refine ⟨?_, ?_⟩
    · unfold hs0
      simp
    · unfold hs0
      refine (List.nodup_range 324).map ?_
      intro a b hab
      injection hab

theorem mem_hs0 (p : Ptr) : p ∈ hs0 ↔ ∃ j, j < 324 ∧ p = .node 0 j := by
  unfold hs0
  simp only [List.mem_map, List.mem_range]
  constructor
  · rintro ⟨j, hj, rfl⟩; exact ⟨j, hj, rfl⟩
  · rintro ⟨j, hj, rfl⟩; exact ⟨j, hj, rfl⟩

/-- The state built by `create_link_mat` is well formed: the header ring holds all
324 columns and every column ring holds the true entries of its column. -/
theorem created_rep (m : Mat) (mem : Links) (hzero : ∀ j, j < 324 → m 0 j = true) :
    Rep m (fun j => mem.count (.node 0 j)) (create_link_mat m mem) hs0 (cols0 m) := by
  refine ⟨⟨?_, ?_, ?_, ?_⟩, hzero, ?_, created_hring m mem hzero, ?_, ?_, ?_⟩
  · intro i j hi hj hm
    refine ⟨?_, ?_, ?_⟩
    · rw [create_link_mat_eq, link_header_c]
      exact created_field (setsField_c m) mem hi hj hm
    · rw [create_link_mat_eq, link_header_colID]
      exact created_field (setsField_colID m) mem hi hj hm
    · rw [create_link_mat_eq, link_header_rowID]
      exact created_field (setsField_rowID m) mem hi hj hm
  · intro j hj
    exact created_vring m mem j hj (hzero j hj)
  · intro j hj p hp
    exact (mem_cols0 m j (hzero j hj) p).mp hp
  · intro j hj
    rw [create_link_mat_eq, link_header_count,
      link_fold_count m (List.range 324) (List.nodup_range 324) j (List.mem_range.mpr hj)]
    unfold cols0
    rw [List.length_map, trues_tail_length _ 730 (by omega) (hzero j hj)]
  · intro i j hi1 hi2 hj hm
    exact created_rowRing m mem i j hi1 hi2 hj hm
  · intro p hp
    exact (mem_hs0 p).mp hp
  · intro j hj _ i hij j' hj' hm'
    obtain ⟨i', h1, h2, -, e⟩ := (mem_cols0 m j (hzero j hj) _).mp hij
    injection e with e1 e2
    subst e1
    exact ⟨(mem_hs0 _).mpr ⟨j', hj', rfl⟩,
      (mem_cols0 m j' (hzero j' hj') _).mpr ⟨i, h1, h2, hm', rfl⟩⟩
  · intro j hj _ i hi1 hi2 hm _
    exact (mem_cols0 m j (hzero j hj) _).mpr ⟨i, hi1, hi2, hm, rfl⟩

/-! ## Stack-disciplined `cover` and `uncover` -/

theorem IsRing.iterate_split {nx pv : Ptr → Ptr} {h : Ptr} {L : List Ptr}
    (hr : IsRing nx pv h L) :
    ∀ (pre post : List Ptr) (y : Ptr), L = pre ++ y :: post → nx^[pre.length + 1] h = y := by
  intro pre
  induction pre using List.reverseRecOn with
  | nil =>
    intro post y hL
    subst hL
    simpa [firstOr] using hr.next_head
  | append_singleton pre z ih =>
    intro post y hL
    have hz := ih (y :: post) z (by rw [hL]; simp)
    have hL' : L = pre ++ z :: (y :: post) := by rw [hL]; simp
    rw [hL'] at hr
    have hnext := hr.next_split
    simp only [firstOr] at hnext
    rw [List.length_append, List.length_singleton, Function.iterate_succ_apply', hz, hnext]

theorem IsRing.iterate_mem {nx pv : Ptr → Ptr} {h : Ptr} {L : List Ptr}
    (hr : IsRing nx pv h L) : ∀ k, nx^[k] h ∈ h :: L := by
  intro k
  induction k with
  | zero => simp
  | succ k ih =>
    rw [Function.iterate_succ_apply']
    exact (hr.next_mem ih).1

theorem inHeaderRing_iff {nx_s : Links} {hs : List Ptr} (hr : IsRing nx_s.r nx_s.l .header hs)
    (c : Ptr) : InHeaderRing nx_s c ↔ c ∈ hs := by
  constructor
  · rintro ⟨hne, k, hk⟩
    have := hr.iterate_mem k
    rw [hk] at this
    rcases List.mem_cons.mp this with e | e
    · exact absurd e hne
    · exact e
  · intro hc
    obtain ⟨pre, post, hL⟩ := List.append_of_mem hc
    refine ⟨?_, pre.length + 1, hr.iterate_split pre post c hL⟩
    rintro rfl
    exact (List.nodup_cons.mp hr.2).1 hc

theorem Covered.has_rep {m : Mat} {mem : Links} (hzero : ∀ j, j < 324 → m 0 j = true)
    {s : Links} {stk : List Ptr} (h : Covered m mem s stk) :
    ∃ hs cols, Rep m (fun j => mem.count (.node 0 j)) s hs cols := by
  induction h with
  | init => exact ⟨_, _, created_rep m mem hzero⟩
  | cover targ _ hin hcov ih =>
    obtain ⟨hs, cols, hrep⟩ := ih
    have hmem := (inHeaderRing_iff hrep.hring _).mp hin
    obtain ⟨j, hj, hcj⟩ := hrep.hcols _ hmem
    obtain ⟨s1, cols1, h1, h2, -⟩ := hrep.cover_spec hj (hcj ▸ hmem) targ hcj
    rw [h1] at hcov
    injection hcov with hcov
    subst hcov
    exact ⟨_, _, h2⟩

/-- Every state reached under stack discipline is reached by `cover` calls alone:
`uncover` of the column covered last gives back the state before that `cover`. -/
theorem Reach.covered {m : Mat} {mem : Links} (hzero : ∀ j, j < 324 → m 0 j = true)
    {s : Links} {stk : List Ptr} (h : Reach m mem s stk) : Covered m mem s stk := by
  induction h with
  | init => exact .init
  | cover targ _ hin hcov ih => exact .cover targ ih hin hcov
  | @uncover s s' stk c targ _ hc hunc ih =>
    cases ih with
    | @cover s0 _ _ targ0 h0 hin0 hcov0 =>
      obtain ⟨hs, cols, hrep⟩ := h0.has_rep hzero
      have hmem := (inHeaderRing_iff hrep.hring _).mp hin0
      obtain ⟨j, hj, hcj⟩ := hrep.hcols _ hmem
      obtain ⟨s1, cols1, h1, -, -, -, -, -, h7, -⟩ := hrep.cover_spec hj (hcj ▸ hmem) targ0 hcj
      rw [h1] at hcov0
      injection hcov0 with hcov0
      subst hcov0
      rw [h7 targ (by rw [hc, hcj])] at hunc
      injection hunc with hunc
      subst hunc
      exact h0

theorem Reach.to_rep {m : Mat} {mem : Links} (hzero : ∀ j, j < 324 → m 0 j = true)
    {s : Links} {stk : List Ptr} (h : Reach m mem s stk) :
    ∃ hs cols, Rep m (fun j => mem.count (.node 0 j)) s hs cols :=
  (h.covered hzero).has_rep hzero

theorem IsRing.len_eq {nx pv : Ptr → Ptr} {h : Ptr} {L : List Ptr} (hr : IsRing nx pv h L)
    (fuel : Nat) (hf : L.length < fuel) : ring_len nx h fuel (nx h) = some L.length := by
  have key : ∀ (post pre : List Ptr) (fuel : Nat), L = pre ++ post → post.length < fuel →
      ring_len nx h fuel (firstOr post h) = some post.length := by
    intro post
    induction post with
    | nil =>
      intro pre fuel _ hf
      obtain ⟨f, rfl⟩ : ∃ f, fuel = f + 1 := ⟨fuel - 1, by omega⟩
      simp [ring_len, firstOr]
    | cons y post ih =>
      intro pre fuel hL hf
      obtain ⟨f, rfl⟩ : ∃ f, fuel = f + 1 := ⟨fuel - 1, by omega⟩
      have hy : y ≠ h := by
        rintro rfl
        apply (List.nodup_cons.mp hr.2).1
        rw [hL]; simp
      have hn : nx y = firstOr post h := by
        rw [hL] at hr
        exact hr.next_split
      have e : firstOr (y :: post) h = y := rfl
      rw [e, ring_len, if_neg hy, hn,
        ih (pre ++ [y]) f (by rw [hL]; simp) (by simp only [List.length_cons] at hf; omega)]
      simp
  rw [hr.next_head]
  exact key L [] fuel rfl hf

/-- C5 (structural inverse law): in every state reached from the state built by
`create_link_mat` by stack-disciplined `cover`/`uncover` calls, for every column header
`c` in the header ring, `cover(c)` returns and `uncover(c)` right after it gives back
exactly the state before `cover(c)`: every `l`, `r`, `u`, `d` pointer and every count
(indeed every field of every node). -/
theorem cover_uncover_inverse (b : Board) (mem : Links) (s : Links) (stk : List Ptr) (c : Ptr)
    (hreach : Reach (build_cover_mat b) mem s stk) (hc : InHeaderRing s c) :
    ∃ s', cover s c = some s' ∧ uncover s' c = some s := by
  obtain ⟨hs, cols, hrep⟩ := hreach.to_rep (fun j _ => build_cover_mat_zero b j)
  have hmem := (inHeaderRing_iff hrep.hring c).mp hc
  obtain ⟨j, hj, rfl⟩ := hrep.hcols _ hmem
  have hcc : s.c (.node 0 j) = .node 0 j :=
    (hrep.v.static 0 j (by omega) hj (hrep.hzero j hj)).1
  obtain ⟨s1, cols1, h1, -, -, -, h5, -, h7, -⟩ := hrep.cover_spec hj hmem (.node 0 j) hcc
  exact ⟨s1, h1, h7 _ (by rw [h5, hcc])⟩

/-- Witness for C5: column 0 in the state built for the grid `puzzle1`. -/
theorem cover_uncover_inverse_witness :
    ∃ s', cover (create_link_mat (build_cover_mat puzzle1) zero_mem) (.node 0 0) = some s' ∧
      uncover s' (.node 0 0) = some (create_link_mat (build_cover_mat puzzle1) zero_mem) :=
  cover_uncover_inverse puzzle1 zero_mem _ [] (.node 0 0) Reach.init
    ⟨by decide, 1, rfl⟩

/-- C9 (live-count invariant): when the counts start at 0, in the state built by
`create_link_mat` and in every state reached from it by stack-disciplined
`cover`/`uncover` calls, the count of every column header equals the number of row
nodes met by following `d` from the header until the header is reached again. -/
theorem live_count_invariant (b : Board) (mem : Links) (s : Links) (stk : List Ptr)
    (hcount : ∀ j, j < 324 → mem.count (.node 0 j) = 0)
    (hreach : Reach (build_cover_mat b) mem s stk) :
    ∀ j, j < 324 → ∃ n : Nat,
      ring_len s.d (.node 0 j) 730 (s.d (.node 0 j)) = some n ∧ s.count (.node 0 j) = n := by
  obtain ⟨hs, cols, hrep⟩ := hreach.to_rep (fun j _ => build_cover_mat_zero b j)
  intro j hj
  have hring := hrep.v.vring j hj
  have hlen : (cols j).length < 730 := by
    refine length_col_nodes _ j 730 (by omega) (List.nodup_cons.mp hring.2).2 ?_
    intro p hp
    obtain ⟨i, h1, h2, -, e⟩ := hrep.v.vrows j hj p hp
    exact ⟨i, h1, h2, e⟩
  refine ⟨(cols j).length, hring.len_eq 730 hlen, ?_⟩
  rw [hrep.v.counts j hj, hcount j hj]
  simp

/-- Witness for C9: the state built for the grid `puzzle1` from zeroed memory. -/
theorem live_count_invariant_witness :
    ∃ n : Nat,
      ring_len (create_link_mat (build_cover_mat puzzle1) zero_mem).d (.node 0 7) 730
        ((create_link_mat (build_cover_mat puzzle1) zero_mem).d (.node 0 7)) = some n ∧
      (create_link_mat (build_cover_mat puzzle1) zero_mem).count (.node 0 7) = n :=
  live_count_invariant puzzle1 zero_mem _ [] (fun _ _ => rfl) Reach.init 7 (by decide)

/-! ## Covering and uncovering the other columns of a chosen row -/

theorem CoverSeq.frame_c {s t : Links} {ys : List Ptr} (h : CoverSeq s ys t) :
    t.c = s.c ∧ ∀ p, 1 ≤ ptrRow p → t.r p = s.r p ∧ t.l p = s.l p := by
  induction h with
  | nil => exact ⟨rfl, fun _ _ => ⟨rfl, rfl⟩⟩
  | snoc _ _ _ hc hf ih =>
    refine ⟨hc.trans ih.1, fun p hp => ?_⟩
    exact ⟨(hf p hp).1.trans (ih.2 p hp).1, (hf p hp).2.trans (ih.2 p hp).2⟩

theorem CoverSeq.snoc_inv {s t' : Links} {A : List Ptr} {y : Ptr}
    (h : CoverSeq s (A ++ [y]) t') :
    ∃ t, CoverSeq s A t ∧ ∀ targ, t'.c targ = t.c y → uncover t' targ = some t := by
  generalize hL : A ++ [y] = L at h
  cases h with
  | nil => simp at hL
  | @snoc t _ pre y0 h1 h2 h3 h4 h5 =>
    obtain ⟨e1, e2⟩ := List.append_inj' hL rfl
    simp only [List.cons.injEq, and_true] at e2
    subst e1 e2
    exact ⟨t, h1, h3⟩

/-- The loop `for (r_n = row_n->r; r_n != row_n; r_n = r_n->r) cover(r_n)` of `search`
on a row whose other columns are all in the header ring. -/
theorem cover_others {m : Mat} {cnt0 : Nat → Int} {lk : Links} {hs : List Ptr}
    {cols : Nat → List Ptr} (hrep : Rep m cnt0 lk hs cols) {i c0 : Nat} (hi1 : 1 ≤ i)
    (hi2 : i < 730) {O : List Ptr} (hring : IsRing lk.r lk.l (.node i c0) O)
    (hO : ∀ p, p ∈ O ↔ ∃ j', j' < 324 ∧ j' ≠ c0 ∧ m i j' = true ∧ p = .node i j')
    (hact : ∀ j', j' < 324 → j' ≠ c0 → m i j' = true → Ptr.node 0 j' ∈ hs)
    (hlen : O.length < 324) :
    ∃ lk3 hs3 cols3, ring_loop (fun s p => s.r p) cover (.node i c0) 324 lk (lk.r (.node i c0))
        = some lk3 ∧ CoverSeq lk O lk3 ∧ Rep m cnt0 lk3 hs3 cols3 ∧
      (∀ q, q ∈ hs3 ↔ q ∈ hs ∧ ∀ y ∈ O, q ≠ .node 0 (ptrCol y)) ∧
      hs3.length + O.length = hs.length := by
  have hx : Ptr.node i c0 ∉ O := (List.nodup_cons.mp hring.2).1
  have hOnd : O.Nodup := (List.nodup_cons.mp hring.2).2
  obtain ⟨lk3, h1, h2, hs3, cols3, h3, h4, h5⟩ := ring_loop_spec (fun s p => s.r p) cover
    (.node i c0)
    (fun pre t => CoverSeq lk pre t ∧ ∃ hs_t cols_t, Rep m cnt0 t hs_t cols_t ∧
      (∀ q, q ∈ hs_t ↔ q ∈ hs ∧ ∀ y ∈ pre, q ≠ .node 0 (ptrCol y)) ∧
      hs_t.length + pre.length = hs.length) O hx
    (by
      rintro pre y post t hL ⟨hseq, hs_t, cols_t, hrt, hmem_t, hlen_t⟩
      have hyO : y ∈ O := by rw [hL]; simp
      obtain ⟨j', hj', hne, hm', rfl⟩ := (hO y).mp hyO
      have hcy : t.c (.node i j') = .node 0 j' := (hrt.v.static i j' hi2 hj' hm').1
      have hin : Ptr.node 0 j' ∈ hs_t := by
        rw [hmem_t]
        refine ⟨hact j' hj' hne hm', ?_⟩
        intro y' hy' e
        have hy'O : y' ∈ O := by rw [hL]; simp [hy']
        obtain ⟨j'', -, -, -, rfl⟩ := (hO y').mp hy'O
        simp only [ptrCol] at e
        injection e with e1 e2
        subst e2
        rw [hL] at hOnd
        have := (List.nodup_append.mp hOnd).2.2 hy' (List.mem_cons_self _ _)
        exact this
      obtain ⟨t', cols', hc1, hc2, -, -, hc5, -, hc7, hc8⟩ := hrt.cover_spec hj' hin _ hcy
      refine ⟨t', hc1, ⟨?_, ?_⟩, ?_⟩
      · exact .snoc hseq hc1 (fun targ ht => hc7 targ (by rw [ht, hcy])) hc5 hc8
      · refine ⟨_, cols', hc2, ?_, ?_⟩
        · intro q
          have hnd : hs_t.Nodup := (List.nodup_cons.mp hrt.hring.2).2
          rw [hnd.mem_erase_iff, hmem_t]
          simp only [List.mem_append, List.mem_singleton, ptrCol]
          constructor
          · rintro ⟨h1, h2, h3⟩
            refine ⟨h2, ?_⟩
            rintro y' (hy' | rfl)
            · exact h3 y' hy'
            · exact h1
          · rintro ⟨h2, h3⟩
            exact ⟨h3 _ (Or.inr rfl), h2, fun y' hy' => h3 y' (Or.inl hy')⟩
        · rw [List.length_erase_of_mem hin, List.length_append, List.length_singleton]
          have := List.length_pos_of_mem hin
          omega
      · show t'.r (.node i j') = firstOr post (.node i c0)
        rw [(hc8 _ (by simp only [ptrRow]; exact hi1)).1,
          (hseq.frame_c.2 _ (by simp only [ptrRow]; exact hi1)).1]
        rw [hL] at hring
        exact hring.next_split)
    O [] lk 324 rfl ⟨.nil lk, hs, cols, hrep, by simp, by simp⟩ hlen
  refine ⟨lk3, hs3, cols3, ?_, h2, h3, h4, h5⟩
  rw [hring.next_head]
  exact h1

/-- The loop `for (l_n = row_n->l; l_n != row_n; l_n = l_n->l) uncover(l_n)` of `search`
undoes the covers of the other columns of the row, in reverse order. -/
theorem uncover_others {lk lk3 : Links} {x : Ptr} {O : List Ptr} (hx1 : 1 ≤ ptrRow x)
    (hring : IsRing lk.r lk.l x O) (hrows : ∀ y ∈ O, 1 ≤ ptrRow y) (hlen : O.length < 324)
    (hseq : CoverSeq lk O lk3) :
    ring_loop (fun s p => s.l p) uncover x 324 lk3 (lk3.l x) = some lk := by
  have hrev := hring.reverse
  have hxO : x ∉ O.reverse := by
    rw [List.mem_reverse]; exact (List.nodup_cons.mp hring.2).1
  obtain ⟨t, h1, A, hA, ht⟩ := ring_loop_spec (fun s p => s.l p) uncover x
    (fun pre t => ∃ A, O = A ++ pre.reverse ∧ CoverSeq lk A t) O.reverse hxO
    (by
      rintro pre y post t hL ⟨A, hA, ht⟩
      have hO' : O = post.reverse ++ y :: pre.reverse := by
        have := congrArg List.reverse hL
        simpa using this
      have hAe : A = post.reverse ++ [y] := by
        have : A ++ pre.reverse = (post.reverse ++ [y]) ++ pre.reverse := by
          rw [← hA, hO']; simp
        exact List.append_cancel_right this
      rw [hAe] at ht
      obtain ⟨t0, ht0, hunc⟩ := ht.snoc_inv
      have hyO : y ∈ O := by rw [hO']; simp
      refine ⟨t0, ?_, ⟨post.reverse, by rw [hO']; simp, ht0⟩, ?_⟩
      · refine hunc y ?_
        rw [ht.frame_c.1, ht0.frame_c.1]
      · show t0.l y = firstOr post x
        rw [(ht0.frame_c.2 y (hrows y hyO)).2]
        rw [hL] at hrev
        exact hrev.next_split)
    O.reverse [] lk3 324 rfl ⟨O, by simp, hseq⟩ (by rw [List.length_reverse]; exact hlen)
  have hA' : A = [] := by
    have : A ++ O = [] ++ O := by simpa using hA.symm
    exact List.append_cancel_right this
  subst hA'
  have e : t = lk := by
    generalize hnil : ([] : List Ptr) = L at ht
    cases ht with
    | nil => rfl
    | snoc => simp at hnil
  subst e
  rw [(hseq.frame_c.2 x hx1).2, hrev.next_head]
  exact h1

/-! ## From an exact cover to a solved grid -/

theorem cand_eq (i : Nat) (h1 : 1 ≤ i) (h2 : i < 730) :
    i = idx ((i - 1) / 81) ((i - 1) / 9 % 9) ((i - 1) % 9 + 1) ∧ (i - 1) / 81 < 9 ∧
      (i - 1) / 9 % 9 < 9 ∧ 1 ≤ (i - 1) % 9 + 1 ∧ (i - 1) % 9 + 1 ≤ 9 := by
  rw [idx_eq]; omega

theorem set_DLX_sol_eq (lk : Links) : ∀ (sol : List Ptr) (bd : Board),
    (∀ p ∈ sol, lk.rowID p = (ptrRow p : Int) ∧ 1 ≤ ptrRow p ∧ ptrRow p < 730) →
    set_DLX_sol lk sol bd = decodeRows sol bd := by
  intro sol
  induction sol with
  | nil => intro bd _; rfl
  | cons p sol ih =>
    intro bd h
    obtain ⟨h1, h2, h3⟩ := h p (List.mem_cons_self _ _)
    have hstep : setCell bd (decode_row (lk.rowID p)).toNat (decode_col (lk.rowID p)).toNat
        (decode_digit (lk.rowID p)) = setCell bd ((ptrRow p - 1) / 81) ((ptrRow p - 1) / 9 % 9)
          (((ptrRow p - 1) % 9 + 1 : Nat) : Int) := by
      obtain ⟨e, b1, b2, b3, b4⟩ := cand_eq (ptrRow p) h2 h3
      have hid : lk.rowID p = get_index (((ptrRow p - 1) / 81 : Nat) : Int)
          (((ptrRow p - 1) / 9 % 9 : Nat) : Int) (((ptrRow p - 1) % 9 + 1 : Nat) : Int) := by
        rw [h1]
        conv_lhs => rw [e, idx_eq]
        rw [get_index_eq]
        push_cast
        ring
      obtain ⟨d1, d2, d3⟩ := decode_get_index (((ptrRow p - 1) / 81 : Nat) : Int)
        (((ptrRow p - 1) / 9 % 9 : Nat) : Int) (((ptrRow p - 1) % 9 + 1 : Nat) : Int)
        (by omega) (by omega) (by omega) (by omega) (by omega)
      rw [hid, d1, d2, d3, Int.toNat_ofNat, Int.toNat_ofNat]
    have e1 : set_DLX_sol lk (p :: sol) bd = set_DLX_sol lk sol
        (setCell bd (decode_row (lk.rowID p)).toNat (decode_col (lk.rowID p)).toNat
          (decode_digit (lk.rowID p))) := rfl
    have e2 : decodeRows (p :: sol) bd = decodeRows sol
        (setCell bd ((ptrRow p - 1) / 81) ((ptrRow p - 1) / 9 % 9)
          (((ptrRow p - 1) % 9 + 1 : Nat) : Int)) := rfl
    rw [e1, e2, hstep]
    exact ih _ (fun q hq => h q (List.mem_cons_of_mem _ hq))

/-- The decoded board holds `d` at `(r, c)` when the trace has the candidate
`(r, c, d)` and no other candidate of that cell. -/
theorem decodeRows_value : ∀ (sol : List Ptr) (bd : Board) (r c d : Nat),
    r < 9 → c < 9 → 1 ≤ d → d ≤ 9 →
    (∀ p ∈ sol, 1 ≤ ptrRow p ∧ ptrRow p < 730) → InSol sol r c d →
    (∀ d', 1 ≤ d' → d' ≤ 9 → InSol sol r c d' → d' = d) →
    decodeRows sol bd r c = (d : Int) := by
  intro sol
  induction sol using List.reverseRecOn with
  | nil => intro bd r c d _ _ _ _ _ h; obtain ⟨p, hp, -⟩ := h; simp at hp
  | append_singleton sol q ih =>
    intro bd r c d hr hc hd1 hd9 hrows hin huniq
    have hq := hrows q (by simp)
    obtain ⟨e, b1, b2, b3, b4⟩ := cand_eq (ptrRow q) hq.1 hq.2
    have hfold : decodeRows (sol ++ [q]) bd = setCell (decodeRows sol bd) ((ptrRow q - 1) / 81)
        ((ptrRow q - 1) / 9 % 9) (((ptrRow q - 1) % 9 + 1 : Nat) : Int) := by
      simp [decodeRows, List.foldl_append]
    rw [hfold]
    by_cases hcell : r = (ptrRow q - 1) / 81 ∧ c = (ptrRow q - 1) / 9 % 9
    · obtain ⟨rfl, rfl⟩ := hcell
      rw [setCell_same]
      have := huniq _ b3 b4 ⟨q, by simp, e⟩
      rw [this]
    · rw [setCell_other _ _ _ _ _ _ hcell]
      obtain ⟨p, hp, hpe⟩ := hin
      have hpq : p ≠ q := by
        rintro rfl
        apply hcell
        rw [hpe, idx_eq]
        omega
      have hp' : p ∈ sol := by
        rcases List.mem_append.mp hp with h | h
        · exact h
        · simp at h; exact absurd h hpq
      refine ih bd r c d hr hc hd1 hd9 (fun p' hp' => hrows p' (by simp [hp'])) ⟨p, hp', hpe⟩ ?_
      intro d' h1 h2 ⟨p', hp'1, hp'2⟩
      exact huniq d' h1 h2 ⟨p', by simp [hp'1], hp'2⟩

theorem FullTrace.cols {b0 : Board} {sol : List Ptr} (h : FullTrace (build_cover_mat b0) sol)
    {r c d : Nat} (hr : r < 9) (hc : c < 9) (hd1 : 1 ≤ d) (hd9 : d ≤ 9)
    (hin : InSol sol r c d) :
    ¬(b0 r c ≠ 0 ∧ b0 r c ≠ (d : Int)) ∧
      ∀ j, build_cover_mat b0 (idx r c d) j = true ↔ j ∈ candCols r c d := by
  obtain ⟨p, hp, hpe⟩ := hin
  obtain ⟨-, -, j0, -, hj0⟩ := h.rows p hp
  rw [hpe, build_cover_mat_cand b0 r c d hr hc hd1 hd9] at hj0
  refine ⟨hj0.1, fun j => ?_⟩
  rw [build_cover_mat_cand b0 r c d hr hc hd1 hd9]
  exact ⟨fun h' => h'.2, fun h' => ⟨hj0.1, h'⟩⟩

theorem FullTrace.exists_of_col {b0 : Board} {sol : List Ptr}
    (h : FullTrace (build_cover_mat b0) sol) {j : Nat} (hj : j < 324) :
    ∃ r c d, r < 9 ∧ c < 9 ∧ 1 ≤ d ∧ d ≤ 9 ∧ InSol sol r c d ∧ j ∈ candCols r c d := by
  obtain ⟨p, hp, hpj⟩ := h.every j hj
  obtain ⟨h1, h2, -⟩ := h.rows p hp
  obtain ⟨e, b1, b2, b3, b4⟩ := cand_eq (ptrRow p) h1 h2
  refine ⟨_, _, _, b1, b2, b3, b4, ⟨p, hp, e⟩, ?_⟩
  rw [e, build_cover_mat_cand b0 _ _ _ b1 b2 b3 b4] at hpj
  exact hpj.2

theorem FullTrace.unique_of_col {b0 : Board} {sol : List Ptr}
    (h : FullTrace (build_cover_mat b0) sol) {j : Nat} (hj : j < 324)
    {r c d r' c' d' : Nat} (hr : r < 9) (hc : c < 9) (hd1 : 1 ≤ d) (hd9 : d ≤ 9)
    (hr' : r' < 9) (hc' : c' < 9) (hd1' : 1 ≤ d') (hd9' : d' ≤ 9)
    (hin : InSol sol r c d) (hin' : InSol sol r' c' d')
    (hj1 : j ∈ candCols r c d) (hj2 : j ∈ candCols r' c' d') :
    r = r' ∧ c = c' ∧ d = d' := by
  have h1 := ((h.cols hr hc hd1 hd9 hin).2 j).mpr hj1
  have h2 := ((h.cols hr' hc' hd1' hd9' hin').2 j).mpr hj2
  obtain ⟨p, hp, hpe⟩ := hin
  obtain ⟨q, hq, hqe⟩ := hin'
  have := h.uniq p hp q hq j hj (hpe ▸ h1) (hqe ▸ h2)
  subst this
  rw [hpe, idx_eq, idx_eq] at hqe
  omega

/-- Every cell has exactly one candidate in a full trace. -/
theorem FullTrace.cell {b0 : Board} {sol : List Ptr} (h : FullTrace (build_cover_mat b0) sol)
    {r c : Nat} (hr : r < 9) (hc : c < 9) :
    ∃ d, 1 ≤ d ∧ d ≤ 9 ∧ InSol sol r c d ∧
      ∀ d', 1 ≤ d' → d' ≤ 9 → InSol sol r c d' → d' = d := by
  obtain ⟨r', c', d, hr', hc', hd1, hd9, hin, hj⟩ := h.exists_of_col (j := r * 9 + c) (by omega)
  have hrc : r' = r ∧ c' = c := by
    simp only [candCols, List.mem_cons, List.mem_singleton, List.not_mem_nil, or_false] at hj
    omega
  obtain ⟨rfl, rfl⟩ := hrc
  refine ⟨d, hd1, hd9, hin, ?_⟩
  intro d' h1 h2 hin'
  exact (h.unique_of_col (j := r' * 9 + c') (by omega) hr hc h1 h2 hr hc hd1 hd9 hin' hin
    (by simp [candCols]) (by simp [candCols])).2.2

theorem FullTrace.board {b0 : Board} {sol : List Ptr} (h : FullTrace (build_cover_mat b0) sol)
    (bd : Board) {r c d : Nat} (hr : r < 9) (hc : c < 9) (hd1 : 1 ≤ d) (hd9 : d ≤ 9) :
    decodeRows sol bd r c = (d : Int) ↔ InSol sol r c d := by
  obtain ⟨d0, h1, h2, h3, h4⟩ := h.cell hr hc
  have hval := decodeRows_value sol bd r c d0 hr hc h1 h2
    (fun p hp => ⟨(h.rows p hp).1, (h.rows p hp).2.1⟩) h3 h4
  constructor
  · intro e
    rw [hval] at e
    have : d0 = d := by exact_mod_cast e
    rw [← this]; exact h3
  · intro hin
    rw [hval, h4 d hd1 hd9 hin]

/-- In a full trace every unit has every digit at exactly one position. -/
theorem FullTrace.unit {b0 : Board} {sol : List Ptr} (h : FullTrace (build_cover_mat b0) sol)
    {pos : Nat → Nat × Nat} (hu : IsUnit pos) {d : Nat} (hd1 : 1 ≤ d) (hd9 : d ≤ 9) :
    ∃ t, t < 9 ∧ InSol sol (pos t).1 (pos t).2 d ∧
      ∀ t', t' < 9 → InSol sol (pos t').1 (pos t').2 d → t' = t := by
  have key : ∀ j, j < 324 →
      (∀ r c d', r < 9 → c < 9 → 1 ≤ d' → d' ≤ 9 → j ∈ candCols r c d' →
        d' = d ∧ ∃ t, t < 9 ∧ pos t = (r, c)) →
      (∀ t, t < 9 → j ∈ candCols (pos t).1 (pos t).2 d) →
      ∃ t, t < 9 ∧ InSol sol (pos t).1 (pos t).2 d ∧
        ∀ t', t' < 9 → InSol sol (pos t').1 (pos t').2 d → t' = t := by
    intro j hj h1 h2
    obtain ⟨r, c, d', hr, hc, hd1', hd9', hin, hjc⟩ := h.exists_of_col hj
    obtain ⟨rfl, t, ht, hpt⟩ := h1 r c d' hr hc hd1' hd9' hjc
    refine ⟨t, ht, by rw [hpt]; exact hin, ?_⟩
    intro t' ht' hin'
    obtain ⟨b1, b2⟩ := hu.lt ht'
    have := h.unique_of_col hj b1 b2 hd1 hd9 hr hc hd1 hd9 hin' hin (h2 t' ht') hjc
    apply hu.inj
    rw [hpt]
    exact Prod.ext this.1 this.2.1
  cases hu with
  | row k hk =>
    refine key (81 + k * 9 + (d - 1)) (by omega) ?_ ?_
    · intro r c d' hr hc h1 h2 hj
      simp only [candCols, List.mem_cons, List.mem_singleton, List.not_mem_nil, or_false] at hj
      refine ⟨by omega, c, hc, ?_⟩
      have : k = r := by omega
      rw [this]; rfl
    · intro t ht
      simp [candCols, rowPos]
  | col k hk =>
    refine key (162 + k * 9 + (d - 1)) (by omega) ?_ ?_
    · intro r c d' hr hc h1 h2 hj
      simp only [candCols, List.mem_cons, List.mem_singleton, List.not_mem_nil, or_false] at hj
      refine ⟨by omega, r, hr, ?_⟩
      have : k = c := by omega
      rw [this]; rfl
    · intro t ht
      simp [candCols, colPos]
  | box k hk =>
    refine key (243 + k * 9 + (d - 1)) (by omega) ?_ ?_
    · intro r c d' hr hc h1 h2 hj
      simp only [candCols, List.mem_cons, List.mem_singleton, List.not_mem_nil, or_false] at hj
      refine ⟨by omega, 3 * (r % 3) + c % 3, by omega, ?_⟩
      simp only [boxPos, Prod.mk.injEq]
      omega
    · intro t ht
      simp only [candCols, boxPos, List.mem_cons, List.mem_singleton, List.not_mem_nil, or_false]
      right; right; right
      have e1 : (3 * (k / 3) + t / 3) / 3 = k / 3 := by omega
      have e2 : (3 * (k % 3) + t % 3) / 3 = k % 3 := by omega
      rw [e1, e2]
      omega

/-- The board decoded from a full trace is a valid completion of the input board. -/
theorem FullTrace.completion {b0 : Board} {sol : List Ptr}
    (h : FullTrace (build_cover_mat b0) sol) (bd : Board) :
    Completion b0 (decodeRows sol bd) := by
  refine ⟨?_, ?_⟩
  · rw [solved_iff_units]
    intro pos hu d hd
    obtain ⟨hd1, hd9⟩ := mem_digits.mp hd
    obtain ⟨n, rfl⟩ : ∃ n : Nat, d = (n : Int) := ⟨d.toNat, by omega⟩
    obtain ⟨t, ht, hin, huniq⟩ := h.unit hu (d := n) (by omega) (by omega)
    unfold cnt
    rw [Finset.card_eq_one]
    refine ⟨t, ?_⟩
    ext t'
    simp only [Finset.mem_filter, Finset.mem_range, Finset.mem_singleton]
    constructor
    · rintro ⟨ht', e⟩
      obtain ⟨b1, b2⟩ := hu.lt ht'
      exact huniq t' ht' ((h.board bd b1 b2 (by omega) (by omega)).mp e)
    · rintro rfl
      obtain ⟨b1, b2⟩ := hu.lt ht
      exact ⟨ht, (h.board bd b1 b2 (by omega) (by omega)).mpr hin⟩
  · intro r hr c hc hne
    obtain ⟨d, hd1, hd9, hin, -⟩ := h.cell hr hc
    rw [(h.board bd hr hc hd1 hd9).mpr hin]
    have := (h.cols hr hc hd1 hd9 hin).1
    by_contra hcon
    exact this ⟨hne, fun e => hcon e.symm⟩

/-! ## From a solved grid to an exact cover -/

/-- Every column from 81 on is the column of a digit in a row, a column or a box. -/
theorem col_is_unit (j : Nat) (h1 : 81 ≤ j) (h2 : j < 324) :
    ∃ (pos : Nat → Nat × Nat) (n : Nat), IsUnit pos ∧ 1 ≤ n ∧ n ≤ 9 ∧
      (∀ r c d, r < 9 → c < 9 → 1 ≤ d → d ≤ 9 → j ∈ candCols r c d →
        d = n ∧ ∃ t, t < 9 ∧ pos t = (r, c)) ∧
      (∀ t, t < 9 → j ∈ candCols (pos t).1 (pos t).2 n) := by
  by_cases hA : j < 162
  · refine ⟨rowPos ((j - 81) / 9), (j - 81) % 9 + 1, .row _ (by omega), by omega, by omega,
      ?_, ?_⟩
    · intro r c d hr hc hd1 hd9 hj
      simp only [candCols, List.mem_cons, List.mem_singleton, List.not_mem_nil, or_false] at hj
      refine ⟨by omega, c, hc, ?_⟩
      have : (j - 81) / 9 = r := by omega
      rw [this]; rfl
    · intro t ht
      simp only [candCols, rowPos, List.mem_cons, List.mem_singleton, List.not_mem_nil, or_false]
      right; left; omega
  · by_cases hB : j < 243
    · refine ⟨colPos ((j - 162) / 9), (j - 162) % 9 + 1, .col _ (by omega), by omega, by omega,
        ?_, ?_⟩
      · intro r c d hr hc hd1 hd9 hj
        simp only [candCols, List.mem_cons, List.mem_singleton, List.not_mem_nil, or_false] at hj
        refine ⟨by omega, r, hr, ?_⟩
        have : (j - 162) / 9 = c := by omega
        rw [this]; rfl
      · intro t ht
        simp only [candCols, colPos, List.mem_cons, List.mem_singleton, List.not_mem_nil,
          or_false]
        right; right; left; omega
    · refine ⟨boxPos ((j - 243) / 9), (j - 243) % 9 + 1, .box _ (by omega), by omega, by omega,
        ?_, ?_⟩
      · intro r c d hr hc hd1 hd9 hj
        simp only [candCols, List.mem_cons, List.mem_singleton, List.not_mem_nil, or_false] at hj
        refine ⟨by omega, 3 * (r % 3) + c % 3, by omega, ?_⟩
        simp only [boxPos, Prod.mk.injEq]
        omega
      · intro t ht
        simp only [candCols, boxPos, List.mem_cons, List.mem_singleton, List.not_mem_nil,
          or_false]
        right; right; right
        have e1 : (3 * ((j - 243) / 9 / 3) + t / 3) / 3 = (j - 243) / 9 / 3 := by omega
        have e2 : (3 * ((j - 243) / 9 % 3) + t % 3) / 3 = (j - 243) / 9 % 3 := by omega
        rw [e1, e2]
        omega

theorem gridRows_entry {b0 g : Board} (hg : Completion b0 g) {r c d : Nat} (hr : r < 9)
    (hc : c < 9) (hd1 : 1 ≤ d) (hd9 : d ≤ 9) (hgd : g r c = (d : Int)) (j : Nat) :
    build_cover_mat b0 (idx r c d) j = true ↔ j ∈ candCols r c d := by
  rw [build_cover_mat_cand b0 r c d hr hc hd1 hd9]
  constructor
  · exact fun h => h.2
  · intro h
    refine ⟨?_, h⟩
    rintro ⟨h1, h2⟩
    exact h2 ((hg.2 r hr c hc h1).symm.trans hgd)

/-- The candidate rows of a valid completion cover every column exactly once. -/
theorem exactCover_of_completion {b0 g : Board} (hg : Completion b0 g) :
    ExactCover (build_cover_mat b0) (gridRows g) := by
  refine ⟨?_, ?_⟩
  · rintro i ⟨r, c, d, hr, hc, hd1, hd9, -, rfl⟩
    rw [idx_eq]; omega
  · intro j hj
    by_cases hcell : j < 81
    · have hdig := mem_digits.mp (solved_cell_mem_digits hg.1 (r := j / 9) (c := j % 9)
        (by omega) (by omega))
      obtain ⟨n, hn⟩ : ∃ n : Nat, g (j / 9) (j % 9) = (n : Int) :=
        ⟨(g (j / 9) (j % 9)).toNat, by omega⟩
      have hn1 : 1 ≤ n := by omega
      have hn9 : n ≤ 9 := by omega
      refine ⟨idx (j / 9) (j % 9) n, ⟨⟨_, _, n, by omega, by omega, hn1, hn9, hn, rfl⟩, ?_⟩, ?_⟩
      · rw [gridRows_entry hg (by omega) (by omega) hn1 hn9 hn]
        simp only [candCols, List.mem_cons, List.mem_singleton, List.not_mem_nil, or_false]
        left; omega
      · rintro i' ⟨⟨r, c, d, hr, hc, hd1, hd9, hgd, rfl⟩, hm⟩
        rw [gridRows_entry hg hr hc hd1 hd9 hgd] at hm
        simp only [candCols, List.mem_cons, List.mem_singleton, List.not_mem_nil, or_false] at hm
        have h1 : r = j / 9 := by omega
        have h2 : c = j % 9 := by omega
        subst h1 h2
        have : (d : Int) = n := hgd.symm.trans hn
        have : d = n := by exact_mod_cast this
        rw [this]
    · obtain ⟨pos, n, hu, hn1, hn9, hA, hB⟩ := col_is_unit j (by omega) hj
      have hcnt := solved_iff_units.mp hg.1 pos hu (n : Int) (mem_digits.mpr ⟨by omega, by omega⟩)
      obtain ⟨t, ht, hgt⟩ := (cnt_pos_iff g pos n).mp (by omega)
      obtain ⟨b1, b2⟩ := hu.lt ht
      refine ⟨idx (pos t).1 (pos t).2 n, ⟨⟨_, _, n, b1, b2, hn1, hn9, hgt, rfl⟩, ?_⟩, ?_⟩
      · rw [gridRows_entry hg b1 b2 hn1 hn9 hgt]
        exact hB t ht
      · rintro i' ⟨⟨r, c, d, hr, hc, hd1, hd9, hgd, rfl⟩, hm⟩
        rw [gridRows_entry hg hr hc hd1 hd9 hgd] at hm
        obtain ⟨rfl, t', ht', hpt'⟩ := hA r c d hr hc hd1 hd9 hm
        have hgt' : g (pos t').1 (pos t').2 = (d : Int) := by rw [hpt']; exact hgd
        have := (cnt_le_one_iff g pos d).mp (by omega) t' ht' t ht hgt' hgt
        subst this
        rw [hpt']

/-! ## The search -/

/-- A row with an entry has exactly three other entries. -/
theorem others_length {m : Mat} (h4 : ∀ i, 1 ≤ i → i < 730 → rowCount m i = 4 ∨ rowCount m i = 0)
    {i c : Nat} (hi1 : 1 ≤ i) (hi2 : i < 730) (hc : c < 324) (hm : m i c = true)
    {O : List Ptr} (hnd : O.Nodup)
    (hO : ∀ p, p ∈ O ↔ ∃ j', j' < 324 ∧ j' ≠ c ∧ m i j' = true ∧ p = .node i j') :
    O.length = 3 := by
  have hcnt : rowCount m i = 4 := by
    rcases h4 i hi1 hi2 with h | h
    · exact h
    · unfold rowCount at h
      rw [Finset.card_eq_zero, Finset.filter_eq_empty_iff] at h
      exact absurd hm (h (Finset.mem_range.mpr hc))
  have hinj : ∀ p ∈ O, ∀ q ∈ O, ptrCol p = ptrCol q → p = q := by
    intro p hp q hq e
    obtain ⟨a, -, -, -, rfl⟩ := (hO p).mp hp
    obtain ⟨b, -, -, -, rfl⟩ := (hO q).mp hq
    simp only [ptrCol] at e
    rw [e]
  have hnd' : (O.map ptrCol).Nodup := (List.nodup_map_iff_inj_on hnd).mpr hinj
  have heq : (O.map ptrCol).toFinset
      = ((Finset.range 324).filter fun j => m i j = true).erase c := by
    ext j
    simp only [List.mem_toFinset, List.mem_map, Finset.mem_erase, Finset.mem_filter,
      Finset.mem_range]
    constructor
    · rintro ⟨p, hp, rfl⟩
      obtain ⟨a, h1, h2, h3, rfl⟩ := (hO p).mp hp
      exact ⟨h2, h1, h3⟩
    · rintro ⟨h1, h2, h3⟩
      exact ⟨.node i j, (hO _).mpr ⟨j, h2, h1, h3, rfl⟩, rfl⟩
  have := congrArg Finset.card heq
  rw [List.toFinset_card_of_nodup hnd', List.length_map, Finset.card_erase_of_mem
    (by simp [hc, hm])] at this
  unfold rowCount at hcnt
  omega

theorem dropLast_snoc (sol : List Ptr) (x : Ptr) : (sol ++ [x]).dropLast = sol := by
  simp

/-- Pushing a row of the chosen column on the trace and covering its columns keeps
the trace matched with the header ring. -/
theorem TraceOK.extend {m : Mat} {cnt0 : Nat → Int} {s : Links} {hs : List Ptr}
    {cols : Nat → List Ptr} {sol : List Ptr} (htr : TraceOK m hs sol)
    (hrep : Rep m cnt0 s hs cols) {c i : Nat} (hc : c < 324) (hin : Ptr.node 0 c ∈ hs)
    (hx : Ptr.node i c ∈ cols c) {O hs3 : List Ptr}
    (hO : ∀ p, p ∈ O ↔ ∃ j', j' < 324 ∧ j' ≠ c ∧ m i j' = true ∧ p = .node i j')
    (hmem3 : ∀ q, q ∈ hs3 ↔ q ∈ hs.erase (.node 0 c) ∧ ∀ y ∈ O, q ≠ .node 0 (ptrCol y))
    (hlen3 : hs3.length + O.length = (hs.erase (.node 0 c)).length) (hO3 : O.length = 3) :
    TraceOK m hs3 (sol ++ [.node i c]) := by
  obtain ⟨i', hi1, hi2, hm, e⟩ := hrep.v.vrows c hc _ hx
  injection e with e1 e2
  subst e1
  have hnd : hs.Nodup := (List.nodup_cons.mp hrep.hring.2).2
  have hact := hrep.act c hc hin i hx
  refine ⟨?_, ?_, ?_, ?_⟩
  · intro p hp
    rcases List.mem_append.mp hp with h | h
    · exact htr.rows p h
    · simp only [List.mem_singleton] at h
      exact ⟨i, c, hi1, hi2, hc, hm, h⟩
  · intro j hj
    rw [hmem3, hnd.mem_erase_iff, htr.cov j hj]
    simp only [List.mem_append, List.mem_singleton]
    constructor
    · rintro ⟨⟨hjc, hsol⟩, hOj⟩ p (hp | rfl)
      · exact hsol p hp
      · simp only [ptrRow]
        by_contra hmj
        have hmj' : m i j = true := by simpa using hmj
        by_cases hjc' : j = c
        · exact hjc (by rw [hjc'])
        · exact hOj (.node i j) ((hO _).mpr ⟨j, hj, hjc', hmj', rfl⟩) rfl
    · intro hall
      have hmi : m i j = false := by simpa [ptrRow] using hall (.node i c) (Or.inr rfl)
      refine ⟨⟨?_, fun p hp => hall p (Or.inl hp)⟩, ?_⟩
      · intro e
        injection e with e1 e2
        rw [e2, hm] at hmi
        exact absurd hmi (by simp)
      · intro y hy e
        obtain ⟨j', -, -, hm', rfl⟩ := (hO y).mp hy
        simp only [ptrCol] at e
        injection e with e1 e2
        rw [e2, hm'] at hmi
        exact absurd hmi (by simp)
  · rw [List.pairwise_append]
    refine ⟨htr.disj, List.pairwise_singleton _ _, ?_⟩
    intro p hp q hq j hj
    simp only [List.mem_singleton] at hq
    subst hq
    rintro ⟨h1, h2⟩
    have h2' : m i j = true := h2
    have := (htr.cov j hj).mp (hact j hj h2').1 p hp
    rw [h1] at this
    exact absurd this (by simp)
  · have h1 := List.length_erase_of_mem hin
    have h2 := List.length_pos_of_mem hin
    have h3 := htr.size
    simp only [List.length_append, List.length_singleton]
    omega

/-- A trace that leaves no column uncovered is a full trace. -/
theorem TraceOK.fullTrace {m : Mat} {sol : List Ptr} (htr : TraceOK m [] sol) :
    FullTrace m sol := by
  refine ⟨?_, ?_, ?_⟩
  · intro p hp
    obtain ⟨i, j, h1, h2, h3, h4, rfl⟩ := htr.rows p hp
    exact ⟨h1, h2, j, h3, h4⟩
  · intro j hj
    by_contra hcon
    have : ∀ p ∈ sol, m (ptrRow p) j = false := by
      intro p hp
      by_contra h
      exact hcon ⟨p, hp, by simpa using h⟩
    have := (htr.cov j hj).mpr this
    simp at this
  · intro p hp q hq j hj h1 h2
    by_contra hne
    have hsymm : Symmetric fun p q : Ptr => ∀ j, j < 324 →
        ¬(m (ptrRow p) j = true ∧ m (ptrRow q) j = true) := by
      intro a b hab j hj hba
      exact hab j hj ⟨hba.2, hba.1⟩
    exact htr.disj.forall hsymm hp hq hne j hj ⟨h1, h2⟩

/-- A column of the header ring that an exact cover extending the trace covers by the
row `i` has the node of that row linked under it. -/
theorem row_of_cover_linked {m : Mat} {cnt0 : Nat → Int} {s : Links} {hs : List Ptr}
    {cols : Nat → List Ptr} {sol : List Ptr} (htr : TraceOK m hs sol)
    (hrep : Rep m cnt0 s hs cols) {c : Nat} (hc : c < 324) (hin : Ptr.node 0 c ∈ hs)
    {T : Nat → Prop} (hT : ExactCover m T) (hsol : ∀ p ∈ sol, T (ptrRow p)) {i : Nat}
    (hTi : T i) (hm : m i c = true) : Ptr.node i c ∈ cols c := by
  obtain ⟨hi1, hi2⟩ := hT.1 i hTi
  refine hrep.full c hc hin i hi1 hi2 hm ?_
  intro j' hj' hm'
  rw [htr.cov j' hj']
  intro p hp
  by_contra hcon
  have hpj : m (ptrRow p) j' = true := by simpa using hcon
  obtain ⟨i0, -, huniq⟩ := hT.2 j' hj'
  have e1 := huniq (ptrRow p) ⟨hsol p hp, hpj⟩
  have e2 := huniq i ⟨hTi, hm'⟩
  have hpc : m (ptrRow p) c = true := by rw [e1, ← e2]; exact hm
  have := (htr.cov c hc).mp hin p hp
  rw [hpc] at this
  exact absurd this (by simp)

theorem SPost.imp {b0 : Board} {lk0 : Links} {sol : List Ptr} {bd : Board} {bad bad' : Prop}
    {ret : Ret} {st' : DLX} (h : SPost b0 lk0 sol bd bad ret st') (hb : bad → bad') :
    SPost b0 lk0 sol bd bad' ret st' := by
  rcases h with h | ⟨h1, h2, h3, h4, h5, h6⟩
  · exact Or.inl h
  · exact Or.inr ⟨h1, h2, h3, h4, h5, hb h6⟩

/-- The row loop of `search` on a covered column `c`: it returns; either a solution
was recorded, or every row of the column was tried and undone, the column is
uncovered again, and no row of the column extends the trace to an exact cover. -/
theorem search_rows_spec {b0 : Board} {m : Mat} {cnt0 : Nat → Int}
    (h4 : ∀ i, 1 ≤ i → i < 730 → rowCount m i = 4 ∨ rowCount m i = 0)
    (rec : DLX → Option (Ret × DLX)) (k : Nat)
    (hrec : ∀ st, SInv m cnt0 st → st.solution.length = k + 1 →
      ∃ ret st', rec st = some (ret, st') ∧
        SPost b0 st.links st.solution st.board (¬Extendable m st.solution) ret st')
    {s lk : Links} {hs : List Ptr} {cols cols1 : Nat → List Ptr} {sol : List Ptr} {c : Nat}
    (hrep : Rep m cnt0 s hs cols) (hc : c < 324) (hin : Ptr.node 0 c ∈ hs)
    (hrep1 : Rep m cnt0 lk (hs.erase (.node 0 c)) cols1) (hcols1 : cols1 c = cols c)
    (hunc : ∀ targ, lk.c targ = .node 0 c → uncover lk targ = some s)
    (htr : TraceOK m hs sol) (hk : sol.length = k) :
    ∀ (post pre : List Ptr) (n : Nat) (bd : Board), cols c = pre ++ post → post.length < n →
      (∀ x ∈ pre, ¬Extendable m (sol ++ [x])) →
      ∃ ret st', search_rows rec n { links := lk, solution := sol, set := false, board := bd }
          (.node 0 c) (firstOr post (.node 0 c)) = some (ret, st') ∧
        SPost b0 s sol bd (∀ x ∈ cols c, ¬Extendable m (sol ++ [x])) ret st' := by
  have hnd : hs.Nodup := (List.nodup_cons.mp hrep.hring.2).2
  have hcc : lk.c (.node 0 c) = .node 0 c :=
    (hrep1.v.static 0 c (by omega) hc (hrep1.hzero c hc)).1
  intro post
  induction post with
  | nil =>
    intro pre n bd hsplit hn hpre
    obtain ⟨n, rfl⟩ : ∃ n', n = n' + 1 := ⟨n - 1, by simp at hn; omega⟩
    refine ⟨.noValue, { links := s, solution := sol, set := false, board := bd }, ?_, ?_⟩
    · simp only [search_rows, firstOr, if_true, hunc _ hcc]
    · refine Or.inr ⟨rfl, rfl, rfl, rfl, rfl, ?_⟩
      rw [hsplit, List.append_nil]
      exact hpre
  | cons x post ih =>
    intro pre n bd hsplit hn hpre
    obtain ⟨n, rfl⟩ : ∃ n', n = n' + 1 := ⟨n - 1, by simp at hn; omega⟩
    have hx : x ∈ cols c := by rw [hsplit]; simp
    obtain ⟨i, hi1, hi2, hm, rfl⟩ := hrep.v.vrows c hc x hx
    have hne : Ptr.node i c ≠ Ptr.node 0 c := by
      intro e; injection e with e1 e2; omega
    obtain ⟨O, hring, hO⟩ := hrep1.rowRing i c hi1 hi2 hc hm
    have hOnd : O.Nodup := (List.nodup_cons.mp hring.2).2
    have hO3 : O.length = 3 := others_length h4 hi1 hi2 hc hm hOnd hO
    have hact : ∀ j', j' < 324 → j' ≠ c → m i j' = true →
        Ptr.node 0 j' ∈ hs.erase (.node 0 c) := by
      intro j' hj' hjc hm'
      rw [hnd.mem_erase_iff]
      refine ⟨?_, (hrep.act c hc hin i hx j' hj' hm').1⟩
      intro e; injection e with e1 e2; exact hjc e2
    obtain ⟨lk3, hs3, cols3, hloop, hseq, hrep3, hmem3, hlen3⟩ :=
      cover_others hrep1 hi1 hi2 hring hO hact (by omega)
    have htr3 : TraceOK m hs3 (sol ++ [.node i c]) :=
      htr.extend hrep hc hin hx hO hmem3 hlen3 hO3
    obtain ⟨ret, st2, hcall, hpost⟩ := hrec
      { links := lk3, solution := sol ++ [.node i c], set := false, board := bd }
      ⟨hs3, cols3, hrep3, rfl, htr3⟩ (by simp [hk])
    rcases hpost with ⟨h1, h2, h3⟩ | ⟨h1, h2, h3, h5, h6, h7⟩
    · refine ⟨.value true, st2, ?_, Or.inl ⟨h1, rfl, h3⟩⟩
      simp only [search_rows, firstOr, if_neg hne, hloop, hcall, h1, if_true]
    · have h3' : st2.links = lk3 := h3
      have h5' : st2.solution = sol ++ [.node i c] := h5
      have h6' : st2.board = bd := h6
      have hback : ring_loop (fun s p => s.l p) uncover (.node i c) 324 lk3
          (lk3.l (.node i c)) = some lk := by
        refine uncover_others (by simpa [ptrRow] using hi1) hring ?_ (by omega) hseq
        intro y hy
        obtain ⟨j', -, -, -, rfl⟩ := (hO y).mp hy
        simpa [ptrRow] using hi1
      have hcx : lk3.c (.node i c) = .node 0 c := by
        rw [hseq.frame_c.1]
        exact (hrep1.v.static i c hi2 hc hm).1
      have hd : lk.d (.node i c) = firstOr post (.node 0 c) := by
        have hv := hrep1.v.vring c hc
        rw [hcols1, hsplit] at hv
        exact hv.next_split
      obtain ⟨ret', st', hcall', hpost'⟩ := ih (pre ++ [.node i c]) n bd
        (by rw [hsplit]; simp) (by simp at hn; omega)
        (by
          intro y hy
          rcases List.mem_append.mp hy with h | h
          · exact hpre y h
          · simp only [List.mem_singleton] at h
            rw [h]
            exact h7)
      refine ⟨ret', st', ?_, hpost'⟩
      have hf : st2.set = false := h1
      simp only [search_rows, firstOr, if_neg hne, hloop, hcall, hf, h3', h5', h6', hback,
        hcx, hd, dropLast_snoc]
      simpa using hcall'

/-- The function `search` on a well-formed state with no recorded solution: with fuel
for the remaining depth it returns; either a solution was recorded and the board is a
valid completion of the input board, or control flowed off the end with links, trace
and board restored and the trace cannot be completed to an exact cover. -/
theorem search_spec {b0 : Board} {cnt0 : Nat → Int} :
    ∀ (fuel : Nat) (st : DLX), SInv (build_cover_mat b0) cnt0 st →
      82 ≤ st.solution.length + fuel →
      ∃ ret st', search fuel st = some (ret, st') ∧
        SPost b0 st.links st.solution st.board
          (¬Extendable (build_cover_mat b0) st.solution) ret st' := by
  have h4 : ∀ i, 1 ≤ i → i < 730 →
      rowCount (build_cover_mat b0) i = 4 ∨ rowCount (build_cover_mat b0) i = 0 :=
    fun i h1 h2 => (cover_mat_row_counts b0).1 i h1 (by omega)
  intro fuel
  induction fuel with
  | zero =>
    rintro st ⟨hs, cols, -, -, htr⟩ hlen
    have := htr.size
    omega
  | succ fuel ih =>
    rintro ⟨lk, sol, set, bd⟩ ⟨hs, cols, hrep, hset, htr⟩ hlen
    have hset' : set = false := hset
    subst hset'
    have hrep' : Rep (build_cover_mat b0) cnt0 lk hs cols := hrep
    have htr' : TraceOK (build_cover_mat b0) hs sol := htr
    have hnext := hrep'.hring.next_head
    cases hs with
    | nil =>
      have hlen81 : sol.length = 81 := by
        have := htr'.size
        simp only [List.length_nil] at this
        omega
      have hdec : set_DLX_sol lk sol bd = decodeRows sol bd := by
        apply set_DLX_sol_eq
        intro p hp
        obtain ⟨i, j, h1, h2, h3, hm, rfl⟩ := htr'.rows p hp
        exact ⟨(hrep'.v.static i j h2 h3 hm).2.2, h1, h2⟩
      refine ⟨.value true,
        { links := lk, solution := sol, set := true, board := set_DLX_sol lk sol bd }, ?_, ?_⟩
      · have e : lk.r .header = .header := hnext
        simp only [search, e, if_true, hlen81]
        simp
      · refine Or.inl ⟨rfl, rfl, ?_⟩
        show Completion b0 (set_DLX_sol lk sol bd)
        rw [hdec]
        exact htr'.fullTrace.completion bd
    | cons c1 rest =>
      have e1 : lk.r .header = c1 := hnext
      have hne : lk.r .header ≠ .header := by
        rw [e1]
        intro e
        have := (List.nodup_cons.mp hrep'.hring.2).1
        rw [e] at this
        exact this (List.mem_cons_self _ _)
      cases rest with
      | nil =>
        have := htr'.size
        simp only [List.length_cons, List.length_nil] at this
        omega
      | cons c2 rest =>
        have hlenhs : rest.length + 2 ≤ 324 := by
          have := htr'.size
          simp only [List.length_cons] at this
          omega
        obtain ⟨col, hmin, hcolmem, -⟩ := get_min_col_of_two lk c1 c2 rest hrep'.hring hlenhs
        obtain ⟨c, hc, rfl⟩ := hrep'.hcols col hcolmem
        have hcc : lk.c (.node 0 c) = .node 0 c :=
          (hrep'.v.static 0 c (by omega) hc (hrep'.hzero c hc)).1
        obtain ⟨s1, cols1, hcov, hrep1, -, hcols1, hceq, -, hunc, -⟩ :=
          hrep'.cover_spec hc hcolmem (.node 0 c) hcc
        have hcnd : (cols c).Nodup := (List.nodup_cons.mp (hrep'.v.vring c hc).2).2
        have hclen : (cols c).length < 730 := by
          refine length_col_nodes (cols c) c 730 (by omega) hcnd ?_
          intro p hp
          obtain ⟨i, h1, h2, -, e⟩ := hrep'.v.vrows c hc p hp
          exact ⟨i, h1, h2, e⟩
        have hd : s1.d (.node 0 c) = firstOr (cols c) (.node 0 c) := by
          have hv := hrep1.v.vring c hc
          rw [hcols1] at hv
          exact hv.next_head
        obtain ⟨ret, st', hcall, hpost⟩ := search_rows_spec h4 (search fuel) sol.length
          (fun st hst hl => ih st hst (by
            have : sol.length + (fuel + 1) ≥ 82 := hlen
            omega))
          hrep' hc hcolmem hrep1 hcols1 hunc htr' rfl (cols c) [] 730 bd rfl hclen
          (by intro x hx; simp at hx)
        refine ⟨ret, st', ?_, hpost.imp ?_⟩
        · simp only [search, if_neg hne, hmin, hcov, hd]
          exact hcall
        · rintro hbad ⟨T, hT, hsolT⟩
          obtain ⟨i, ⟨hTi, hmi⟩, -⟩ := hT.2 c hc
          have hx := row_of_cover_linked htr' hrep' hc hcolmem hT hsolT hTi hmi
          refine hbad _ hx ⟨T, hT, ?_⟩
          intro p hp
          rcases List.mem_append.mp hp with h | h
          · exact hsolT p h
          · simp only [List.mem_singleton] at h
            rw [h]
            exact hTi

/-- The state handed to the first call of `search` satisfies the entry condition. -/
theorem initial_sinv (mem : Links) (b : Board) :
    SInv (build_cover_mat b) (fun j => (init_header mem).count (.node 0 j))
      { links := create_link_mat (build_cover_mat b) (init_header mem), solution := [],
        set := false, board := b } := by
  refine ⟨hs0, cols0 (build_cover_mat b),
    created_rep (build_cover_mat b) (init_header mem) (fun j _ => build_cover_mat_zero b j),
    rfl, ?_, ?_, ?_, ?_⟩
  · intro p hp
    exact absurd hp (List.not_mem_nil _)
  · intro j hj
    constructor
    · intro _ p hp
      exact absurd hp (List.not_mem_nil _)
    · intro _
      exact (mem_hs0 _).mpr ⟨j, hj, rfl⟩
  · exact List.Pairwise.nil
  · simp [hs0]

/-- The call `dancing_links()` returns on every board and every content of the fresh
link memory: either `search` returned true and the board is a valid completion of the
input, or control flowed off the end of `search`, the board is unchanged and the exact
cover problem of the input has no solution. -/
theorem dancing_links_spec (mem : Links) (b : Board) :
    ∃ ret b', dancing_links mem b = some (ret, b') ∧
      ((ret = .value true ∧ Completion b b') ∨
        (ret = .noValue ∧ b' = b ∧ ¬Extendable (build_cover_mat b) [])) := by
  obtain ⟨ret, st', hcall, hpost⟩ := search_spec 82 _ (initial_sinv mem b) (by simp)
  refine ⟨ret, st'.board, ?_, ?_⟩
  · simp only [dancing_links, hcall, Option.map_some']
  · rcases hpost with ⟨-, h2, h3⟩ | ⟨-, h2, -, -, h5, h6⟩
    · exact Or.inl ⟨h2, h3⟩
    · exact Or.inr ⟨h2, h5, h6⟩

/-- On a board with a valid completion `dancing_links()` returns true with a valid
completion on the board. -/
theorem dancing_links_complete (mem : Links) (b g : Board) (hg : Completion b g) :
    ∃ b', dancing_links mem b = some (.value true, b') ∧ Completion b b' := by
  obtain ⟨ret, b', hcall, h | ⟨-, -, h⟩⟩ := dancing_links_spec mem b
  · obtain ⟨rfl, hc⟩ := h
    exact ⟨b', hcall, hc⟩
  · exact absurd ⟨gridRows g, exactCover_of_completion hg,
      fun p hp => absurd hp (List.not_mem_nil _)⟩ h

/-- The givens of a board with a valid completion are digits that do not repeat. -/
theorem completion_input {b g : Board} (hg : Completion b g) : InRange b ∧ NoRepeat b := by
  obtain ⟨hs, he⟩ := hg
  have hcell : ∀ r < 9, ∀ c < 9, b r c ≠ 0 → b r c = g r c ∧ g r c ∈ digits :=
    fun r hr c hc hne => ⟨(he r hr c hc hne).symm, solved_cell_mem_digits hs hr hc⟩
  refine ⟨?_, ?_⟩
  · intro r hr c hc
    by_cases h0 : b r c = 0
    · rw [h0]; omega
    · obtain ⟨e, hd⟩ := hcell r hr c hc h0
      rw [e]
      have := mem_digits.mp hd
      omega
  · rw [noRepeat_iff_units]
    intro pos hu d hd
    rw [cnt_le_one_iff]
    intro s hs9 t ht9 e1 e2
    have hd0 : d ≠ 0 := by have := mem_digits.mp hd; omega
    obtain ⟨a1, a2⟩ := hu.lt hs9
    obtain ⟨b1, b2⟩ := hu.lt ht9
    have g1 : g (pos s).1 (pos s).2 = d := by
      rw [← (hcell _ a1 _ a2 (by rw [e1]; exact hd0)).1, e1]
    have g2 : g (pos t).1 (pos t).2 = d := by
      rw [← (hcell _ b1 _ b2 (by rw [e2]; exact hd0)).1, e2]
    have hone := (solved_iff_units.mp hs) pos hu d hd
    exact (cnt_le_one_iff g pos d).mp (by omega) s hs9 t ht9 g1 g2

/-- On a board with a valid completion `backtracking()` returns true with a valid
completion on the board. -/
theorem backtracking_completion (b g : Board) (hg : Completion b g) :
    ∃ b', backtracking b = some (true, b') ∧ Completion b b' := by
  obtain ⟨b', hb'⟩ := backtrackingAux_complete 82 b g (by have := zeros_le b; omega) hg
  obtain ⟨hin, hnr⟩ := completion_input hg
  obtain ⟨h1, h2, h3, h4⟩ := backtrackingAux_sound 82 b b' hin hnr hb'
  exact ⟨b', hb', solved_of_full h1 h2 h3, fun r _ c _ hne => h4 r c hne⟩

/-- In a completion, a cell whose row holds the digit `d` nowhere else holds `d`. -/
theorem completion_row_blank {b g : Board} (hg : Completion b g) {r c0 : Nat} {d : Int}
    (hd : d ∈ digits) (hr : r < 9)
    (h : ∀ t < 9, t ≠ c0 → b r t ≠ 0 ∧ b r t ≠ d) : g r c0 = d := by
  have hone := (hg.1 r hr d hd).1
  obtain ⟨t, ht, e⟩ := (cnt_pos_iff g (rowPos r) d).mp (by omega)
  have e' : g r t = d := e
  by_cases htc : t = c0
  · rw [← htc]; exact e'
  · obtain ⟨h1, h2⟩ := h t ht htc
    rw [hg.2 r hr t ht h1] at e'
    exact absurd e' h2

/-- The grid `grid1` is the only valid completion of `puzzle1`. -/
theorem puzzle1_unique : ∀ g, Completion puzzle1 g → ∀ r < 9, ∀ c < 9, g r c = grid1 r c := by
  intro g hg r hr c hc
  by_cases h0 : puzzle1 r c = 0
  · have hcases : ∀ r < 9, ∀ c < 9, puzzle1 r c = 0 →
        (r = 0 ∧ c = 0) ∨ (r = 4 ∧ c = 4) ∨ (r = 8 ∧ c = 8) := by decide
    rcases hcases r hr c hc h0 with ⟨rfl, rfl⟩ | ⟨rfl, rfl⟩ | ⟨rfl, rfl⟩
    · exact completion_row_blank hg (d := 1) (by decide) (by decide) (by decide)
    · exact completion_row_blank hg (d := 9) (by decide) (by decide) (by decide)
    · exact completion_row_blank hg (d := 8) (by decide) (by decide) (by decide)
  · have hsame : ∀ r < 9, ∀ c < 9, puzzle1 r c ≠ 0 → puzzle1 r c = grid1 r c := by decide
    rw [hg.2 r hr c hc h0]
    exact hsame r hr c hc h0

/-- C3 (soundness of `dancing_links`): for every input board and every content of the
uninitialised link memory the call returns, and when `search` reached the empty header
ring and the call returned true, the board written by `set_DLX_sol` has no zero cell,
every row, column and box holds each digit 1..9 exactly once, and every cell that was
nonzero in the input keeps its input value. -/
theorem dancing_links_sound (mem : Links) (b : Board) :
    (∃ ret b', dancing_links mem b = some (ret, b')) ∧
      ∀ b', dancing_links mem b = some (.value true, b') →
        NoZero b' ∧ Solved b' ∧ ∀ r < 9, ∀ c < 9, b r c ≠ 0 → b' r c = b r c := by
  obtain ⟨ret, b1, hcall, hpost⟩ := dancing_links_spec mem b
  refine ⟨⟨ret, b1, hcall⟩, ?_⟩
  intro b' h
  rw [hcall] at h
  simp only [Option.some.injEq, Prod.mk.injEq] at h
  obtain ⟨hret, rfl⟩ := h
  rcases hpost with ⟨-, hs, he⟩ | ⟨h1, -⟩
  · refine ⟨?_, hs, he⟩
    intro r hr c hc h0
    have := mem_digits.mp (solved_cell_mem_digits hs hr hc)
    omega
  · rw [hret] at h1
    exact absurd h1 (by decide)

/-- Witness for C3: on the grid `puzzle1` the call returns true, and the board it
leaves is solved and keeps the givens. -/
theorem dancing_links_sound_witness :
    ∃ b', dancing_links zero_mem puzzle1 = some (.value true, b') ∧
      (NoZero b' ∧ Solved b' ∧ ∀ r < 9, ∀ c < 9, puzzle1 r c ≠ 0 → b' r c = puzzle1 r c) :=
  (dancing_links_complete zero_mem puzzle1 grid1 ⟨by decide, by decide⟩).elim
    fun b' h => ⟨b', h.1, (dancing_links_sound zero_mem puzzle1).2 b' h.1⟩

/-- C4 (solver agreement): on a board with exactly one valid completion `g`,
`backtracking()` on one copy and `dancing_links()` on another copy both return true,
and the two final boards agree in every cell, both being equal to `g`. -/
theorem solver_agreement (mem : Links) (b g : Board) (hg : Completion b g)
    (huniq : ∀ g', Completion b g' → ∀ r < 9, ∀ c < 9, g' r c = g r c) :
    ∃ bt dl, backtracking b = some (true, bt) ∧ dancing_links mem b = some (.value true, dl) ∧
      ∀ r < 9, ∀ c < 9, bt r c = dl r c ∧ bt r c = g r c ∧ dl r c = g r c := by
  obtain ⟨bt, hbt, hcbt⟩ := backtracking_completion b g hg
  obtain ⟨dl, hdl, hcdl⟩ := dancing_links_complete mem b g hg
  refine ⟨bt, dl, hbt, hdl, ?_⟩
  intro r hr c hc
  have e1 := huniq bt hcbt r hr c hc
  have e2 := huniq dl hcdl r hr c hc
  exact ⟨e1.trans e2.symm, e1, e2⟩

/-- Witness for C4: `grid1` is the one valid completion of `puzzle1`. -/
theorem solver_agreement_witness :
    Completion puzzle1 grid1 ∧
      (∀ g', Completion puzzle1 g' → ∀ r < 9, ∀ c < 9, g' r c = grid1 r c) ∧
      ∃ bt dl, backtracking puzzle1 = some (true, bt) ∧
        dancing_links zero_mem puzzle1 = some (.value true, dl) ∧
        ∀ r < 9, ∀ c < 9, bt r c = dl r c ∧ bt r c = grid1 r c ∧ dl r c = grid1 r c :=
  ⟨⟨by decide, by decide⟩, puzzle1_unique,
    solver_agreement zero_mem puzzle1 grid1 ⟨by decide, by decide⟩ puzzle1_unique⟩

/-! ## Further properties of `backtracking` -/

theorem filled_of_setCell {b b' : Board} {row col : Nat} {d : Int} (h0 : b row col = 0)
    (h : Filled (setCell b row col d) b') : Filled b b' := by
  obtain ⟨h1, h4⟩ := h
  refine ⟨h1, ?_⟩
  intro r c hrc
  have hne : ¬(r = row ∧ c = col) := by
    rintro ⟨rfl, rfl⟩; exact hrc h0
  rw [h4 r c (by rwa [setCell_other _ _ _ _ _ _ hne]), setCell_other _ _ _ _ _ _ hne]

theorem digit_loop_filled {rec : Board → Option (Bool × Board)} {row col : Nat}
    (hatom : ∀ b b', rec b = some (false, b') → b' = b)
    (hrec : ∀ b b', rec b = some (true, b') → Filled b b') :
    ∀ (n : Nat) (digit : Int) (b b' : Board), b row col = 0 →
      digit_loop rec row col n digit b = some (true, b') → Filled b b' := by
  intro n
  induction n with
  | zero => intro digit b b' _ h; simp [digit_loop] at h
  | succ n ih =>
    intro digit b b' h0 h
    rw [digit_loop] at h
    split at h
    · split at h
      · simp at h
      · next b1 hb1 =>
        simp only [Option.some.injEq, Prod.mk.injEq, true_and] at h
        subst h
        exact filled_of_setCell h0 (hrec _ _ hb1)
      · next b1 hb1 =>
        have := hatom _ _ hb1
        subst this
        rw [setCell_undo b row col digit h0] at h
        exact ih (digit + 1) b b' h0 h
    · exact ih (digit + 1) b b' h0 h

theorem backtrackingAux_filled :
    ∀ (fuel : Nat) (b b' : Board), backtrackingAux fuel b = some (true, b') → Filled b b' := by
  intro fuel
  induction fuel with
  | zero => intro b b' h; simp [backtrackingAux] at h
  | succ fuel ih =>
    intro b b' h
    rw [backtrackingAux] at h
    split at h
    · next hfe =>
      simp only [Option.some.injEq, Prod.mk.injEq, true_and] at h
      subst h
      exact ⟨find_empty_none hfe, fun _ _ _ => rfl⟩
    · next row col hfe =>
      exact digit_loop_filled (backtrackingAux_false fuel) ih 9 1 b b' (find_empty_some hfe).2.2 h

/-! ### More fuel does not change the result -/

theorem digit_loop_mono {rec rec' : Board → Option (Bool × Board)} {row col : Nat}
    (hrec : ∀ b res, rec b = some res → rec' b = some res) :
    ∀ (n : Nat) (digit : Int) (b : Board) (res : Bool × Board),
      digit_loop rec row col n digit b = some res →
      digit_loop rec' row col n digit b = some res := by
  intro n
  induction n with
  | zero => intro digit b res h; simpa [digit_loop] using h
  | succ n ih =>
    intro digit b res h
    rw [digit_loop] at h ⊢
    split at h
    · next hv =>
      rw [if_pos hv]
      split at h
      · simp at h
      · next b1 hb1 =>
        rw [hrec _ _ hb1]
        exact h
      · next b1 hb1 =>
        rw [hrec _ _ hb1]
        exact ih _ _ _ h
    · next hv =>
      rw [if_neg hv]
      exact ih _ _ _ h

theorem backtrackingAux_mono :
    ∀ (fuel : Nat) (b : Board) (res : Bool × Board), backtrackingAux fuel b = some res →
      ∀ k, backtrackingAux (fuel + k) b = some res := by
  intro fuel
  induction fuel with
  | zero => intro b res h; simp [backtrackingAux] at h
  | succ fuel ih =>
    intro b res h k
    have e : fuel + 1 + k = (fuel + k) + 1 := by omega
    rw [e, backtrackingAux]
    rw [backtrackingAux] at h
    split at h
    · exact h
    · exact digit_loop_mono (fun b1 r1 h1 => ih b1 r1 h1 k) 9 1 b res h

/-! ### Which boards the search fills -/

theorem fillOK_setCell {b g : Board} {row col : Nat} (h0 : b row col = 0) (h : FillOK b g) :
    FillOK (setCell b row col (g row col)) g := by
  obtain ⟨h1, h2, h3⟩ := h
  refine ⟨h1, ?_, ?_⟩
  · intro r hr c hc hne
    by_cases hij : r = row ∧ c = col
    · obtain ⟨rfl, rfl⟩ := hij
      rw [setCell_same]
    · rw [setCell_other _ _ _ _ _ _ hij] at hne ⊢
      exact h2 r hr c hc hne
  · intro pos hu s hs t ht hst hz
    refine h3 pos hu s hs t ht hst ?_
    by_cases hij : (pos s).1 = row ∧ (pos s).2 = col
    · rw [hij.1, hij.2]; exact h0
    · rwa [setCell_other _ _ _ _ _ _ hij] at hz

theorem valid_move_of_fillOK {b g : Board} {row col : Nat} (hr : row < 9) (hc : col < 9)
    (h0 : b row col = 0) (h : FillOK b g) : valid_move b row col (g row col) = true := by
  obtain ⟨h1, h2, h3⟩ := h
  have hd0 : g row col ≠ 0 := h1 row hr col hc
  have key : ∀ pos, IsUnit pos → ∀ s < 9, pos s = (row, col) →
      ∀ t < 9, b (pos t).1 (pos t).2 ≠ g row col := by
    intro pos hu s hs hp t ht e
    by_cases hst : s = t
    · subst hst
      rw [hp] at e
      exact hd0 (e.symm.trans h0)
    · obtain ⟨b1, b2⟩ := hu.lt ht
      have hg : g (pos t).1 (pos t).2 = g row col := by
        rw [h2 _ b1 _ b2 (by rw [e]; exact hd0), e]
      have hz : b (pos s).1 (pos s).2 = 0 := by rw [hp]; exact h0
      have := (h3 pos hu s hs t ht hst hz).2
      rw [hp] at this
      exact this hg
  rw [valid_move_iff b row col _ hc]
  refine ⟨h0, key _ (.row row hr) col hc rfl, key _ (.col col hc) row hr rfl, ?_⟩
  refine key _ (.box _ (by omega)) (3 * (row % 3) + col % 3) (by omega) ?_
  simp only [boxPos, Prod.mk.injEq]
  omega

/-- A cell of the grid `g` that is empty in `b` holds a digit. -/
theorem fillOK_digit {b g : Board} {row col : Nat} (hr : row < 9) (hc : col < 9)
    (h0 : b row col = 0) (h : FillOK b g) : g row col ∈ digits := by
  have h3 := h.2.2 (rowPos row) (.row row hr) col hc ((col + 1) % 9) (by omega) (by omega) h0
  exact h3.1

theorem backtrackingAux_fill_complete :
    ∀ (fuel : Nat) (b g : Board), zeros b < fuel → FillOK b g →
      ∃ b', backtrackingAux fuel b = some (true, b') := by
  intro fuel
  induction fuel with
  | zero => intro b g h; omega
  | succ fuel ih =>
    intro b g hz hg
    rw [backtrackingAux]
    split
    · exact ⟨_, rfl⟩
    · next row col hfe =>
      obtain ⟨hr, hc, h0⟩ := find_empty_some hfe
      have hdig := mem_digits.mp (fillOK_digit hr hc h0 hg)
      have hlt : ∀ d : Int, d ≠ 0 → zeros (setCell b row col d) < fuel := by
        intro d hd
        have := zeros_setCell b row col d hr hc h0 hd
        omega
      refine digit_loop_complete h0 (backtrackingAux_false fuel)
        (fun d hd => backtrackingAux_some fuel _ (hlt d hd))
        (valid_move_of_fillOK hr hc h0 hg)
        (ih _ g (hlt _ (by omega)) (fillOK_setCell h0 hg)) 9 1 (by decide) hdig.1 (by omega)

/-- A filling of the board with one more valid move on it is a filling of the board. -/
theorem fillOK_of_setCell {b b' : Board} {row col : Nat} {d : Int} (hr : row < 9)
    (hc : col < 9) (h0 : b row col = 0) (hd : d ∈ digits) (hv : valid_move b row col d = true)
    (h : FillOK (setCell b row col d) b') : FillOK b b' := by
  obtain ⟨h1, h2, h3⟩ := h
  have hd0 : d ≠ 0 := by have := mem_digits.mp hd; omega
  have hcell : b' row col = d := by
    have := h2 row hr col hc (by rw [setCell_same]; exact hd0)
    rwa [setCell_same] at this
  have hext : Extends b b' := by
    intro r hr' c hc' hne
    have hij : ¬(r = row ∧ c = col) := by
      rintro ⟨rfl, rfl⟩; exact hne h0
    have := h2 r hr' c hc' (by rwa [setCell_other _ _ _ _ _ _ hij])
    rwa [setCell_other _ _ _ _ _ _ hij] at this
  refine ⟨h1, hext, ?_⟩
  intro pos hu s hs t ht hst hz
  by_cases hp : (pos s).1 = row ∧ (pos s).2 = col
  · have hps : pos s = (row, col) := Prod.ext hp.1 hp.2
    rw [hp.1, hp.2, hcell]
    refine ⟨hd, ?_⟩
    obtain ⟨b1, b2⟩ := hu.lt ht
    by_cases hq : b (pos t).1 (pos t).2 = 0
    · have hqp : ¬((pos t).1 = row ∧ (pos t).2 = col) := by
        intro e
        have : pos t = pos s := by rw [hps]; exact Prod.ext e.1 e.2
        exact hst (hu.inj this).symm
      have hz' : setCell b row col d (pos t).1 (pos t).2 = 0 := by
        rw [setCell_other _ _ _ _ _ _ hqp]; exact hq
      have := (h3 pos hu t ht s hs (Ne.symm hst) hz').2
      rw [hp.1, hp.2, hcell] at this
      exact fun e => this e.symm
    · rw [hext _ b1 _ b2 hq]
      exact valid_move_unit hc hv hu hs hps t ht
  · exact h3 pos hu s hs t ht hst (by rwa [setCell_other _ _ _ _ _ _ hp])

theorem digit_loop_fillOK {rec : Board → Option (Bool × Board)} {row col : Nat}
    (hr : row < 9) (hc : col < 9)
    (hatom : ∀ b b', rec b = some (false, b') → b' = b)
    (hrec : ∀ b b', rec b = some (true, b') → FillOK b b') :
    ∀ (n : Nat) (digit : Int) (b b' : Board), 1 ≤ digit → digit + n = 10 →
      b row col = 0 → digit_loop rec row col n digit b = some (true, b') → FillOK b b' := by
  intro n
  induction n with
  | zero => intro digit b b' _ _ _ h; simp [digit_loop] at h
  | succ n ih =>
    intro digit b b' hd1 hd2 h0 h
    rw [digit_loop] at h
    have hdig : digit ∈ digits := mem_digits.mpr ⟨hd1, by push_cast at hd2; omega⟩
    split at h
    · next hv =>
      split at h
      · simp at h
      · next b1 hb1 =>
        simp only [Option.some.injEq, Prod.mk.injEq, true_and] at h
        subst h
        exact fillOK_of_setCell hr hc h0 hdig hv (hrec _ _ hb1)
      · next b1 hb1 =>
        have := hatom _ _ hb1
        subst this
        rw [setCell_undo b row col digit h0] at h
        exact ih (digit + 1) b b' (by omega) (by push_cast at hd2 ⊢; omega) h0 h
    · exact ih (digit + 1) b b' (by omega) (by push_cast at hd2 ⊢; omega) h0 h

theorem backtrackingAux_fillOK :
    ∀ (fuel : Nat) (b b' : Board), backtrackingAux fuel b = some (true, b') → FillOK b b' := by
  intro fuel
  induction fuel with
  | zero => intro b b' h; simp [backtrackingAux] at h
  | succ fuel ih =>
    intro b b' h
    rw [backtrackingAux] at h
    split at h
    · next hfe =>
      simp only [Option.some.injEq, Prod.mk.injEq, true_and] at h
      subst h
      have hnz := find_empty_none hfe
      refine ⟨hnz, fun _ _ _ _ _ => rfl, ?_⟩
      intro pos hu s hs t ht _ hz
      obtain ⟨b1, b2⟩ := hu.lt hs
      exact absurd hz (hnz _ b1 _ b2)
    · next row col hfe =>
      obtain ⟨hr, hc, h0⟩ := find_empty_some hfe
      exact digit_loop_fillOK hr hc (backtrackingAux_false fuel) ih 9 1 b b' (by decide)
        (by decide) h0 h

/-- A board whose row `r` holds the digit 5 in two cells is not solved. -/
theorem not_solved_of_two_fives {b : Board} {r c1 c2 : Nat} (hr : r < 9) (hc1 : c1 < 9)
    (hc2 : c2 < 9) (hne : c1 ≠ c2) (h1 : b r c1 = 5) (h2 : b r c2 = 5) : ¬Solved b := by
  intro hs
  have hone := (hs r hr 5 (by decide)).1
  exact hne ((cnt_le_one_iff b (rowPos r) 5).mp (by omega) c1 hc1 c2 hc2 h1 h2)

/-- C12 (as amended): on a board whose row `r` holds the digit 5 in two cells,
`backtracking()` returns and does not check the givens against each other.  It returns
true exactly when the empty cells can be filled with digits 1..9 so that no filled cell
repeats the digit of another cell of its row, column or box (`FillOK`), and then it
leaves such a filling on the board (at once, with the board untouched, when there is
no empty cell); otherwise it returns false and leaves the board as it was.  Either way
the two 5s are still in place, so the board it leaves is not a solved grid. -/
theorem backtracking_two_fives (b : Board) (r c1 c2 : Nat) (hr : r < 9) (hc1 : c1 < 9)
    (hc2 : c2 < 9) (hne : c1 ≠ c2) (h1 : b r c1 = 5) (h2 : b r c2 = 5) :
    ∃ ret b', backtracking b = some (ret, b') ∧ b' r c1 = 5 ∧ b' r c2 = 5 ∧ ¬Solved b' ∧
      (ret = true ↔ ∃ g, FillOK b g) ∧ (ret = true → FillOK b b') ∧
      (ret = true → NoZero b') ∧ (ret = false → b' = b) ∧
      (NoZero b → ret = true ∧ b' = b) := by
  obtain ⟨⟨ret, b'⟩, hres⟩ := backtracking_returns b
  have hkeep : b' r c1 = 5 ∧ b' r c2 = 5 ∧ (ret = true ↔ ∃ g, FillOK b g) ∧
      (ret = true → FillOK b b') ∧ (ret = false → b' = b) := by
    cases ret with
    | true =>
      have hfill := backtrackingAux_fillOK 82 b b' hres
      refine ⟨?_, ?_, ⟨fun _ => ⟨b', hfill⟩, fun _ => rfl⟩, fun _ => hfill,
        fun h => absurd h (by decide)⟩
      · rw [hfill.2.1 r hr c1 hc1 (by rw [h1]; decide), h1]
      · rw [hfill.2.1 r hr c2 hc2 (by rw [h2]; decide), h2]
    | false =>
      have e := backtrackingAux_false 82 b b' hres
      subst e
      refine ⟨h1, h2, ⟨fun h => absurd h (by decide), ?_⟩, fun h => absurd h (by decide),
        fun _ => rfl⟩
      rintro ⟨g, hg⟩
      obtain ⟨b1, hb1⟩ := backtrackingAux_fill_complete 82 b' g
        (by have := zeros_le b'; omega) hg
      have hres' : backtrackingAux 82 b' = some (false, b') := hres
      rw [hb1] at hres'
      simp at hres'
  obtain ⟨k1, k2, k3, k4, k5⟩ := hkeep
  refine ⟨ret, b', hres, k1, k2, not_solved_of_two_fives hr hc1 hc2 hne k1 k2, k3, k4,
    fun h => (k4 h).1, k5, ?_⟩
  intro hnz
  have hfe := find_empty_of_noZero hnz
  have : backtracking b = some (true, b) := by
    simp only [backtracking, backtrackingAux, hfe]
  rw [this] at hres
  simp only [Option.some.injEq, Prod.mk.injEq] at hres
  exact ⟨hres.1.symm, hres.2.symm⟩

/-- Witness for C12 as amended: the board `dup5`, with 5 in the cells (0,0) and (0,4). -/
theorem backtracking_two_fives_witness :
    dup5 0 0 = 5 ∧ dup5 0 4 = 5 ∧
      ∃ ret b', backtracking dup5 = some (ret, b') ∧ b' 0 0 = 5 ∧ b' 0 4 = 5 ∧ ¬Solved b' ∧
        (ret = true ↔ ∃ g, FillOK dup5 g) ∧ (ret = true → FillOK dup5 b') ∧
        (ret = true → NoZero b') ∧ (ret = false → b' = dup5) ∧
        (NoZero dup5 → ret = true ∧ b' = dup5) :=
  ⟨by decide, by decide,
    backtracking_two_fives dup5 0 0 4 (by decide) (by decide) (by decide) (by decide)
      (by decide) (by decide)⟩

/-- Counterexample to C12 as stated: row 0 of `dup5` holds the digit 5 twice, and
`backtracking()` returns true on it, having written 9 into the one empty cell. -/
theorem dup5_backtracking_true :
    dup5 0 0 = 5 ∧ dup5 0 4 = 5 ∧ backtracking dup5 = some (true, setCell dup5 4 4 9) :=
  ⟨by decide, by decide, rfl⟩

/-- C17 (failure atomicity of `backtracking`): a call that returns false leaves the
board equal to the input board in every cell. -/
theorem backtracking_failure_atomic (b b' : Board) (h : backtracking b = some (false, b')) :
    ∀ r c, b' r c = b r c := by
  intro r c
  rw [backtrackingAux_false 82 b b' h]

/-- Witness for C17: on `stuck1` the call places 1 in the cell (0,0), fails on the
cell (8,8), resets (0,0) and returns false. -/
theorem backtracking_failure_atomic_witness :
    ∃ b', backtracking stuck1 = some (false, b') ∧ ∀ r c, b' r c = stuck1 r c :=
  ⟨_, rfl, backtracking_failure_atomic stuck1 _ rfl⟩

/-- C19 (termination of `backtracking`): a board has at most 81 zero cells; the call
returns already with the recursion depth bounded by the number of zero cells of the
input, with the same result as the unbounded call; and every recursive call is made on
the caller's board with one of the digits 1..9 written into an empty cell, a board
with exactly one zero cell fewer. -/
theorem backtracking_terminates (b : Board) :
    zeros b ≤ 81 ∧
      (∃ res, backtrackingAux (zeros b + 1) b = some res ∧ backtracking b = some res) ∧
      ∀ row col, find_empty b = some (row, col) → ∀ digit : Int, 1 ≤ digit → digit ≤ 9 →
        zeros (setCell b row col digit) + 1 = zeros b := by
  have hle := zeros_le b
  refine ⟨hle, ?_, ?_⟩
  · obtain ⟨res, hres⟩ := backtrackingAux_some (zeros b + 1) b (by omega)
    refine ⟨res, hres, ?_⟩
    have := backtrackingAux_mono (zeros b + 1) b res hres (81 - zeros b)
    have e : zeros b + 1 + (81 - zeros b) = 82 := by omega
    rw [e] at this
    exact this
  · intro row col hfe digit hd1 hd9
    obtain ⟨hr, hc, h0⟩ := find_empty_some hfe
    exact zeros_setCell b row col digit hr hc h0 (by omega)

/-- C14 (solved input): on a board filled with digits 1..9 in which every row, column
and box holds each digit exactly once, `find_empty` reports no empty cell,
`backtracking()` returns true with the board untouched, and `dancing_links()` returns
true with a board equal to the input in every cell. -/
theorem solved_board_unchanged (mem : Links) (b : Board)
    (hfull : ∀ r < 9, ∀ c < 9, 1 ≤ b r c ∧ b r c ≤ 9) (hs : Solved b) :
    find_empty b = none ∧ backtracking b = some (true, b) ∧
      ∃ dl, dancing_links mem b = some (.value true, dl) ∧ ∀ r < 9, ∀ c < 9, dl r c = b r c := by
  have hnz : NoZero b := by
    intro r hr c hc
    have := hfull r hr c hc
    omega
  have hfe := find_empty_of_noZero hnz
  refine ⟨hfe, ?_, ?_⟩
  · simp only [backtracking, backtrackingAux, hfe]
  · obtain ⟨dl, hdl, -, hext⟩ := dancing_links_complete mem b b ⟨hs, fun _ _ _ _ _ => rfl⟩
    exact ⟨dl, hdl, fun r hr c hc => hext r hr c hc (hnz r hr c hc)⟩

/-- Witness for C14: the solved grid `grid1`. -/
theorem solved_board_unchanged_witness :
    (∀ r < 9, ∀ c < 9, 1 ≤ grid1 r c ∧ grid1 r c ≤ 9) ∧ Solved grid1 ∧
      (find_empty grid1 = none ∧ backtracking grid1 = some (true, grid1) ∧
        ∃ dl, dancing_links zero_mem grid1 = some (.value true, dl) ∧
          ∀ r < 9, ∀ c < 9, dl r c = grid1 r c) :=
  ⟨by decide, by decide, solved_board_unchanged zero_mem grid1 (by decide) (by decide)⟩

/-- C15 (blank board): on the board of all zeros both `backtracking()` and
`dancing_links()` return true, and each leaves a board with no zero cell in which every
row, column and box holds each digit 1..9 exactly once. -/
theorem zero_board_solved (mem : Links) :
    ∃ bt dl, backtracking zero_board = some (true, bt) ∧
      dancing_links mem zero_board = some (.value true, dl) ∧
      (NoZero bt ∧ Solved bt) ∧ (NoZero dl ∧ Solved dl) := by
  have hg : Completion zero_board grid1 := ⟨by decide, fun r _ c _ h => absurd rfl h⟩
  have hnz : ∀ g : Board, Solved g → NoZero g := by
    intro g hs r hr c hc h0
    have := mem_digits.mp (solved_cell_mem_digits hs hr hc)
    omega
  obtain ⟨bt, hbt, hsbt, -⟩ := backtracking_completion zero_board grid1 hg
  obtain ⟨dl, hdl, hsdl, -⟩ := dancing_links_complete mem zero_board grid1 hg
  exact ⟨bt, dl, hbt, hdl, ⟨hnz bt hsbt, hsbt⟩, ⟨hnz dl hsdl, hsdl⟩⟩

/-! ## Ring closure of the constructed links -/

/-- Following `nx` from the head of a ring visits the nodes of the ring in order and
then returns to the head. -/
theorem IsRing.iterate_get {nx pv : Ptr → Ptr} {h : Ptr} {L : List Ptr}
    (hr : IsRing nx pv h L) :
    (∀ k, k < L.length → L[k]? = some (nx^[k + 1] h)) ∧ nx^[L.length + 1] h = h := by
  refine ⟨?_, ?_⟩
  · intro k hk
    have hsplit : L = L.take k ++ L[k] :: L.drop (k + 1) := by
      rw [← List.drop_eq_getElem_cons hk, List.take_append_drop]
    have := hr.iterate_split (L.take k) (L.drop (k + 1)) L[k] hsplit
    rw [List.length_take, Nat.min_eq_left (by omega)] at this
    rw [this, List.getElem?_eq_getElem hk, ← this]
  · rcases List.eq_nil_or_concat L with rfl | ⟨pre, y, rfl⟩
    · simpa [firstOr] using hr.next_head
    · have h1 := hr.iterate_split pre [] y (by simp)
      have h2 : nx y = firstOr [] h := by
        have hr' : IsRing nx pv h (pre ++ y :: []) := by simpa using hr
        exact hr'.next_split
      rw [Function.iterate_succ_apply']
      have e : (pre.concat y).length = pre.length + 1 := by simp
      rw [e, h1, h2]
      rfl

theorem hs0_get (k : Nat) (hk : k < 324) : hs0[k]? = some (Ptr.node 0 k) := by
  simp [hs0, List.getElem?_map, List.getElem?_range hk]

theorem hs0_length : hs0.length = 324 := by simp [hs0]

/-- C11 (ring closure after construction): for every board and every prior content of
the link memory, in the links left by `create_link_mat` every node of a true matrix
entry satisfies `n.l.r = n`, `n.r.l = n`, `n.u.d = n`, `n.d.u = n`, and so does the
master header for `l` and `r`; following `r` from the master header visits the column
headers 0..323 in increasing order and is back at the master header after 325 steps;
following `d` from a column header visits, without repetition, exactly the true rows
1..729 of the column and then is back at the header. -/
theorem ring_closure (b : Board) (mem : Links) :
    (∀ i j, i < 730 → j < 324 → build_cover_mat b i j = true →
      (create_link_mat (build_cover_mat b) mem).r
          ((create_link_mat (build_cover_mat b) mem).l (.node i j)) = .node i j ∧
        (create_link_mat (build_cover_mat b) mem).l
          ((create_link_mat (build_cover_mat b) mem).r (.node i j)) = .node i j ∧
        (create_link_mat (build_cover_mat b) mem).d
          ((create_link_mat (build_cover_mat b) mem).u (.node i j)) = .node i j ∧
        (create_link_mat (build_cover_mat b) mem).u
          ((create_link_mat (build_cover_mat b) mem).d (.node i j)) = .node i j) ∧
      ((create_link_mat (build_cover_mat b) mem).r
          ((create_link_mat (build_cover_mat b) mem).l .header) = .header ∧
        (create_link_mat (build_cover_mat b) mem).l
          ((create_link_mat (build_cover_mat b) mem).r .header) = .header) ∧
      (∀ k, k < 324 → (create_link_mat (build_cover_mat b) mem).r^[k + 1] .header = .node 0 k) ∧
      (create_link_mat (build_cover_mat b) mem).r^[325] .header = .header ∧
      ∀ j, j < 324 → ∃ L : List Ptr, L.Nodup ∧
        (∀ p, p ∈ L ↔ ∃ i, 1 ≤ i ∧ i < 730 ∧ build_cover_mat b i j = true ∧ p = .node i j) ∧
        (∀ k, k < L.length →
          L[k]? = some ((create_link_mat (build_cover_mat b) mem).d^[k + 1] (.node 0 j))) ∧
        (create_link_mat (build_cover_mat b) mem).d^[L.length + 1] (.node 0 j) = .node 0 j := by
  have hzero : ∀ j, j < 324 → build_cover_mat b 0 j = true := fun j _ => build_cover_mat_zero b j
  have hrep := created_rep (build_cover_mat b) mem hzero
  have hH := hrep.hring.iterate_get
  refine ⟨?_, ?_, ?_, ?_, ?_⟩
  · intro i j hi hj hm
    have hv := hrep.v.vring j hj
    have hmemv : Ptr.node i j ∈ Ptr.node 0 j :: cols0 (build_cover_mat b) j := by
      by_cases h0 : i = 0
      · rw [h0]; exact List.mem_cons_self _ _
      · exact List.mem_cons_of_mem _
          ((mem_cols0 _ j (hzero j hj) _).mpr ⟨i, by omega, hi, hm, rfl⟩)
    refine ⟨?_, ?_, (hv.prev_mem hmemv).2, (hv.next_mem hmemv).2⟩
    · by_cases h0 : i = 0
      · rw [h0]
        exact (hrep.header_linked ((mem_hs0 _).mpr ⟨j, hj, rfl⟩)).1
      · obtain ⟨O, hO, -⟩ := hrep.rowRing i j (by omega) hi hj hm
        exact (hO.prev_mem (List.mem_cons_self _ _)).2
    · by_cases h0 : i = 0
      · rw [h0]
        exact (hrep.header_linked ((mem_hs0 _).mpr ⟨j, hj, rfl⟩)).2
      · obtain ⟨O, hO, -⟩ := hrep.rowRing i j (by omega) hi hj hm
        exact (hO.next_mem (List.mem_cons_self _ _)).2
  · exact ⟨(hrep.hring.prev_mem (List.mem_cons_self _ _)).2,
      (hrep.hring.next_mem (List.mem_cons_self _ _)).2⟩
  · intro k hk
    have := hH.1 k (by rw [hs0_length]; exact hk)
    rw [hs0_get k hk] at this
    exact (Option.some.inj this).symm
  · have := hH.2
    rw [hs0_length] at this
    exact this
  · intro j hj
    have hv := hrep.v.vring j hj
    exact ⟨cols0 (build_cover_mat b) j, (List.nodup_cons.mp hv.2).2,
      mem_cols0 _ j (hzero j hj), hv.iterate_get.1, hv.iterate_get.2⟩

/-! ## Boards with a digit twice in a row under `dancing_links` -/

/-- An exact cover of the matrix of `b` holds the candidate of every given. -/
theorem exactCover_given {b : Board} {T : Nat → Prop} (hT : ExactCover (build_cover_mat b) T)
    {r c d : Nat} (hr : r < 9) (hc : c < 9) (hd1 : 1 ≤ d) (hd : b r c = (d : Int)) :
    T (idx r c d) := by
  obtain ⟨i, ⟨hTi, hm⟩, -⟩ := hT.2 (r * 9 + c) (by omega)
  obtain ⟨hi1, hi2⟩ := hT.1 i hTi
  obtain ⟨e, b1, b2, b3, b4⟩ := cand_eq i hi1 hi2
  generalize (i - 1) / 81 = r' at e b1
  generalize (i - 1) / 9 % 9 = c' at e b2
  generalize (i - 1) % 9 + 1 = d' at e b3 b4
  rw [e, build_cover_mat_cand b r' c' d' b1 b2 b3 b4] at hm
  obtain ⟨hg, hj⟩ := hm
  simp only [candCols, List.mem_cons, List.mem_singleton, List.not_mem_nil, or_false] at hj
  have hrc : r' = r ∧ c' = c := by omega
  obtain ⟨rfl, rfl⟩ := hrc
  have hdd : d' = d := by
    by_contra hne
    apply hg
    rw [hd]
    exact ⟨by omega, by
      intro h
      exact hne (Int.ofNat_inj.mp h).symm⟩
  rw [← hdd, ← e]
  exact hTi

/-- The matrix of a board whose row `r` holds the digit 5 in two cells has no exact
cover. -/
theorem not_extendable_of_two_fives {b : Board} {r c1 c2 : Nat} (hr : r < 9) (hc1 : c1 < 9)
    (hc2 : c2 < 9) (hne : c1 ≠ c2) (h1 : b r c1 = 5) (h2 : b r c2 = 5) :
    ¬Extendable (build_cover_mat b) [] := by
  rintro ⟨T, hT, -⟩
  have t1 := exactCover_given hT (d := 5) hr hc1 (by omega) h1
  have t2 := exactCover_given hT (d := 5) hr hc2 (by omega) h2
  have m1 : build_cover_mat b (idx r c1 5) (81 + r * 9 + 4) = true := by
    rw [build_cover_mat_cand b r c1 5 hr hc1 (by omega) (by omega)]
    refine ⟨fun h => h.2 h1, ?_⟩
    simp [candCols]
  have m2 : build_cover_mat b (idx r c2 5) (81 + r * 9 + 4) = true := by
    rw [build_cover_mat_cand b r c2 5 hr hc2 (by omega) (by omega)]
    refine ⟨fun h => h.2 h2, ?_⟩
    simp [candCols]
  obtain ⟨i0, -, huniq⟩ := hT.2 (81 + r * 9 + 4) (by omega)
  have e1 := huniq _ ⟨t1, m1⟩
  have e2 := huniq _ ⟨t2, m2⟩
  rw [← e2, idx_eq, idx_eq] at e1
  omega

/-- On a board whose row `r` holds the digit 5 in two cells, control flows off the end
of the top call of `search`, which hands back no value, and the board is untouched. -/
theorem dancing_links_two_fives (mem : Links) {b : Board} {r c1 c2 : Nat} (hr : r < 9)
    (hc1 : c1 < 9) (hc2 : c2 < 9) (hne : c1 ≠ c2) (h1 : b r c1 = 5) (h2 : b r c2 = 5) :
    dancing_links mem b = some (.noValue, b) := by
  obtain ⟨ret, b', hcall, h | ⟨rfl, rfl, -⟩⟩ := dancing_links_spec mem b
  · obtain ⟨-, hg⟩ := h
    exact absurd ⟨gridRows b', exactCover_of_completion hg,
      fun p hp => absurd hp (List.not_mem_nil _)⟩
      (not_extendable_of_two_fives hr hc1 hc2 hne h1 h2)
  · exact hcall

/-- C13 (failing input): on the board `dup5`, whose row 0 holds the digit 5 in the
cells (0,0) and (0,4), `search` exhausts the rows of its first column, uncovers it and
flows off its end without a `return`: the value `dancing_links()` gets and returns is
not a definite false but no value at all. -/
theorem dancing_links_dup5 :
    dup5 0 0 = 5 ∧ dup5 0 4 = 5 ∧ dancing_links zero_mem dup5 = some (.noValue, dup5) :=
  ⟨by decide, by decide,
    dancing_links_two_fives zero_mem (r := 0) (by decide) (by decide : 0 < 9)
      (by decide : 4 < 9) (by decide) (by decide) (by decide)⟩

/-! ## Loading the board -/

theorem getD_cons_pos (num : Int) (rest : List Int) (n : Nat) (hn : 0 < n) :
    (num :: rest).getD n 0 = rest.getD (n - 1) 0 := by
  obtain ⟨k, rfl⟩ : ∃ k, n = k + 1 := ⟨n - 1, by omega⟩
  simp

/-- Cell by cell, what the loop leaves: the tokens from the current cell on, and the
old content elsewhere. -/
theorem ctor_loop_spec : ∀ (toks : List Int) (b : Board) (row col : Nat), row < 9 → col < 9 →
    ∀ r c, r < 9 → c < 9 →
      ctor_loop toks b row col r c =
        if row * 9 + col ≤ r * 9 + c ∧ r * 9 + c < row * 9 + col + toks.length
        then toks.getD (r * 9 + c - (row * 9 + col)) 0 else b r c := by
  intro toks
  induction toks with
  | nil =>
    intro b row col _ _ r c _ _
    have : ¬(row * 9 + col ≤ r * 9 + c ∧ r * 9 + c < row * 9 + col + ([] : List Int).length) := by
      simp only [List.length_nil]; omega
    rw [if_neg this]
    rfl
  | cons num rest ih =>
    intro b row col hrow hcol r c hr hc
    have hlen : (num :: rest).length = rest.length + 1 := rfl
    rw [hlen]
    by_cases hhere : r = row ∧ c = col
    · obtain ⟨rfl, rfl⟩ := hhere
      rw [if_pos ⟨le_refl _, by omega⟩, Nat.sub_self]
      show ctor_loop (num :: rest) b r c r c = num
      rw [ctor_loop]
      split
      · exact setCell_same _ _ _ _
      · split
        · rw [ih _ _ _ (by omega) (by omega) r c hr hc, if_neg (by omega)]
          exact setCell_same _ _ _ _
        · rw [ih _ _ _ hrow (by omega) r c hr hc, if_neg (by omega)]
          exact setCell_same _ _ _ _
    · have hother : setCell b row col num r c = b r c := setCell_other _ _ _ _ _ _ hhere
      have hkne : r * 9 + c ≠ row * 9 + col := by
        intro e; exact hhere (by omega)
      rw [ctor_loop]
      split
      · next h88 =>
        rw [hother, if_neg (by omega)]
      · split
        · next h8 =>
          rw [ih _ _ _ (by omega) (by omega) r c hr hc, hother]
          by_cases hin : row * 9 + col ≤ r * 9 + c ∧ r * 9 + c < row * 9 + col + (rest.length + 1)
          · rw [if_pos hin, if_pos (by omega), getD_cons_pos _ _ _ (by omega)]
            congr 1
            omega
          · rw [if_neg hin, if_neg (by omega)]
        · next h8 =>
          rw [ih _ _ _ hrow (by omega) r c hr hc, hother]
          by_cases hin : row * 9 + col ≤ r * 9 + c ∧ r * 9 + c < row * 9 + col + (rest.length + 1)
          · rw [if_pos hin, if_pos (by omega), getD_cons_pos _ _ _ (by omega)]
            congr 1
          · rw [if_neg hin, if_neg (by omega)]

/-- C16 (as amended): the constructor never reports an input-format error.  For every
token sequence it yields a board: the cells that the tokens reach, in reading order and
at most 81 of them, hold the tokens unchanged whatever their value, the other cells
keep what the uninitialised member held, and when at least 81 tokens are present and
the first 81 are in 0..9 every cell of the board is in 0..9. -/
theorem ctor_loads (mem : Board) (toks : List Int) :
    ∃ bd, Sudoku_ctor mem toks = some bd ∧
      (∀ r < 9, ∀ c < 9, r * 9 + c < toks.length → toks[r * 9 + c]? = some (bd r c)) ∧
      (∀ r < 9, ∀ c < 9, toks.length ≤ r * 9 + c → bd r c = mem r c) ∧
      (81 ≤ toks.length → (∀ t ∈ toks.take 81, 0 ≤ t ∧ t ≤ 9) → InRange bd) := by
  have hspec := ctor_loop_spec toks mem 0 0 (by omega) (by omega)
  have hcell : ∀ r < 9, ∀ c < 9, r * 9 + c < toks.length →
      toks[r * 9 + c]? = some (ctor_loop toks mem 0 0 r c) := by
    intro r hr c hc hlt
    rw [hspec r c hr hc, if_pos ⟨by omega, by omega⟩]
    simp only [Nat.zero_mul, Nat.add_zero, Nat.sub_zero]
    rw [List.getD_eq_getElem?_getD, List.getElem?_eq_getElem hlt]
    rfl
  refine ⟨ctor_loop toks mem 0 0, rfl, hcell, ?_, ?_⟩
  · intro r hr c hc hge
    rw [hspec r c hr hc, if_neg (by omega)]
  · intro hlen hrange r hr c hc
    have hlt : r * 9 + c < toks.length := by omega
    have hget := hcell r hr c hc hlt
    have hmem : ctor_loop toks mem 0 0 r c ∈ toks.take 81 := by
      rw [List.mem_iff_getElem?]
      refine ⟨r * 9 + c, ?_⟩
      rw [List.getElem?_take]
      rw [if_pos (by omega)]
      exact hget
    exact hrange _ hmem

/-- Counterexample to C16 as stated: on the single token 10, fewer than 81 tokens and
out of range, the constructor yields a board, with 10 in the cell (0, 0). -/
theorem ctor_no_error :
    ([10] : List Int).length < 81 ∧ (∃ t ∈ ([10] : List Int).take 81, t < 0 ∨ 9 < t) ∧
      Sudoku_ctor zero_board [10] = some (setCell zero_board 0 0 10) :=
  ⟨by decide, ⟨10, by decide, by decide⟩, rfl⟩

/-! ## The entries of `search` during a solve -/

/-- Every call that the row loop makes is made in a well-formed state whose trace is
one longer than the trace of the caller. -/
theorem rowsCall_spec {b0 : Board} {m : Mat} {cnt0 : Nat → Int}
    (h4 : ∀ i, 1 ≤ i → i < 730 → rowCount m i = 4 ∨ rowCount m i = 0)
    (rec : DLX → Option (Ret × DLX)) (k : Nat)
    (hrec : ∀ st, SInv m cnt0 st → st.solution.length = k + 1 →
      ∃ ret st', rec st = some (ret, st') ∧
        SPost b0 st.links st.solution st.board (¬Extendable m st.solution) ret st')
    {s lk : Links} {hs : List Ptr} {cols cols1 : Nat → List Ptr} {sol : List Ptr} {c : Nat}
    (hrep : Rep m cnt0 s hs cols) (hc : c < 324) (hin : Ptr.node 0 c ∈ hs)
    (hrep1 : Rep m cnt0 lk (hs.erase (.node 0 c)) cols1) (hcols1 : cols1 c = cols c)
    (htr : TraceOK m hs sol) (hk : sol.length = k) (bd : Board) (t : DLX) :
    ∀ (post pre : List Ptr) (st : DLX) (col row : Ptr), cols c = pre ++ post →
      st = { links := lk, solution := sol, set := false, board := bd } →
      col = .node 0 c → row = firstOr post (.node 0 c) →
      RowsCall rec st col row t → SInv m cnt0 t ∧ t.solution.length = k + 1 := by
  have hnd : hs.Nodup := (List.nodup_cons.mp hrep.hring.2).2
  intro post
  induction post with
  | nil =>
    intro pre st col row _ _ hcol hrow hcall
    have hrc : row = col := by rw [hrow, hcol]; rfl
    cases hcall with
    | here hne _ => exact absurd hrc hne
    | later hne _ _ _ _ _ => exact absurd hrc hne
  | cons x post ih =>
    intro pre st col row hsplit hst hcol hrow hcall
    have hrow' : row = x := hrow
    have hx : x ∈ cols c := by rw [hsplit]; simp
    obtain ⟨i, hi1, hi2, hm, rfl⟩ := hrep.v.vrows c hc x hx
    obtain ⟨O, hring, hO⟩ := hrep1.rowRing i c hi1 hi2 hc hm
    have hOnd : O.Nodup := (List.nodup_cons.mp hring.2).2
    have hO3 : O.length = 3 := others_length h4 hi1 hi2 hc hm hOnd hO
    have hact : ∀ j', j' < 324 → j' ≠ c → m i j' = true →
        Ptr.node 0 j' ∈ hs.erase (.node 0 c) := by
      intro j' hj' hjc hm'
      rw [hnd.mem_erase_iff]
      refine ⟨?_, (hrep.act c hc hin i hx j' hj' hm').1⟩
      intro e; injection e with e1 e2; exact hjc e2
    obtain ⟨lk3, hs3, cols3, hloop, hseq, hrep3, hmem3, hlen3⟩ :=
      cover_others hrep1 hi1 hi2 hring hO hact (by omega)
    have htr3 : TraceOK m hs3 (sol ++ [.node i c]) :=
      htr.extend hrep hc hin hx hO hmem3 hlen3 hO3
    have hinv3 : SInv m cnt0
        { links := lk3, solution := sol ++ [.node i c], set := false, board := bd } :=
      ⟨hs3, cols3, hrep3, rfl, htr3⟩
    subst hst hcol hrow'
    cases hcall with
    | here hne hl =>
      rw [hloop] at hl
      cases hl
      exact ⟨hinv3, by simp [hk]⟩
    | @later _ _ _ lk_a lk_b ret st2' _ hne hl hr hset hu hrest =>
      rw [hloop] at hl
      cases hl
      obtain ⟨ret', st2, hcall', hpost⟩ := hrec _ hinv3 (by simp [hk])
      rw [hcall'] at hr
      cases hr
      rcases hpost with ⟨h1, -⟩ | ⟨-, -, h3, h5, h6, -⟩
      · rw [hset] at h1
        exact absurd h1 (by decide)
      · have h3' : st2'.links = lk3 := h3
        have h5' : st2'.solution = sol ++ [.node i c] := h5
        have h6' : st2'.board = bd := h6
        have hback : ring_loop (fun s p => s.l p) uncover (.node i c) 324 lk3
            (lk3.l (.node i c)) = some lk := by
          refine uncover_others (by simpa [ptrRow] using hi1) hring ?_ (by omega) hseq
          intro y hy
          obtain ⟨j', -, -, -, rfl⟩ := (hO y).mp hy
          simpa [ptrRow] using hi1
        have hcx : lk3.c (.node i c) = .node 0 c := by
          rw [hseq.frame_c.1]
          exact (hrep1.v.static i c hi2 hc hm).1
        have hd : lk.d (.node i c) = firstOr post (.node 0 c) := by
          have hv := hrep1.v.vring c hc
          rw [hcols1, hsplit] at hv
          exact hv.next_split
        rw [h3', hback] at hu
        cases hu
        exact ih (pre ++ [.node i c]) _ _ _ (by rw [hsplit]; simp)
          (by rw [h5', dropLast_snoc, hset, h6']) (by rw [h3', hcx]) hd hrest

/-- Every entry of `search` during a solve is made in a well-formed state with `set`
false, and the length of the trace is the depth of the call. -/
theorem Entry.sinv {mem : Links} {b : Board} {fuel : Nat} {st : DLX}
    (h : Entry mem b fuel st) :
    SInv (build_cover_mat b) (fun j => (init_header mem).count (.node 0 j)) st ∧
      st.solution.length + fuel = 82 := by
  have h4 : ∀ i, 1 ≤ i → i < 730 →
      rowCount (build_cover_mat b) i = 4 ∨ rowCount (build_cover_mat b) i = 0 :=
    fun i h1 h2 => (cover_mat_row_counts b).1 i h1 (by omega)
  induction h with
  | top => exact ⟨initial_sinv mem b, rfl⟩
  | @call fuel st t col_n lk _ hne hmin hcov hrows ih =>
    obtain ⟨⟨hs, cols, hrep, hset, htr⟩, hlen⟩ := ih
    have hnext := hrep.hring.next_head
    cases hs with
    | nil => exact absurd hnext hne
    | cons c1 rest =>
      cases rest with
      | nil =>
        have := htr.size
        simp only [List.length_cons, List.length_nil] at this
        omega
      | cons c2 rest =>
        have hlenhs : rest.length + 2 ≤ 324 := by
          have := htr.size
          simp only [List.length_cons] at this
          omega
        obtain ⟨col, hmin', hcolmem, -⟩ := get_min_col_of_two st.links c1 c2 rest hrep.hring hlenhs
        rw [hmin] at hmin'
        cases hmin'
        obtain ⟨c, hc, rfl⟩ := hrep.hcols _ hcolmem
        have hcc : st.links.c (.node 0 c) = .node 0 c :=
          (hrep.v.static 0 c (by omega) hc (hrep.hzero c hc)).1
        obtain ⟨s1, cols1, hcov', hrep1, -, hcols1, -, -, -, -⟩ :=
          hrep.cover_spec hc hcolmem (.node 0 c) hcc
        rw [hcov] at hcov'
        cases hcov'
        have hd : lk.d (.node 0 c) = firstOr (cols c) (.node 0 c) := by
          have hv := hrep1.v.vring c hc
          rw [hcols1] at hv
          exact hv.next_head
        obtain ⟨hinv, hl⟩ := rowsCall_spec h4 (search fuel) st.solution.length
          (fun st' hst' hl' => search_spec fuel st' hst' (by omega))
          hrep hc hcolmem hrep1 hcols1 htr rfl st.board t (cols c) [] _ _ _ rfl
          (by rw [hset]) rfl hd hrows
        exact ⟨hinv, by omega⟩

/-- C18 (backtrack restoration in `search`): a call of `search` entered during a solve
returns, and when it ends with `set` still false, control flowed off its end and the
link memory (every `l`, `r`, `u`, `d` pointer and every count), the solution trace and
the board are exactly as they were when the call was entered. -/
theorem search_restores (mem : Links) (b : Board) (fuel : Nat) (st : DLX)
    (h : Entry mem b fuel st) :
    ∃ ret st', search fuel st = some (ret, st') ∧
      (st'.set = false → ret = .noValue ∧ st'.links = st.links ∧
        st'.solution = st.solution ∧ st'.board = st.board) := by
  obtain ⟨hinv, hlen⟩ := h.sinv
  obtain ⟨ret, st', hcall, hpost⟩ := search_spec fuel st hinv (by omega)
  refine ⟨ret, st', hcall, ?_⟩
  intro hset
  rcases hpost with ⟨h1, -⟩ | ⟨-, h2, h3, h4, h5, -⟩
  · rw [hset] at h1
    exact absurd h1 (by decide)
  · exact ⟨h2, h3, h4, h5⟩

/-- Witness for C18: the top call of `search` on the board `dup5`. -/
theorem search_restores_witness :
    ∃ ret st', search 82
        { links := create_link_mat (build_cover_mat dup5) (init_header zero_mem),
          solution := [], set := false, board := dup5 } = some (ret, st') ∧
      (st'.set = false → ret = .noValue ∧
        st'.links = create_link_mat (build_cover_mat dup5) (init_header zero_mem) ∧
        st'.solution = [] ∧ st'.board = dup5) :=
  search_restores zero_mem dup5 82
    (DLX.mk (create_link_mat (build_cover_mat dup5) (init_header zero_mem)) [] false dup5)
    Entry.top

/-- C20 (trace-size invariant of `search`): at every entry of `search` during a solve
the header ring holds 324 - 4 * solution.size() column headers; the length of the trace
is the depth of the call (82 minus the fuel of the call) and is at most 81; and when
the header ring is empty the trace holds exactly 81 row nodes, so that the call passes
the test `solution.size() == 81`, raises `set` and returns true. -/
theorem trace_size_invariant (mem : Links) (b : Board) (fuel : Nat) (st : DLX)
    (h : Entry mem b fuel st) :
    (∃ n, ring_len st.links.r .header 325 (st.links.r .header) = some n ∧
        n + 4 * st.solution.length = 324) ∧
      st.solution.length + fuel = 82 ∧ st.solution.length ≤ 81 ∧
      (st.links.r .header = .header → st.solution.length = 81 ∧
        ∃ st', search fuel st = some (.value true, st') ∧ st'.set = true) := by
  obtain ⟨⟨hs, cols, hrep, hset, htr⟩, hlen⟩ := h.sinv
  have hsize := htr.size
  refine ⟨⟨hs.length, hrep.hring.len_eq 325 (by omega), hsize⟩, hlen, by omega, ?_⟩
  intro hleaf
  have hnil : hs = [] := by
    cases hs with
    | nil => rfl
    | cons c1 rest =>
      have hnext : st.links.r .header = c1 := hrep.hring.next_head
      have hnot := (List.nodup_cons.mp hrep.hring.2).1
      rw [← hleaf, hnext] at hnot
      exact absurd (List.mem_cons_self _ _) hnot
  rw [hnil] at hsize
  simp only [List.length_nil] at hsize
  have hlen81 : st.solution.length = 81 := by omega
  have hfuel : fuel = 1 := by omega
  subst hfuel
  refine ⟨hlen81, DLX.mk st.links st.solution true
    (set_DLX_sol st.links st.solution st.board), ?_, rfl⟩
  simp only [search, hleaf, if_true, hset, hlen81]
  simp

/-- Witness for C20: the top call of `search` on the grid `puzzle1`. -/
theorem trace_size_invariant_witness :
    (∃ n, ring_len (create_link_mat (build_cover_mat puzzle1) (init_header zero_mem)).r
          .header 325
          ((create_link_mat (build_cover_mat puzzle1) (init_header zero_mem)).r .header)
          = some n ∧ n + 4 * ([] : List Ptr).length = 324) ∧
      ([] : List Ptr).length + 82 = 82 ∧ ([] : List Ptr).length ≤ 81 ∧
      ((create_link_mat (build_cover_mat puzzle1) (init_header zero_mem)).r .header = .header →
        ([] : List Ptr).length = 81 ∧
        ∃ st', search 82
          { links := create_link_mat (build_cover_mat puzzle1) (init_header zero_mem),
            solution := [], set := false, board := puzzle1 } = some (.value true, st') ∧
          st'.set = true) :=
  trace_size_invariant zero_mem puzzle1 82
    (DLX.mk (create_link_mat (build_cover_mat puzzle1) (init_header zero_mem)) [] false puzzle1)
    Entry.top

/-! ## The column choice at the entries of `search` -/

/-- After `create_link_mat` the header ring is not empty. -/
theorem top_ring_nonempty (mem : Links) (b : Board) :
    (create_link_mat (build_cover_mat b) (init_header mem)).r .header ≠ .header := by
  have hring := created_hring (build_cover_mat b) (init_header mem)
    (fun j _ => build_cover_mat_zero b j)
  have hnext : (create_link_mat (build_cover_mat b) (init_header mem)).r .header = .node 0 0 := by
    have := hring.next_head
    rw [this]
    rfl
  rw [hnext]
  intro e
  cases e

/-- C10 (column choice): `get_min_col()` is called at the entries of `search` whose
header ring is not empty (`header->r != header`, at least one column header).  In every
such state it returns a node that is a column header, is a member of the header ring
and not the master header, and whose count is less than or equal to the count of every
column header in the ring. -/
theorem get_min_col_entry (mem : Links) (b : Board) (fuel : Nat) (st : DLX)
    (h : Entry mem b fuel st) (hne : st.links.r .header ≠ .header) :
    ∃ c, get_min_col st.links = some c ∧ InHeaderRing st.links c ∧
      (∃ j, j < 324 ∧ c = .node 0 j) ∧
      ∀ c', InHeaderRing st.links c' → st.links.count c ≤ st.links.count c' := by
  obtain ⟨⟨hs, cols, hrep, -, htr⟩, -⟩ := h.sinv
  have hnext := hrep.hring.next_head
  cases hs with
  | nil => exact absurd hnext hne
  | cons c1 rest =>
    cases rest with
    | nil =>
      have := htr.size
      simp only [List.length_cons, List.length_nil] at this
      omega
    | cons c2 rest =>
      have hlenhs : rest.length + 2 ≤ 324 := by
        have := htr.size
        simp only [List.length_cons] at this
        omega
      obtain ⟨c, hmin, hmem, hle⟩ := get_min_col_of_two st.links c1 c2 rest hrep.hring hlenhs
      refine ⟨c, hmin, (inHeaderRing_iff hrep.hring c).mpr hmem, hrep.hcols c hmem, ?_⟩
      intro c' hc'
      exact hle c' ((inHeaderRing_iff hrep.hring c').mp hc')

/-- Witness for C10: the top call of `search` on the grid `puzzle1`. -/
theorem get_min_col_entry_witness :
    (create_link_mat (build_cover_mat puzzle1) (init_header zero_mem)).r .header ≠ .header ∧
      ∃ c, get_min_col (create_link_mat (build_cover_mat puzzle1) (init_header zero_mem)) = some c ∧
        InHeaderRing (create_link_mat (build_cover_mat puzzle1) (init_header zero_mem)) c ∧
        (∃ j, j < 324 ∧ c = .node 0 j) ∧
        ∀ c', InHeaderRing (create_link_mat (build_cover_mat puzzle1) (init_header zero_mem)) c' →
          (create_link_mat (build_cover_mat puzzle1) (init_header zero_mem)).count c ≤
            (create_link_mat (build_cover_mat puzzle1) (init_header zero_mem)).count c' :=
  ⟨top_ring_nonempty zero_mem puzzle1,
    get_min_col_entry zero_mem puzzle1 82
      (DLX.mk (create_link_mat (build_cover_mat puzzle1) (init_header zero_mem)) [] false puzzle1)
      Entry.top (top_ring_nonempty zero_mem puzzle1)⟩

end Sudoku
